import Mathlib

/-!
# Bookstore storage layer: unrolled linked list index and catalog index set

A shallow embedding of `src/List/UnrolledLinkedList.cc`, `src/Files/FileSystem.h`
and `src/Book/BookSystem.cc`, followed by the properties proved about it.

Conventions of the embedding.

* A key is the byte string held in `char str[kMaxKeyLen]` up to its terminating
  NUL; `strcmp` compares such strings byte by byte.
* `kMaxBlockSize` and `kMaxBlockCnt` are declared in a header that is not part of
  the sources at hand; every definition takes them as the parameters `K` and `N`.
* The block-storage file is a map from cell id to the entries written at the
  start of that cell; entries never written read as zero bytes, which is the
  default-constructed entry.
* `blocks[0]` is a sentinel that no operation reads; the embedding keeps
  `blocks[1..]`, so source index `i` is list index `i - 1`.
* `std::lower_bound` and `strcmp` are library calls and are embedded by their
  contracts. An access outside a buffer, outside the block vector or into an
  empty free pool ends the call with `Failure.undefined`.
* The slot store keeps the error state of its `std::fstream`: a read at or past
  the end of the file and a seek before its start set `failbit`, after which
  reads return the default-constructed record and writes are dropped.
* An `int` that the catalog computes, the stock count, is reduced to the 32-bit
  range as the machine leaves it (`wrapInt`); a `double` is the rational it
  stands for, and the addition of `double`s is a parameter where it occurs.
* `BookSystem.cc` is written against index classes whose header is not among
  the sources; they are modelled from the specification (`Table`,
  `UniqueTable`).
* `BookInfo::operator<` is declared in that missing header as well; the
  searches that sort take it as the parameter `lt`, and `std::sort` is embedded
  by its contract.
-/

namespace bookstore

namespace list

deriving instance DecidableEq for Except

/-! ## Keys and entries -/

/-- Bytes of a NUL-terminated C string. -/
abbrev KeyType := List Nat

/-- Sign of the C library comparison of two NUL-terminated strings. -/
def strcmp : List Nat → List Nat → Int
  | [], [] => 0
  | [], _ :: _ => -1
  | _ :: _, [] => 1
  | a :: as, b :: bs => if a = b then strcmp as bs else if a < b then -1 else 1

namespace KeyType

/-- Source: `KeyType::operator<`. -/
def lt (x y : KeyType) : Bool := decide (strcmp x y < 0)

/-- Source: `KeyType::operator>`. -/
def gt (x y : KeyType) : Bool := decide (strcmp x y > 0)

/-- Source: `KeyType::operator==`. -/
def eq (x y : KeyType) : Bool := decide (strcmp x y = 0)

/-- Source: `KeyType::operator!=`. -/
def ne (x y : KeyType) : Bool := !(eq x y)

/-- Source: `KeyType::operator<=`. -/
def le (x y : KeyType) : Bool := !(gt x y)

/-- Source: `KeyType::operator>=`. -/
def ge (x y : KeyType) : Bool := !(lt x y)

end KeyType

/-- Source: `class DataType`, a key with its integer value. -/
structure DataType where
  key : KeyType
  value : Int
deriving DecidableEq, Repr

/-- Source: `DataType()`, the all-zero entry. -/
instance : Inhabited DataType := ⟨⟨[], 0⟩⟩

namespace DataType

/-- Source: `DataType::operator<`. -/
def lt (x y : DataType) : Bool :=
  if KeyType.eq x.key y.key then decide (x.value < y.value) else KeyType.lt x.key y.key

/-- Source: `DataType::operator>`. -/
def gt (x y : DataType) : Bool :=
  if KeyType.eq x.key y.key then decide (x.value > y.value) else KeyType.gt x.key y.key

/-- Source: `DataType::operator==`. -/
def eq (x y : DataType) : Bool := KeyType.eq x.key y.key && decide (x.value = y.value)

/-- Source: `DataType::operator!=`. -/
def ne (x y : DataType) : Bool := !(eq x y)

/-- Source: `DataType::operator<=`. -/
def le (x y : DataType) : Bool := !(gt x y)

/-- Source: `DataType::operator>=`. -/
def ge (x y : DataType) : Bool := !(lt x y)

end DataType

/-- Strict order on entries, as `operator<` decides it. -/
instance : LT DataType := ⟨fun x y => DataType.lt x y = true⟩

/-- Weak order on entries, as `operator<=` decides it. -/
instance : LE DataType := ⟨fun x y => DataType.le x y = true⟩

instance (x y : DataType) : Decidable (x < y) :=
  inferInstanceAs (Decidable (DataType.lt x y = true))

instance (x y : DataType) : Decidable (x ≤ y) :=
  inferInstanceAs (Decidable (DataType.le x y = true))

/-! ## Blocks, the free pool and the block-storage file -/

/-- Source: `class ListBlock`. The `data` pointer is only meaningful between
`allocate` and `deallocate`; the embedding passes the buffer explicitly. -/
structure ListBlock where
  head : DataType
  tail : DataType
  len : Nat
  pos : Int
deriving DecidableEq, Repr

/-- How a call can end other than by returning: the two exceptions of the
source, and `undefined` for an access outside the `kMaxBlockSize`-entry buffer,
outside the block vector or into an empty free pool. -/
inductive Failure where
  | inserted
  | notFound
  | undefined
deriving DecidableEq, Repr

/-- Block-storage file: cell id to the entries written at the start of the cell. -/
abbrev File := Int → List DataType

/-- Source: the data members of `class UnrolledLinkedList`. `free_blocks` is the
`std::set<int>` as the ascending list of its members. -/
structure UnrolledLinkedList where
  blocks : List ListBlock
  free_blocks : List Int
  file : File

/-- State left behind by a call together with what it threw, if anything. -/
structure Result where
  state : UnrolledLinkedList
  thrown : Option Failure

/-- `std::set<int>::insert`. -/
def setInsert (x : Int) : List Int → List Int
  | [] => [x]
  | y :: ys => if x < y then x :: y :: ys else if x = y then y :: ys else y :: setInsert x ys

/-- `std::set<int>::erase` by key. -/
def setErase (x : Int) (l : List Int) : List Int := l.filter fun y => decide (y ≠ x)

/-- First `n` entries of a cell; what was never written reads as zero bytes. -/
def readCell (cell : List DataType) (n : Nat) : List DataType :=
  cell.take n ++ List.replicate (n - cell.length) default

/-- Source: `UnrolledLinkedList::allocate`. A fresh buffer of `K` default
entries whose first `cur.len` entries are read from cell `cur.pos`; reading more
than `K` entries overruns the buffer. -/
def allocate (K : Nat) (file : File) (cur : ListBlock) : Option (List DataType) :=
  if cur.len ≤ K then
    some (readCell (file cur.pos) cur.len ++ List.replicate (K - cur.len) default)
  else none

/-- Source: `UnrolledLinkedList::deallocate`. Writes the first `cur.len` buffer
entries at the start of cell `cur.pos`. -/
def deallocate (file : File) (cur : ListBlock) (data : List DataType) : File :=
  Function.update file cur.pos (data.take cur.len ++ (file cur.pos).drop cur.len)

/-- `std::lower_bound(data, data + len, tmp) - data` on a range partitioned by
`operator<`: the number of leading entries less than `tmp`. -/
def lower_bound (data : List DataType) (len : Nat) (tmp : DataType) : Nat :=
  ((data.take len).takeWhile fun e => e.lt tmp).length

namespace ListBlock

/-- Source: `UnrolledLinkedList::insert(ListBlock&, const DataType&)`. -/
def insert (K : Nat) (file : File) (cur : ListBlock) (tmp : DataType) :
    Except Failure (ListBlock × File) :=
  match allocate K file cur with
  | none => .error .undefined
  | some data =>
    let pos := lower_bound data cur.len tmp
    match data[pos]? with
    | none => .error .undefined
    | some d =>
      if d.eq tmp then .error .inserted
      else if cur.len < K then
        let cur1 := if pos = 0 then { cur with head := tmp } else cur
        let cur2 := if pos = cur.len then { cur1 with tail := tmp } else cur1
        let data1 := data.take pos ++ tmp :: (data.drop pos).take (cur.len - pos)
          ++ data.drop (cur.len + 1)
        let cur3 := { cur2 with len := cur.len + 1 }
        .ok (cur3, deallocate file cur3 data1)
      else .error .undefined

/-- Source: `UnrolledLinkedList::erase(ListBlock&, const DataType&)`. -/
def erase (K : Nat) (file : File) (cur : ListBlock) (tmp : DataType) :
    Except Failure (ListBlock × File) :=
  match allocate K file cur with
  | none => .error .undefined
  | some data =>
    let pos := lower_bound data cur.len tmp
    match data[pos]? with
    | none => .error .undefined
    | some d =>
      if d.ne tmp then .error .notFound
      else if pos < cur.len then
        let cur1 := if pos = 0 ∧ cur.len ≠ 1 then { cur with head := data.getD (pos + 1) default }
          else cur
        let cur2 := if pos = cur.len - 1 ∧ cur.len ≠ 1 then
          { cur1 with tail := data.getD (pos - 1) default } else cur1
        let data1 := data.take pos ++ (data.drop (pos + 1)).take (cur.len - (pos + 1))
          ++ data.drop (cur.len - 1)
        let cur3 := { cur2 with len := cur.len - 1 }
        .ok (cur3, deallocate file cur3 data1)
      else .error .undefined

/-- Source: `UnrolledLinkedList::find(ListBlock&, const char*)`. -/
def find (K : Nat) (file : File) (cur : ListBlock) (key : KeyType) : Except Failure (List Int) :=
  match allocate K file cur with
  | none => .error .undefined
  | some data =>
    if cur.len = 0 then .ok []
    else
      let pos := lower_bound data cur.len ⟨key, 0⟩
      .ok ((((data.take cur.len).drop pos).takeWhile fun e => !(KeyType.gt e.key key)).map
        DataType.value)

end ListBlock

/-- Source: `UnrolledLinkedList::split`. Returns the shrunk block, the new
block, the file and the free pool. -/
def split (K : Nat) (file : File) (free_blocks : List Int) (cur : ListBlock) :
    Except Failure (ListBlock × ListBlock × File × List Int) :=
  let nex : ListBlock := ⟨default, default, cur.len, cur.pos⟩
  match allocate K file cur, allocate K file nex with
  | some data, some ndata =>
    let nlen := nex.len / 2
    let clen := cur.len - nlen
    let ndata1 := (data.drop clen).take nlen ++ ndata.drop nlen
    if clen = 0 ∨ nlen = 0 then .error .undefined
    else
      let cur1 := { cur with len := clen, tail := data.getD (clen - 1) default }
      let nex1 := { nex with len := nlen, head := ndata1.getD 0 default,
                             tail := ndata1.getD (nlen - 1) default }
      let file1 := deallocate file cur1 data
      match free_blocks with
      | [] => .error .undefined
      | nex_pos :: _ =>
        let free1 := setErase nex_pos free_blocks
        let nex2 := { nex1 with pos := nex_pos }
        .ok (cur1, nex2, deallocate file1 nex2 ndata1, free1)
  | _, _ => .error .undefined

/-- The block search loop shared by `insert` and `erase`: index of the first
block with `tmp <= tail`. -/
def locate (tmp : DataType) : List ListBlock → Option Nat
  | [] => none
  | b :: bs => if tmp.le b.tail then some 0 else (locate tmp bs).map (· + 1)

namespace UnrolledLinkedList

/-- Source: `UnrolledLinkedList::insert(const char*, const int)`. -/
def insert (K : Nat) (s : UnrolledLinkedList) (key : KeyType) (value : Int) : Result :=
  let tmp : DataType := ⟨key, value⟩
  if s.blocks.length = 0 then
    let cur : ListBlock := ⟨default, default, 0, 1⟩
    let s1 : UnrolledLinkedList :=
      { s with blocks := s.blocks ++ [cur], free_blocks := setErase 1 s.free_blocks }
    match ListBlock.insert K s1.file cur tmp with
    | .error e => ⟨s1, some e⟩
    | .ok (cur1, file1) => ⟨{ s1 with blocks := [cur1], file := file1 }, none⟩
  else
    let pos := (locate tmp s.blocks).getD (s.blocks.length - 1)
    match s.blocks[pos]? with
    | none => ⟨s, some .undefined⟩
    | some cur =>
      match ListBlock.insert K s.file cur tmp with
      | .error e => ⟨s, some e⟩
      | .ok (cur1, file1) =>
        if K ≤ cur1.len then
          match split K file1 s.free_blocks cur1 with
          | .error e => ⟨{ s with blocks := s.blocks.set pos cur1, file := file1 }, some e⟩
          | .ok (cur2, nex, file2, free2) =>
            ⟨{ blocks := s.blocks.take pos ++ cur2 :: nex :: s.blocks.drop (pos + 1),
               free_blocks := free2, file := file2 }, none⟩
        else ⟨{ s with blocks := s.blocks.set pos cur1, file := file1 }, none⟩

/-- Source: `UnrolledLinkedList::erase(const char*, const int)`. After
`blocks.erase(blocks.begin() + pos)` the source reads `blocks[pos]`: that is the
block that followed the erased one, or, when the erased block was the last, the
vector slot one past the new end, which still holds the erased block. -/
def erase (K : Nat) (s : UnrolledLinkedList) (key : KeyType) (value : Int) : Result :=
  let tmp : DataType := ⟨key, value⟩
  if s.blocks.length = 0 then ⟨s, some .notFound⟩
  else
    match locate tmp s.blocks with
    | none => ⟨s, none⟩
    | some pos =>
      match s.blocks[pos]? with
      | none => ⟨s, some .undefined⟩
      | some cur =>
        match ListBlock.erase K s.file cur tmp with
        | .error e => ⟨s, some e⟩
        | .ok (cur1, file1) =>
          if cur1.len = 0 then
            let blocks1 := s.blocks.eraseIdx pos
            let freed := (blocks1[pos]?.getD cur1).pos
            ⟨{ blocks := blocks1, free_blocks := setInsert freed s.free_blocks, file := file1 },
              none⟩
          else ⟨{ s with blocks := s.blocks.set pos cur1, file := file1 }, none⟩

/-- The loop of `UnrolledLinkedList::find(const char*)` over `blocks[1..]`. -/
def findLoop (K : Nat) (file : File) (key : KeyType) : List ListBlock → Except Failure (List Int)
  | [] => .ok []
  | b :: bs =>
    if KeyType.gt b.head.key key then .ok []
    else if KeyType.ge b.tail.key key then
      match ListBlock.find K file b key with
      | .error e => .error e
      | .ok r =>
        match findLoop K file key bs with
        | .error e => .error e
        | .ok rs => .ok (r ++ rs)
    else findLoop K file key bs

/-- Source: `UnrolledLinkedList::find(const char*)`. -/
def find (K : Nat) (s : UnrolledLinkedList) (key : KeyType) : Except Failure (List Int) :=
  findLoop K s.file key s.blocks

end UnrolledLinkedList

/-! ## Start-up and teardown -/

/-- Metadata log: the block count, then entry count and cell id of each block. -/
structure Log where
  count : Nat
  rows : List (Nat × Int)
deriving DecidableEq, Repr

/-- The loop of the constructor over the rows of the log: each row becomes a
block whose `head` and `tail` are read back from its cell. -/
def loadRows (K : Nat) : File → List Int → List (Nat × Int) →
    Except Failure (List ListBlock × List Int × File)
  | file, free, [] => .ok ([], free, file)
  | file, free, (len, pos) :: rows =>
    let b : ListBlock := ⟨default, default, len, pos⟩
    match allocate K file b with
    | none => .error .undefined
    | some data =>
      match data[0]?, (if len = 0 then none else data[len - 1]?) with
      | some h, some t =>
        let b1 : ListBlock := { b with head := h, tail := t }
        match loadRows K (deallocate file b1 data) (setErase pos free) rows with
        | .error e => .error e
        | .ok (bs, free2, file2) => .ok (b1 :: bs, free2, file2)
      | _, _ => .error .undefined

namespace UnrolledLinkedList

/-- Source: `UnrolledLinkedList::UnrolledLinkedList`. `log` is the metadata log
when the log file exists; without it the block-storage file is truncated. -/
def construct (K N : Nat) (log : Option Log) (file : File) : Except Failure UnrolledLinkedList :=
  let free := (List.range' 1 N).map Int.ofNat
  match log with
  | none => .ok ⟨[], free, fun _ => []⟩
  | some lg =>
    if lg.rows.length < lg.count then .error .undefined
    else
      match loadRows K file free (lg.rows.take lg.count) with
      | .error e => .error e
      | .ok (bs, free1, file1) => .ok ⟨bs, free1, file1⟩

/-- Source: `UnrolledLinkedList::~UnrolledLinkedList`, the log it writes. -/
def destruct (s : UnrolledLinkedList) : Log :=
  ⟨s.blocks.length, s.blocks.map fun b => (b.len, b.pos)⟩

end UnrolledLinkedList

/-! ## Observations used to state the properties -/

/-- Entries a block holds: what `allocate` reads for it. -/
def stored (file : File) (b : ListBlock) : List DataType := readCell (file b.pos) b.len

/-- Entries of the index, blocks in sequence order, entries in stored order. -/
def entries (s : UnrolledLinkedList) : List DataType := (s.blocks.map (stored s.file)).flatten

/-- Well-formed index state: every block holds at least one entry and fewer
than `K`, the size of the buffer it is read into (a block that reaches `K` is
split before `insert` returns); the entries are strictly ascending across the
whole block sequence; every block caches its first and last stored entry. -/
def WellFormed (K : Nat) (s : UnrolledLinkedList) : Prop :=
  (∀ b ∈ s.blocks, 0 < b.len ∧ b.len < K) ∧
  (entries s).Pairwise (· < ·) ∧
  (∀ b ∈ s.blocks, (stored s.file b).head? = some b.head ∧
    (stored s.file b).getLast? = some b.tail)

instance (K : Nat) (s : UnrolledLinkedList) : Decidable (WellFormed K s) := by
  unfold WellFormed
  infer_instance

/-- Values the entries `es` pair with `key`, negative values left out, in order. -/
def valuesOf (key : KeyType) (es : List DataType) : List Int :=
  (es.filter fun e => decide (e.key = key ∧ 0 ≤ e.value)).map DataType.value

/-- A caller inserting the pairs one after the other, going on after a throw. -/
def insertAll (K : Nat) (s : UnrolledLinkedList) : List DataType → UnrolledLinkedList
  | [] => s
  | e :: es => insertAll K (UnrolledLinkedList.insert K s e.key e.value).state es

/-- The free pool is non-empty whenever a call of the sequence starts. -/
def poolLasts (K : Nat) (s : UnrolledLinkedList) : List DataType → Bool
  | [] => true
  | e :: es => !s.free_blocks.isEmpty &&
      poolLasts K (UnrolledLinkedList.insert K s e.key e.value).state es

/-- An index without blocks whose pool holds the cell ids 1 to 4. -/
def demoIndex : UnrolledLinkedList := ⟨[], [1, 2, 3, 4], fun _ => []⟩

/-- Four calls, the third repeating the first pair. -/
def demoOps : List DataType := [⟨[2], 1⟩, ⟨[1], 1⟩, ⟨[2], 1⟩, ⟨[3], 2⟩]

/-- The index after `demoOps` with block capacity 2: three blocks of one entry. -/
def demoState : UnrolledLinkedList := insertAll 2 demoIndex demoOps

/-- An index with block capacity 4 holding `([1],1), ([2],1)` in the block of
cell 1 and `([2],3), ([2],5), ([3],2)` in the block of cell 2. -/
def demoWide : UnrolledLinkedList :=
  insertAll 4 demoIndex [⟨[2], 5⟩, ⟨[1], 1⟩, ⟨[2], 1⟩, ⟨[2], 3⟩, ⟨[3], 2⟩]

/-- The index after the first call of `demoOps`: one block of one entry, which
the next insertion fills and splits. -/
def demoOne : UnrolledLinkedList := (UnrolledLinkedList.insert 2 demoIndex [2] 1).state

/-- No cell id of a block in the sequence is in the free pool. -/
def FreeOK (s : UnrolledLinkedList) : Prop := ∀ b ∈ s.blocks, b.pos ∉ s.free_blocks

instance (s : UnrolledLinkedList) : Decidable (FreeOK s) := by
  unfold FreeOK
  infer_instance

/-- The index after `insert([1], -1)` on `demoIndex` with block capacity 4: one
block storing the pair `([1], -1)`. -/
def demoNegative : UnrolledLinkedList := (UnrolledLinkedList.insert 4 demoIndex [1] (-1)).state

/-- The index `demoNegative` after `insert([1], 2)`: one block storing
`([1], -1), ([1], 2)`. -/
def demoMixed : UnrolledLinkedList := (UnrolledLinkedList.insert 4 demoNegative [1] 2).state

/-- The index after `insert("", -1)` on `demoIndex` with block capacity 4: one
block storing the pair `("", -1)`. -/
def demoBelow : UnrolledLinkedList := (UnrolledLinkedList.insert 4 demoIndex [] (-1)).state

/-- The cached boundaries are accurate: every block caches its first and last
stored entry, every entry of a block lies between the block's `head` and
`tail`, and of two consecutive blocks the first has the `tail` not above the
`head` of the second. -/
def CachesAccurate (s : UnrolledLinkedList) : Prop :=
  (∀ b ∈ s.blocks, (stored s.file b).head? = some b.head ∧
    (stored s.file b).getLast? = some b.tail ∧
    ∀ e ∈ stored s.file b, b.head ≤ e ∧ e ≤ b.tail) ∧
  s.blocks.Chain' fun A B => A.tail ≤ B.head

instance (s : UnrolledLinkedList) : Decidable (CachesAccurate s) := by
  unfold CachesAccurate
  infer_instance

/-- A call of `insert` or of `erase`. -/
inductive Op where
  | insert (key : KeyType) (value : Int)
  | erase (key : KeyType) (value : Int)
deriving DecidableEq, Repr

/-- The value a call passes. -/
def Op.value : Op → Int
  | .insert _ v => v
  | .erase _ v => v

/-- The call made on the index `s`. -/
def Op.run (K : Nat) (s : UnrolledLinkedList) : Op → Result
  | .insert k v => UnrolledLinkedList.insert K s k v
  | .erase k v => UnrolledLinkedList.erase K s k v

/-- A caller making the calls one after the other, going on after a throw. -/
def runOps (K : Nat) (s : UnrolledLinkedList) : List Op → UnrolledLinkedList
  | [] => s
  | op :: ops => runOps K (op.run K s).state ops

/-- The free pool is non-empty whenever an `insert` of the sequence starts. -/
def poolHolds (K : Nat) (s : UnrolledLinkedList) : List Op → Bool
  | [] => true
  | .insert k v :: ops => !s.free_blocks.isEmpty &&
      poolHolds K (UnrolledLinkedList.insert K s k v).state ops
  | .erase k v :: ops => poolHolds K (UnrolledLinkedList.erase K s k v).state ops

/-- Every block holds at least one entry and fewer than the `K` its buffer has
room for. -/
def BlocksFit (K : Nat) (s : UnrolledLinkedList) : Prop :=
  ∀ b ∈ s.blocks, 1 ≤ b.len ∧ b.len ≤ K - 1

instance (K : Nat) (s : UnrolledLinkedList) : Decidable (BlocksFit K s) := by
  unfold BlocksFit
  infer_instance

/-- Six calls with block capacity 2 that fill, split and empty blocks. -/
def demoCalls : List Op :=
  [.insert [2] 1, .insert [1] 1, .insert [3] 2, .erase [1] 1, .insert [1] 5, .erase [9] 9]

/-- The index the constructor leaves when there is no log: no blocks, the pool
`1, ..., N` for `kMaxBlockCnt = N`, and an empty block-storage file. -/
def freshIndex (N : Nat) : UnrolledLinkedList :=
  ⟨[], (List.range' 1 N).map Int.ofNat, fun _ => []⟩

/-- The `i`-th of a run of two-byte keys in ascending order: the bytes
`1 + i / 250` and `1 + i % 250`. -/
def demoKey (i : Nat) : KeyType := [1 + i / 250, 1 + i % 250]

/-- Five thousand pairs with strictly increasing keys, the `i`-th with value
`i + 1`. -/
def demoAscending : List DataType :=
  (List.range 5000).map fun i => ⟨demoKey i, (i : Int) + 1⟩

/-- The shape ascending insertions keep, for block capacity `2 * m` and the pool
of a fresh index with `kMaxBlockCnt = N`: the index is well formed and stores
`E`; it has `t` blocks of `m` entries followed by one block of `r` entries,
`1 <= r < 2 * m`, and `m <= r` unless that block is the only one; the pool holds
the cell ids from `t + 2` on. -/
def AscendingShape (m N : Nat) (s : UnrolledLinkedList) (E : List DataType) (t r : Nat) :
    Prop :=
  WellFormed (2 * m) s ∧ FreeOK s ∧ entries s = E ∧
  s.blocks.map (fun b => b.len) = List.replicate t m ++ [r] ∧
  (1 ≤ r ∧ r < 2 * m ∧ (1 ≤ t → m ≤ r)) ∧
  s.free_blocks = (List.range' (t + 2) (N - (t + 1))).map Int.ofNat ∧
  E.length = t * m + r

/-- Every call of the sequence returns without throwing. -/
def allReturn (K : Nat) (s : UnrolledLinkedList) : List Op → Bool
  | [] => true
  | op :: ops => (op.run K s).thrown.isNone && allReturn K (op.run K s).state ops

/-- Five calls with block capacity 2: three inserts, of which the second and
the third split a block, the erase of the first block's only entry, and an
insert that splits the last block. -/
def demoReuse : List Op :=
  [.insert [2] 1, .insert [1] 1, .insert [3] 2, .erase [1] 1, .insert [2] 2]

/-- The index after the first four calls of `demoReuse`, all of which return:
two blocks, in the cells 2 and 3, and the pool `2, 4`. -/
def demoFreed : UnrolledLinkedList := runOps 2 demoIndex (demoReuse.take 4)

/-- Eight calls with block capacity 4, each of which returns: four inserts, of
which the last splits the block, two erases that empty the first block, and two
inserts, of which the last splits again. -/
def demoShare : List Op :=
  [.insert [1] 1, .insert [2] 1, .insert [3] 1, .insert [4] 1, .erase [1] 1, .erase [2] 1,
   .insert [5] 1, .insert [6] 1]

/-- The index the calls of `demoShare` leave. -/
def demoShared : UnrolledLinkedList := runOps 4 demoIndex demoShare

/-- Five thousand pairs with the strictly increasing keys of `demoAscending`,
the `i`-th with the value `-(i + 1)`. -/
def demoFalling : List DataType :=
  (List.range 5000).map fun i => ⟨demoKey i, -((i : Int) + 1)⟩

end list

/-! ## Slot store -/

namespace file

/-- Source: `BaseFileSystem<DataType>`, a file of fixed-width records behind the
one `std::fstream file`; record `p` is the `p`-th record of the file. `failed`
is the error state of the stream, `failbit` set: once set it stays, since no
member but `search` calls `clear()`. `eofbit` is set only by a read that also
sets `failbit`, and `seekg` clears it again, so `failed` tells all that the
members observe. -/
structure BaseFileSystem (α : Type) where
  records : List α
  failed : Bool
deriving DecidableEq, Repr

namespace BaseFileSystem

variable {α : Type} [Inhabited α]

/-- Source: `BaseFileSystem::insert`. On a stream in error state `seekp` and
`write` do nothing. A seek before the start of the file, `pos <= 0`, fails: it
sets the error state and nothing is written. Writing past the end leaves a gap
of zero bytes, which reads as default records. -/
def insert (f : BaseFileSystem α) (pos : Int) (data : α) : BaseFileSystem α :=
  if f.failed then f
  else if pos ≤ 0 then { f with failed := true }
  else if (pos - 1).toNat < f.records.length then
    { f with records := f.records.set (pos - 1).toNat data }
  else
    { f with records :=
        f.records ++ List.replicate ((pos - 1).toNat - f.records.length) default ++ [data] }

/-- Source: `BaseFileSystem::erase`. -/
def erase (f : BaseFileSystem α) (pos : Int) : BaseFileSystem α := insert f pos default

/-- Source: `BaseFileSystem::find`: the record returned and the stream the call
leaves. On a stream in error state `seekg` and `read` do nothing and `ret` stays
default-constructed. A seek before the start of the file fails, and a read at
or past the end of the file gets no byte: both set the error state and leave
`ret` as it was constructed. -/
def find (f : BaseFileSystem α) (pos : Int) : α × BaseFileSystem α :=
  if f.failed then (default, f)
  else if pos ≤ 0 then (default, { f with failed := true })
  else if (pos - 1).toNat < f.records.length then (f.records.getD (pos - 1).toNat default, f)
  else (default, { f with failed := true })

/-- The record the file holds at slot `pos`, whatever the state of the stream;
the default record outside the file. -/
def recordAt (f : BaseFileSystem α) (pos : Int) : α :=
  if pos ≤ 0 then default else f.records.getD (pos - 1).toNat default

/-- The call `std::set<DataType>::insert` by its contract, the set kept as the
ascending list of its members: `x` goes to its place unless a member that
`operator<`, here `lt`, does not tell from `x` is there. -/
def setAdd (lt : α → α → Bool) (x : α) : List α → List α
  | [] => [x]
  | y :: ys =>
    if lt x y then x :: y :: ys
    else if lt y x then y :: setAdd lt x ys
    else y :: ys

/-- Source: `BaseFileSystem::search`: the set returned, or `none` when the call
never returns. On a stream in good state the loop `while (!file.eof())` reads
the records of the file one by one and then runs once more: that read meets the
end of the file, sets `eofbit` and leaves the default-constructed `tmp`
untouched; `file.clear()` then puts the stream back in good state. On a stream
in error state `seekg(0)` clears `eofbit` and no read sets it again, so the loop
does not end. `DataType::empty` and `operator<` belong to the record type and
are the parameters `empty` and `lt`; the set is the ascending list of its
members. -/
def search (empty : α → Bool) (lt : α → α → Bool) (f : BaseFileSystem α) : Option (List α) :=
  if f.failed then none
  else some ((f.records ++ [default]).foldl
    (fun ret tmp => if empty tmp then ret else setAdd lt tmp ret) [])

end BaseFileSystem

end file

/-! ## Catalog index set -/

namespace book

open list file

/-- Identifier string, the bytes up to the terminating NUL. -/
abbrev IsbnStr := List Nat

/-- Name, author or keyword string, the bytes up to the terminating NUL. -/
abbrev BookStr := List Nat

/-- Source: `class BookInfo`, with the fields `BookSystem.cc` reads and writes
(the class is declared in a header that is not among the sources). `keyword` is
the keyword array, of which the first `keyword_cnt` entries count; `price` is
the `double`, which the catalog index set only copies and compares with `-1`;
`quantity` is the stock count, an `int`: the functions that compute it reduce
their result to the 32-bit range (`wrapInt`). -/
structure BookInfo where
  isbn : IsbnStr
  name : BookStr
  author : BookStr
  keyword : List BookStr
  keyword_cnt : Nat
  quantity : Int
  price : Rat
  pos : Int
deriving DecidableEq, Repr

/-- Source: `BookInfo::BookInfo()`. -/
instance : Inhabited BookInfo := ⟨⟨[], [], [], [], 0, 0, 0, 0⟩⟩

/-- The keywords `keyword[0]`, ..., `keyword[keyword_cnt - 1]` the loops read. -/
def BookInfo.keys (b : BookInfo) : List BookStr :=
  (List.range b.keyword_cnt).map fun i => b.keyword.getD i []

/-- What `NormalException::what()` returns in the handlers of `BookSystem.cc`. -/
inductive NormalException where
  | ULL_INSERTED
  | ULL_ERASE_NOT_FOUND
  | ULL_NOT_FOUND
deriving DecidableEq, Repr

/-- Modelled from the spec: the index class behind `name_table`, `author_table`
and `key_table`. `BookSystem.cc` is written against a header that is not among
the sources, with exception codes the `UnrolledLinkedList.cc` at hand does not
throw; the table is the ordered multimap of section 4.2, kept as its ascending
list of `(key, value)` pairs. -/
structure Table where
  rows : List DataType
deriving DecidableEq, Repr

namespace Table

/-- Modelled from the spec: `insert(key, value)` fails with `DuplicateEntry` if
the pair is present, else stores it at its sorted place. -/
def insert (t : Table) (key : BookStr) (value : Int) : Except NormalException Table :=
  if (⟨key, value⟩ : DataType) ∈ t.rows then .error .ULL_INSERTED
  else .ok ⟨(t.rows.takeWhile fun e => e.lt ⟨key, value⟩) ++
    ⟨key, value⟩ :: (t.rows.dropWhile fun e => e.lt ⟨key, value⟩)⟩

/-- Modelled from the spec: `erase(key, value)` fails with `EntryNotFound` if
the pair is absent, else removes it. -/
def erase (t : Table) (key : BookStr) (value : Int) : Except NormalException Table :=
  if (⟨key, value⟩ : DataType) ∈ t.rows then .ok ⟨t.rows.erase ⟨key, value⟩⟩
  else .error .ULL_ERASE_NOT_FOUND

/-- Modelled from the spec: `find(key)`, the values paired with the key in
ascending order. -/
def find (t : Table) (key : BookStr) : List Int :=
  (t.rows.filter fun e => decide (e.key = key)).map DataType.value

end Table

/-- Modelled from the spec: the index class behind `isbn_table`, whose `find`
returns one slot and whose `erase` takes the key alone; no such class is among
the sources. It holds at most one value per key: section 4.3 has `insert` fail
with `DuplicateEntry` when the identifier is present. -/
structure UniqueTable where
  rows : List DataType
deriving DecidableEq, Repr

namespace UniqueTable

/-- Modelled from the spec: the slot of `key`, or `EntryNotFound`. -/
def find (t : UniqueTable) (key : IsbnStr) : Except NormalException Int :=
  match t.rows.find? fun e => decide (e.key = key) with
  | some e => .ok e.value
  | none => .error .ULL_NOT_FOUND

/-- Modelled from the spec: fails with `DuplicateEntry` when the key has a
slot, else stores the pair. -/
def insert (t : UniqueTable) (key : IsbnStr) (value : Int) : Except NormalException UniqueTable :=
  match t.rows.find? fun e => decide (e.key = key) with
  | some _ => .error .ULL_INSERTED
  | none => .ok ⟨(t.rows.takeWhile fun e => e.lt ⟨key, value⟩) ++
      ⟨key, value⟩ :: (t.rows.dropWhile fun e => e.lt ⟨key, value⟩)⟩

/-- Modelled from the spec: removes the entry of `key` and returns its slot, or
fails with `EntryNotFound`. -/
def erase (t : UniqueTable) (key : IsbnStr) : Except NormalException (Int × UniqueTable) :=
  match t.rows.find? fun e => decide (e.key = key) with
  | some e => .ok (e.value, ⟨t.rows.erase e⟩)
  | none => .error .ULL_ERASE_NOT_FOUND

end UniqueTable

/-- Source: the data members of `class BookFileSystem` named in its constructor,
the slot store it derives from included. The counter `siz` is the `int` without
its upper bound. -/
structure BookFileSystem where
  file : BaseFileSystem BookInfo
  isbn_table : UniqueTable
  name_table : Table
  author_table : Table
  key_table : Table
  siz : Int
deriving DecidableEq, Repr

/-- Source: `BookFileSystem::BookFileSystem()` on empty files. -/
def BookFileSystem.empty : BookFileSystem := ⟨⟨[], false⟩, ⟨[]⟩, ⟨[]⟩, ⟨[]⟩, ⟨[]⟩, 0⟩

/-- How a call ends: it returns, an exception leaves it, or the handler calls
`exit(-1)`. -/
inductive Ended (α : Type) where
  | returned (a : α)
  | threw (e : NormalException)
  | exited
deriving DecidableEq, Repr

/-- The loop `for (i < keyword_cnt) key_table.insert(keyword[i], pos)`: the
exception that stopped it, if any, and the table reached. -/
def insertKeys (pos : Int) : List BookStr → Table → Option NormalException × Table
  | [], t => (none, t)
  | k :: ks, t =>
    match t.insert k pos with
    | .error e => (some e, t)
    | .ok t1 => insertKeys pos ks t1

/-- The loop `for (i < keyword_cnt) key_table.erase(keyword[i], pos)`. -/
def eraseKeys (pos : Int) : List BookStr → Table → Option NormalException × Table
  | [], t => (none, t)
  | k :: ks, t =>
    match t.erase k pos with
    | .error e => (some e, t)
    | .ok t1 => eraseKeys pos ks t1

namespace BookFileSystem

/-- The `catch` block of `BookFileSystem::insert`. -/
def insertCatch (s : BookFileSystem) (isbn : IsbnStr) (e : NormalException) :
    Ended (Int × Bool) × BookFileSystem :=
  if e = .ULL_INSERTED then
    match s.isbn_table.find isbn with
    | .ok p => (.returned (p, false), s)
    | .error e1 => (.threw e1, s)
  else (.exited, s)

/-- Source: `BookFileSystem::insert`. -/
def insert (s : BookFileSystem) (isbn : IsbnStr) (data : BookInfo) :
    Ended (Int × Bool) × BookFileSystem :=
  match s.isbn_table.insert isbn (s.siz + 1) with
  | .error e => insertCatch s isbn e
  | .ok t1 =>
    let s1 := { s with isbn_table := t1, siz := s.siz + 1 }
    match s1.name_table.insert data.name s1.siz with
    | .error e => insertCatch s1 isbn e
    | .ok t2 =>
      let s2 := { s1 with name_table := t2 }
      match s2.author_table.insert data.author s2.siz with
      | .error e => insertCatch s2 isbn e
      | .ok t3 =>
        let s3 := { s2 with author_table := t3 }
        match insertKeys s3.siz data.keys s3.key_table with
        | (some e, t4) => insertCatch { s3 with key_table := t4 } isbn e
        | (none, t4) =>
          let s4 := { s3 with key_table := t4, file := s3.file.insert s3.siz data }
          (.returned (s4.siz, true), s4)

/-- Source: `BookFileSystem::edit`. No handler surrounds the index calls after
the identifier check, so their exceptions leave the call. The read of slot `pos`
comes first and leaves its mark on the stream of the slot store. -/
def edit (s : BookFileSystem) (pos : Int) (data : BookInfo) :
    Ended (Int × Bool) × BookFileSystem :=
  let tmp := (s.file.find pos).1
  let s := { s with file := (s.file.find pos).2 }
  let afterIsbn : Except (Ended (Int × Bool) × BookFileSystem) (BookFileSystem × BookInfo) :=
    if data.isbn ≠ [] then
      match s.isbn_table.find data.isbn with
      | .ok _ => .error (.returned (pos, false), s)
      | .error .ULL_NOT_FOUND =>
        match s.isbn_table.erase tmp.isbn with
        | .error e => .error (.threw e, s)
        | .ok (_, t1) =>
          match t1.insert data.isbn pos with
          | .error e => .error (.threw e, { s with isbn_table := t1 })
          | .ok t2 => .ok ({ s with isbn_table := t2 }, { tmp with isbn := data.isbn })
      | .error _ => .error (.exited, s)
    else .ok (s, tmp)
  match afterIsbn with
  | .error r => r
  | .ok (s1, tmp1) =>
    let afterName : Except (Ended (Int × Bool) × BookFileSystem) (BookFileSystem × BookInfo) :=
      if data.name ≠ [] then
        match s1.name_table.erase tmp1.name pos with
        | .error e => .error (.threw e, s1)
        | .ok t1 =>
          match t1.insert data.name pos with
          | .error e => .error (.threw e, { s1 with name_table := t1 })
          | .ok t2 => .ok ({ s1 with name_table := t2 }, { tmp1 with name := data.name })
      else .ok (s1, tmp1)
    match afterName with
    | .error r => r
    | .ok (s2, tmp2) =>
      let afterAuthor : Except (Ended (Int × Bool) × BookFileSystem) (BookFileSystem × BookInfo) :=
        if data.author ≠ [] then
          match s2.author_table.erase tmp2.author pos with
          | .error e => .error (.threw e, s2)
          | .ok t1 =>
            match t1.insert data.author pos with
            | .error e => .error (.threw e, { s2 with author_table := t1 })
            | .ok t2 => .ok ({ s2 with author_table := t2 }, { tmp2 with author := data.author })
        else .ok (s2, tmp2)
      match afterAuthor with
      | .error r => r
      | .ok (s3, tmp3) =>
        let afterKeys : Except (Ended (Int × Bool) × BookFileSystem) (BookFileSystem × BookInfo) :=
          if data.keyword_cnt ≠ 0 then
            match eraseKeys pos tmp3.keys s3.key_table with
            | (some e, t1) => .error (.threw e, { s3 with key_table := t1 })
            | (none, t1) =>
              match insertKeys pos data.keys t1 with
              | (some e, t2) => .error (.threw e, { s3 with key_table := t2 })
              | (none, t2) =>
                .ok ({ s3 with key_table := t2 },
                  { tmp3 with keyword := data.keyword, keyword_cnt := data.keyword_cnt })
          else .ok (s3, tmp3)
        match afterKeys with
        | .error r => r
        | .ok (s4, tmp4) =>
          let tmp5 := if data.price ≠ -1 then { tmp4 with price := data.price } else tmp4
          (.returned (pos, true), { s4 with file := (s4.file.erase pos).insert pos tmp5 })

end BookFileSystem

/-- An update carrying the one keyword "x" and nothing else. -/
def keywordOnly : BookInfo := ⟨[], [], [], [[120]], 1, 0, -1, 0⟩

/-- A record with identifier "i", name "n", author "a", keyword "x", price 10. -/
def demoBook : BookInfo := ⟨[105], [110], [97], [[120]], 1, 0, 10, 0⟩

/-- The empty catalog after `edit(1, keywordOnly)`: no slot is allocated, yet
the keyword index holds `("x", 1)`. -/
def staleCatalog : BookFileSystem := (BookFileSystem.edit BookFileSystem.empty 1 keywordOnly).2

/-- The catalog after `insert("i", demoBook)` on the empty catalog. -/
def catalogOne : BookFileSystem := (BookFileSystem.insert BookFileSystem.empty [105] demoBook).2

/-- Source: the `InvalidException`s thrown by the functions embedded here, one
constructor per message. -/
inductive InvalidException where
  /-- "Import a book before select it" -/
  | importBeforeSelect
  /-- "Modify a book before selecting it" -/
  | modifyBeforeSelect
  /-- "ISBN exists." -/
  | isbnExists
  /-- "Not found the book to import" -/
  | importNotFound
  /-- "Insert a book that already exists" -/
  | alreadyExists
deriving DecidableEq, Repr

/-- The value an `int` takes when the exact result of an addition or a
subtraction is `x`: `x` reduced modulo `2^32` to the range from `-2^31` to
`2^31 - 1`, as the machine instruction leaves it. -/
def wrapInt (x : Int) : Int := (x + 2147483648) % 4294967296 - 2147483648

namespace BookFileSystem

/-- The `catch` block of `BookFileSystem::erase`. -/
def eraseCatch (s : BookFileSystem) (e : NormalException) :
    Ended (Int × Bool) × BookFileSystem :=
  if e = .ULL_ERASE_NOT_FOUND then (.returned (0, false), s) else (.exited, s)

/-- Source: `BookFileSystem::erase`. The keyword loop passes `siz`, as the
source does. -/
def erase (s : BookFileSystem) (isbn : IsbnStr) : Ended (Int × Bool) × BookFileSystem :=
  match s.isbn_table.erase isbn with
  | .error e => eraseCatch s e
  | .ok (pos, t1) =>
    let tmp := (s.file.find pos).1
    let s1 := { s with isbn_table := t1, file := (s.file.find pos).2 }
    match s1.name_table.erase tmp.name pos with
    | .error e => eraseCatch s1 e
    | .ok t2 =>
      let s2 := { s1 with name_table := t2 }
      match s2.author_table.erase tmp.author pos with
      | .error e => eraseCatch s2 e
      | .ok t3 =>
        let s3 := { s2 with author_table := t3 }
        match eraseKeys s3.siz tmp.keys s3.key_table with
        | (some e, t4) => eraseCatch { s3 with key_table := t4 } e
        | (none, t4) =>
          (.returned (pos, true), { s3 with key_table := t4, file := s3.file.erase pos })

/-- Source: `BookFileSystem::import`. The sum `tmp.quantity += quantity` is an
`int`. -/
def import_ (s : BookFileSystem) (pos : Int) (quantity : Int) (cost : Rat) :
    Except InvalidException (Rat × Bool) × BookFileSystem :=
  if pos = 0 then (.error .importBeforeSelect, s)
  else
    let tmp := (s.file.find pos).1
    let file1 := (s.file.find pos).2
    let tmp1 := { tmp with quantity := wrapInt (tmp.quantity + quantity) }
    (.ok (cost, true), { s with file := (file1.erase pos).insert pos tmp1 })

/-- Source: `BookFileSystem::buy`. The difference `tmp.quantity -= quantity` is
an `int`. -/
def buy (s : BookFileSystem) (isbn : IsbnStr) (quantity : Int) :
    Ended (Rat × Bool) × BookFileSystem :=
  match s.isbn_table.find isbn with
  | .error e => if e = .ULL_NOT_FOUND then (.returned (0, false), s) else (.exited, s)
  | .ok pos =>
    let tmp := (s.file.find pos).1
    let file1 := (s.file.find pos).2
    if tmp.quantity < quantity then (.returned (0, false), { s with file := file1 })
    else
      let tmp1 := { tmp with quantity := wrapInt (tmp.quantity - quantity) }
      (.returned (tmp1.price, true), { s with file := (file1.erase pos).insert pos tmp1 })

/-- Source: `BookFileSystem::FileSearchByISBN`: the record returned and the
catalog, whose slot store the read went through. -/
def FileSearchByISBN (s : BookFileSystem) (isbn : IsbnStr) : Ended BookInfo × BookFileSystem :=
  match s.isbn_table.find isbn with
  | .ok pos =>
    (.returned { (s.file.find pos).1 with pos := pos }, { s with file := (s.file.find pos).2 })
  | .error e => if e = .ULL_NOT_FOUND then (.returned default, s) else (.exited, s)

end BookFileSystem

namespace BookFileSystem

end BookFileSystem
/-- Source: the constructor `BookInfo(_isbn, _name, _author, _keyword, _price)`.
It leaves `quantity` and `pos` unset; `edit`, its only reader here, does not
read them, and they are 0 in the model. -/
def BookInfo.make (isbn : IsbnStr) (name author : BookStr) (keyword : List BookStr)
    (price : Rat) : BookInfo :=
  ⟨isbn, name, author, keyword, keyword.length, 0, price, 0⟩

/-- Source: the data members of `class BookSystem` used by its member functions:
the catalog and the two running totals of the finance ledger. The totals are
`double`s, each kept as the rational it stands for; the addition of `double`s,
which rounds, is a parameter of the functions that add. -/
structure BookSystem where
  book_table : BookFileSystem
  total_earn : List Rat
  total_cost : List Rat
deriving DecidableEq, Repr

/-- How a call of a `BookSystem` member ends: it returns, one of the two
exception classes leaves it, the process exits, or it reads `back()` of an
empty vector. -/
inductive Outcome (α : Type) where
  | returned (a : α)
  | invalid (e : InvalidException)
  | normal (e : NormalException)
  | exited
  | undefined
deriving DecidableEq, Repr

namespace BookSystem

/-- Source: `BookSystem::ModifyBook`. -/
def ModifyBook (sys : BookSystem) (book_pos : Int) (isbn : IsbnStr) (name author : BookStr)
    (key : List BookStr) (price : Rat) : Outcome Unit × BookSystem :=
  if book_pos = 0 then (.invalid .modifyBeforeSelect, sys)
  else
    match sys.book_table.edit book_pos (BookInfo.make isbn name author key price) with
    | (.returned (_, true), t) => (.returned (), { sys with book_table := t })
    | (.returned (_, false), t) => (.invalid .isbnExists, { sys with book_table := t })
    | (.threw e, t) => (.normal e, { sys with book_table := t })
    | (.exited, t) => (.exited, { sys with book_table := t })

/-- Source: `BookSystem::ImportBook`. `fadd` is the addition of `double`s. -/
def ImportBook (fadd : Rat → Rat → Rat) (sys : BookSystem) (book_pos : Int) (quantity : Int)
    (cost : Rat) : Outcome Unit × BookSystem :=
  match sys.book_table.import_ book_pos quantity cost with
  | (.error e, t) => (.invalid e, { sys with book_table := t })
  | (.ok (_, false), t) => (.invalid .importNotFound, { sys with book_table := t })
  | (.ok (_, true), t) =>
    match sys.total_earn.getLast?, sys.total_cost.getLast? with
    | some earn, some spent =>
      (.returned (), { book_table := t, total_earn := sys.total_earn ++ [earn],
                       total_cost := sys.total_cost ++ [fadd spent cost] })
    | _, _ => (.undefined, { sys with book_table := t })

end BookSystem

/-- The catalog of `catalogOne` after `import(1, 5, 20)`: the record "i" has
price 10 and quantity 5. -/
def stockedOne : BookFileSystem := (BookFileSystem.import_ catalogOne 1 5 20).2

/-- A record with identifier "j", name "m", author "b", keyword "y", price 7. -/
def otherBook : BookInfo := ⟨[106], [109], [98], [[121]], 1, 0, 7, 0⟩

/-- The catalog after `insert("i", demoBook)` and `insert("j", otherBook)`:
slot 1 holds "i", slot 2 holds "j", and `siz` is 2. -/
def catalogTwo : BookFileSystem := (BookFileSystem.insert catalogOne [106] otherBook).2

/-- A record with identifier "k", name "m", author "b", and the keyword "x" of
`demoBook`. -/
def sharingBook : BookInfo := ⟨[107], [109], [98], [[120]], 1, 0, 7, 0⟩

/-- The catalog after `insert("i", demoBook)` and `insert("k", sharingBook)`:
both records carry the keyword "x". -/
def catalogShared : BookFileSystem := (BookFileSystem.insert catalogOne [107] sharingBook).2

/-- What a step of `edit` leaves: the result with which the call ends, or the
catalog and the in-memory copy `tmp` with which it goes on. -/
abbrev EditStep := Except (Ended (Int × Bool) × BookFileSystem) (BookFileSystem × BookInfo)

namespace BookFileSystem

/-- Source: the block `if (!data.isbn.empty())` of `BookFileSystem::edit`, as a
function of its own. -/
def editIsbn (s : BookFileSystem) (pos : Int) (data tmp : BookInfo) : EditStep :=
  if data.isbn ≠ [] then
    match s.isbn_table.find data.isbn with
    | .ok _ => .error (.returned (pos, false), s)
    | .error .ULL_NOT_FOUND =>
      match s.isbn_table.erase tmp.isbn with
      | .error e => .error (.threw e, s)
      | .ok (_, t1) =>
        match t1.insert data.isbn pos with
        | .error e => .error (.threw e, { s with isbn_table := t1 })
        | .ok t2 => .ok ({ s with isbn_table := t2 }, { tmp with isbn := data.isbn })
    | .error _ => .error (.exited, s)
  else .ok (s, tmp)

/-- Source: the block `if (!data.name.empty())` of `BookFileSystem::edit`. -/
def editName (s : BookFileSystem) (pos : Int) (data tmp : BookInfo) : EditStep :=
  if data.name ≠ [] then
    match s.name_table.erase tmp.name pos with
    | .error e => .error (.threw e, s)
    | .ok t1 =>
      match t1.insert data.name pos with
      | .error e => .error (.threw e, { s with name_table := t1 })
      | .ok t2 => .ok ({ s with name_table := t2 }, { tmp with name := data.name })
  else .ok (s, tmp)

/-- Source: the block `if (!data.author.empty())` of `BookFileSystem::edit`. -/
def editAuthor (s : BookFileSystem) (pos : Int) (data tmp : BookInfo) : EditStep :=
  if data.author ≠ [] then
    match s.author_table.erase tmp.author pos with
    | .error e => .error (.threw e, s)
    | .ok t1 =>
      match t1.insert data.author pos with
      | .error e => .error (.threw e, { s with author_table := t1 })
      | .ok t2 => .ok ({ s with author_table := t2 }, { tmp with author := data.author })
  else .ok (s, tmp)

/-- Source: the block `if (data.keyword_cnt)` of `BookFileSystem::edit`. -/
def editKeys (s : BookFileSystem) (pos : Int) (data tmp : BookInfo) : EditStep :=
  if data.keyword_cnt ≠ 0 then
    match eraseKeys pos tmp.keys s.key_table with
    | (some e, t1) => .error (.threw e, { s with key_table := t1 })
    | (none, t1) =>
      match insertKeys pos data.keys t1 with
      | (some e, t2) => .error (.threw e, { s with key_table := t2 })
      | (none, t2) =>
        .ok ({ s with key_table := t2 },
          { tmp with keyword := data.keyword, keyword_cnt := data.keyword_cnt })
  else .ok (s, tmp)

/-- Source: the last four lines of `BookFileSystem::edit`: the price, the
write-back and the result. -/
def editWrite (s : BookFileSystem) (pos : Int) (data tmp : BookInfo) :
    Ended (Int × Bool) × BookFileSystem :=
  let tmp5 := if data.price ≠ -1 then { tmp with price := data.price } else tmp
  (.returned (pos, true), { s with file := (s.file.erase pos).insert pos tmp5 })

/-- The body of `BookFileSystem::edit` after its first statement, the read of
slot `pos` into `tmp`: the four blocks and the write-back, one after the
other. -/
def editFrom (s : BookFileSystem) (pos : Int) (data tmp : BookInfo) :
    Ended (Int × Bool) × BookFileSystem :=
  match s.editIsbn pos data tmp with
  | .error r => r
  | .ok (s1, tmp1) =>
    match s1.editName pos data tmp1 with
    | .error r => r
    | .ok (s2, tmp2) =>
      match s2.editAuthor pos data tmp2 with
      | .error r => r
      | .ok (s3, tmp3) =>
        match s3.editKeys pos data tmp3 with
        | .error r => r
        | .ok (s4, tmp4) => s4.editWrite pos data tmp4

end BookFileSystem

/-- The record `r` updated by `data` in the words of the claims on `edit`:
every non-blank text field of `data`, its keyword list when it has keywords,
and its price when that is not `-1` replace those of `r`; the quantity and the
`pos` field stay. -/
def BookInfo.updated (r data : BookInfo) : BookInfo :=
  { isbn := if data.isbn ≠ [] then data.isbn else r.isbn
    name := if data.name ≠ [] then data.name else r.name
    author := if data.author ≠ [] then data.author else r.author
    keyword := if data.keyword_cnt ≠ 0 then data.keyword else r.keyword
    keyword_cnt := if data.keyword_cnt ≠ 0 then data.keyword_cnt else r.keyword_cnt
    quantity := r.quantity
    price := if data.price ≠ -1 then data.price else r.price
    pos := r.pos }

/-- The invariants of the index classes: the unique index has at most one
entry per key, and no pair occurs twice in a duplicate-permitting index. -/
def IndexOK (s : BookFileSystem) : Prop :=
  s.isbn_table.rows.Pairwise (fun a b => a.key ≠ b.key) ∧
  s.name_table.rows.Nodup ∧ s.author_table.rows.Nodup ∧ s.key_table.rows.Nodup

instance (s : BookFileSystem) : Decidable (IndexOK s) := by
  unfold IndexOK; infer_instance

/-- Multi-index consistency at slot `p`, holding record `r`: `p` is a slot of
the file, the unique index maps `r.isbn` to `p`, and the entries of the name,
author and keyword indexes that point to `p` are exactly `(r.name, p)`,
`(r.author, p)` and `(r.keyword[i], p)` for `i < r.keyword_cnt`. -/
def Mirrored (s : BookFileSystem) (p : Int) : Prop :=
  (1 ≤ p ∧ p ≤ s.file.records.length) ∧
  (⟨(s.file.recordAt p).isbn, p⟩ : DataType) ∈ s.isbn_table.rows ∧
  ((⟨(s.file.recordAt p).name, p⟩ : DataType) ∈ s.name_table.rows ∧
    ∀ e ∈ s.name_table.rows, e.value = p → e.key = (s.file.recordAt p).name) ∧
  ((⟨(s.file.recordAt p).author, p⟩ : DataType) ∈ s.author_table.rows ∧
    ∀ e ∈ s.author_table.rows, e.value = p → e.key = (s.file.recordAt p).author) ∧
  ((∀ k ∈ (s.file.recordAt p).keys, (⟨k, p⟩ : DataType) ∈ s.key_table.rows) ∧
    ∀ e ∈ s.key_table.rows, e.value = p → e.key ∈ (s.file.recordAt p).keys)

instance (s : BookFileSystem) (p : Int) : Decidable (Mirrored s p) := by
  unfold Mirrored; infer_instance

/-- A record comparison to evaluate the searches with: records compared by
identifier, as `KeyType::operator<` compares strings. -/
def isbnLess (a b : BookInfo) : Bool := KeyType.lt a.isbn b.isbn

/-- An update with identifier "j", name "z", no author, the keywords "y" and
"z", and price 3. -/
def demoUpdate : BookInfo := ⟨[106], [122], [], [[121], [122]], 2, 0, 3, 0⟩

/-- An update with no identifier, the name "z", no author, the keywords "y"
and "z", and no price. -/
def renameUpdate : BookInfo := ⟨[], [122], [], [[121], [122]], 2, 0, -1, 0⟩

/-- A tombstone test to evaluate `search` with: a record without identifier
counts as empty. -/
def blankIsbn (b : BookInfo) : Bool := decide (b.isbn = [])

/-- A call of `BookFileSystem`: one of `insert`, `erase`, `edit`, `import` and
`buy`, with its arguments. -/
inductive Call where
  | insert (isbn : IsbnStr) (data : BookInfo)
  | erase (isbn : IsbnStr)
  | edit (pos : Int) (data : BookInfo)
  | restock (pos : Int) (quantity : Int) (cost : Rat)
  | buy (isbn : IsbnStr) (quantity : Int)
deriving DecidableEq, Repr

namespace Call

/-- The catalog the call leaves, however it ends. -/
def next (s : BookFileSystem) : Call → BookFileSystem
  | .insert isbn data => (s.insert isbn data).2
  | .erase isbn => (s.erase isbn).2
  | .edit pos data => (s.edit pos data).2
  | .restock pos quantity cost => (s.import_ pos quantity cost).2
  | .buy isbn quantity => (s.buy isbn quantity).2

/-- The slot a successful `insert` returns: `p` when the call is an `insert`
that returns `(p, true)`. -/
def inserted (s : BookFileSystem) : Call → Option Int
  | .insert isbn data =>
    match (s.insert isbn data).1 with
    | .returned (p, true) => some p
    | _ => none
  | _ => none

/-- The slot a successful `erase` returns: `p` when the call is an `erase` that
returns `(p, true)`. -/
def erased (s : BookFileSystem) : Call → Option Int
  | .erase isbn =>
    match (s.erase isbn).1 with
    | .returned (p, true) => some p
    | _ => none
  | _ => none

end Call

/-- A caller making the calls one after the other: each call with the catalog
it starts from. -/
def history (s : BookFileSystem) : List Call → List (BookFileSystem × Call)
  | [] => []
  | c :: cs => (s, c) :: history (c.next s) cs

/-- Five calls on the empty catalog: two records are added, the second is
erased, the first restocked, a third added. -/
def demoHistory : List Call :=
  [.insert [105] demoBook, .insert [106] otherBook, .erase [106], .restock 1 5 20,
    .insert [107] sharingBook]

/-- Source: `BookSystem::AddBook`. -/
def BookSystem.AddBook (sys : BookSystem) (isbn : IsbnStr) (data : BookInfo) :
    Outcome Unit × BookSystem :=
  match sys.book_table.insert isbn data with
  | (.returned (_, true), t) => (.returned (), { sys with book_table := t })
  | (.returned (_, false), t) => (.invalid .alreadyExists, { sys with book_table := t })
  | (.threw e, t) => (.normal e, { sys with book_table := t })
  | (.exited, t) => (.exited, { sys with book_table := t })

/-- A record with identifier "i", name "n", author "a", price 10 and the
keyword "x" twice. -/
def twiceKeyword : BookInfo := ⟨[105], [110], [97], [[120], [120]], 2, 0, 10, 0⟩

/-- The catalog `insert("i", twiceKeyword)` leaves on the empty catalog. -/
def catalogHalf : BookFileSystem := (BookFileSystem.insert BookFileSystem.empty [105] twiceKeyword).2

/-- The catalog of `catalogOne` after `import(1, 2147483647, 20)`: the record "i"
has the largest quantity an `int` holds. -/
def fullStock : BookFileSystem := (BookFileSystem.import_ catalogOne 1 2147483647 20).2

/-- The catalog of `stockedOne` after `import(2, 1, 0)`: slot 2 is not in the
file, the read past its end has set `failbit` and nothing else has changed;
slot 1 still holds the record "i" with price 10 and quantity 5. -/
def failedStock : BookFileSystem := (BookFileSystem.import_ stockedOne 2 1 0).2

/-- The catalog of `catalogOne` after `import(2, 1, 0)`: slot 2 is not in the
file, the read past its end has set `failbit` and nothing else has changed;
slot 1 still holds the record "i". -/
def failedOne : BookFileSystem := (BookFileSystem.import_ catalogOne 2 1 0).2

/-- An update with the price 3 and nothing else. -/
def priceOnly : BookInfo := ⟨[], [], [], [], 0, 0, 3, 0⟩

/-- An update with the one keyword "y" and nothing else. -/
def keywordY : BookInfo := ⟨[], [], [], [[121]], 1, 0, -1, 0⟩

end book

namespace list

/-! ### The comparison operators form a linear order -/

theorem strcmp_self (a : List Nat) : strcmp a a = 0 := by
  induction a with
  | nil => rfl
  | cons x xs ih => simp [strcmp, ih]

theorem strcmp_range (a b : List Nat) : strcmp a b = 0 ∨ strcmp a b = -1 ∨ strcmp a b = 1 := by
  induction a generalizing b with
  | nil => cases b <;> simp [strcmp]
  | cons x xs ih =>
    cases b with
    | nil => simp [strcmp]
    | cons y ys =>
      simp only [strcmp]
      split_ifs
      · exact ih ys
      · simp
      · simp

theorem strcmp_eq_zero {a b : List Nat} : strcmp a b = 0 ↔ a = b := by
  constructor
  · intro h
    induction a generalizing b with
    | nil => cases b <;> simp_all [strcmp]
    | cons x xs ih =>
      cases b with
      | nil => simp [strcmp] at h
      | cons y ys =>
        simp only [strcmp] at h
        split_ifs at h with h1 h2
        · rw [h1, ih h]
        · simp at h
  · rintro rfl
    exact strcmp_self a

theorem strcmp_swap (a b : List Nat) : strcmp b a = - strcmp a b := by
  induction a generalizing b with
  | nil => cases b <;> simp [strcmp]
  | cons x xs ih =>
    cases b with
    | nil => simp [strcmp]
    | cons y ys =>
      simp only [strcmp]
      by_cases h : x = y
      · subst h
        simp [ih]
      · have h2 : ¬ y = x := fun e => h e.symm
        simp only [h, h2, if_false]
        by_cases h3 : x < y
        · have : ¬ y < x := by omega
          simp [h3, this]
        · have : y < x := by omega
          simp [h3, this]

theorem strcmp_trans {a b c : List Nat} (h1 : strcmp a b < 0) (h2 : strcmp b c < 0) :
    strcmp a c < 0 := by
  induction a generalizing b c with
  | nil =>
    cases c with
    | nil => cases b <;> simp [strcmp] at h1 h2
    | cons z zs => simp [strcmp]
  | cons x xs ih =>
    cases b with
    | nil => simp [strcmp] at h1
    | cons y ys =>
      cases c with
      | nil => simp [strcmp] at h2
      | cons z zs =>
        simp only [strcmp] at h1 h2 ⊢
        by_cases hxy : x = y
        · subst hxy
          simp only [if_true] at h1
          by_cases hxz : x = z
          · subst hxz
            simp only [if_true] at h2 ⊢
            exact ih h1 h2
          · simp only [hxz, if_false] at h2 ⊢
            exact h2
        · simp only [hxy, if_false] at h1
          have hlt : x < y := by
            by_contra hc
            simp [hc] at h1
          by_cases hyz : y = z
          · subst hyz
            simp [hxy, hlt]
          · simp only [hyz, if_false] at h2
            have hlt2 : y < z := by
              by_contra hc
              simp [hc] at h2
            have hne : ¬ x = z := by omega
            have hlt3 : x < z := by omega
            simp [hne, hlt3]

/-! ### Order on keys -/

theorem key_eq_iff {a b : KeyType} : KeyType.eq a b = true ↔ a = b := by
  simp [KeyType.eq, strcmp_eq_zero]

theorem key_gt_eq_lt (a b : KeyType) : KeyType.gt a b = KeyType.lt b a := by
  simp only [KeyType.gt, KeyType.lt, strcmp_swap a b]
  congr 1
  apply propext
  constructor <;> intro h <;> omega

theorem key_lt_irrefl (a : KeyType) : KeyType.lt a a = false := by
  simp [KeyType.lt, strcmp_self]

theorem key_lt_trans {a b c : KeyType} (h1 : KeyType.lt a b = true)
    (h2 : KeyType.lt b c = true) : KeyType.lt a c = true := by
  simp only [KeyType.lt, decide_eq_true_eq] at *
  exact strcmp_trans h1 h2

theorem key_lt_trichotomy (a b : KeyType) :
    KeyType.lt a b = true ∨ a = b ∨ KeyType.lt b a = true := by
  simp only [KeyType.lt, decide_eq_true_eq]
  rcases strcmp_range a b with h | h | h
  · exact Or.inr (Or.inl (strcmp_eq_zero.mp h))
  · left; omega
  · right; right; rw [strcmp_swap a b]; omega

theorem key_lt_asymm {a b : KeyType} (h : KeyType.lt a b = true) : KeyType.lt b a = false := by
  by_contra hc
  have hc2 : KeyType.lt b a = true := by simpa using hc
  have := key_lt_trans h hc2
  simp [key_lt_irrefl] at this

theorem key_lt_ne {a b : KeyType} (h : KeyType.lt a b = true) : a ≠ b := by
  rintro rfl
  simp [key_lt_irrefl] at h

/-! ### Order on entries -/

theorem entry_lt_iff {x y : DataType} :
    x < y ↔ (x.key = y.key ∧ x.value < y.value) ∨ KeyType.lt x.key y.key = true := by
  show DataType.lt x y = true ↔ _
  unfold DataType.lt
  by_cases h : x.key = y.key
  · rw [if_pos (key_eq_iff.mpr h)]
    simp [h, key_lt_irrefl]
  · have h2 : KeyType.eq x.key y.key = false := by
      simpa using fun hc => h (key_eq_iff.mp hc)
    simp [h2, h]

theorem entry_gt_eq_lt (x y : DataType) : DataType.gt x y = DataType.lt y x := by
  unfold DataType.gt DataType.lt
  have h1 : KeyType.eq x.key y.key = KeyType.eq y.key x.key := by
    by_cases h : x.key = y.key
    · rw [key_eq_iff.mpr h, key_eq_iff.mpr h.symm]
    · have a1 : KeyType.eq x.key y.key = false := by
        simpa using fun hc => h (key_eq_iff.mp hc)
      have a2 : KeyType.eq y.key x.key = false := by
        simpa using fun hc => h (key_eq_iff.mp hc).symm
      rw [a1, a2]
  rw [h1, key_gt_eq_lt]

theorem entry_le_iff_not_lt {x y : DataType} : x ≤ y ↔ ¬ y < x := by
  show DataType.le x y = true ↔ ¬ (DataType.lt y x = true)
  simp [DataType.le, entry_gt_eq_lt]

theorem entry_eq_iff {x y : DataType} : DataType.eq x y = true ↔ x = y := by
  cases x; cases y
  simp [DataType.eq, key_eq_iff]

theorem entry_ne_iff {x y : DataType} : DataType.ne x y = true ↔ x ≠ y := by
  simp [DataType.ne, ← entry_eq_iff]

theorem entry_lt_irrefl (x : DataType) : ¬ x < x := by
  simp [entry_lt_iff, key_lt_irrefl]

theorem entry_lt_trans {x y z : DataType} (h1 : x < y) (h2 : y < z) : x < z := by
  rw [entry_lt_iff] at *
  rcases h1 with ⟨k1, v1⟩ | k1 <;> rcases h2 with ⟨k2, v2⟩ | k2
  · exact Or.inl ⟨k1.trans k2, by omega⟩
  · right; rw [k1]; exact k2
  · right; rw [← k2]; exact k1
  · right; exact key_lt_trans k1 k2

theorem entry_lt_trichotomy (x y : DataType) : x < y ∨ x = y ∨ y < x := by
  simp only [entry_lt_iff]
  rcases key_lt_trichotomy x.key y.key with h | h | h
  · exact Or.inl (Or.inr h)
  · rcases Int.lt_trichotomy x.value y.value with v | v | v
    · exact Or.inl (Or.inl ⟨h, v⟩)
    · right; left
      cases x; cases y
      simp_all
    · exact Or.inr (Or.inr (Or.inl ⟨h.symm, v⟩))
  · exact Or.inr (Or.inr (Or.inr h))

theorem entry_lt_asymm {x y : DataType} (h : x < y) : ¬ y < x :=
  fun h2 => entry_lt_irrefl x (entry_lt_trans h h2)

theorem entry_le_iff_lt_or_eq {x y : DataType} : x ≤ y ↔ x < y ∨ x = y := by
  rw [entry_le_iff_not_lt]
  constructor
  · intro h
    rcases entry_lt_trichotomy x y with a | a | a
    · exact Or.inl a
    · exact Or.inr a
    · exact absurd a h
  · rintro (a | a)
    · exact entry_lt_asymm a
    · subst a; exact entry_lt_irrefl x

theorem entry_le_refl (x : DataType) : x ≤ x := entry_le_iff_lt_or_eq.mpr (Or.inr rfl)

theorem entry_le_of_lt {x y : DataType} (h : x < y) : x ≤ y := entry_le_iff_lt_or_eq.mpr (Or.inl h)

theorem entry_not_le {x y : DataType} : ¬ x ≤ y ↔ y < x := by
  rw [entry_le_iff_not_lt, not_not]

theorem entry_lt_of_lt_of_le {x y z : DataType} (h1 : x < y) (h2 : y ≤ z) : x < z := by
  rcases entry_le_iff_lt_or_eq.mp h2 with a | a
  · exact entry_lt_trans h1 a
  · subst a; exact h1

theorem entry_lt_of_le_of_lt {x y z : DataType} (h1 : x ≤ y) (h2 : y < z) : x < z := by
  rcases entry_le_iff_lt_or_eq.mp h1 with a | a
  · exact entry_lt_trans a h2
  · subst a; exact h2

theorem entry_le_trans {x y z : DataType} (h1 : x ≤ y) (h2 : y ≤ z) : x ≤ z := by
  rcases entry_le_iff_lt_or_eq.mp h1 with a | a
  · exact entry_le_of_lt (entry_lt_of_lt_of_le a h2)
  · subst a; exact h2

theorem entry_lt_bool_iff {x y : DataType} : DataType.lt x y = true ↔ x < y := Iff.rfl

theorem entry_le_bool_iff {x y : DataType} : DataType.le x y = true ↔ x ≤ y := Iff.rfl

/-! ### Cells and buffers -/

theorem readCell_length (c : List DataType) (n : Nat) : (readCell c n).length = n := by
  simp [readCell]
  omega

theorem stored_length (file : File) (b : ListBlock) : (stored file b).length = b.len :=
  readCell_length _ _

theorem readCell_written (l rest : List DataType) (n : Nat) (h : l.length = n) :
    readCell (l ++ rest) n = l := by
  simp [readCell, List.take_append_eq_append_take, h]

theorem readCell_getElem (c : List DataType) (n i : Nat) (h : i < (readCell c n).length) :
    (readCell c n)[i] = c.getD i default := by
  have hn : i < n := by simpa [readCell_length] using h
  simp only [readCell, List.getElem_append, List.length_take, List.getD_eq_getElem?_getD]
  split_ifs with h1
  · have : i < c.length := by omega
    simp [List.getElem_take, List.getElem?_eq_getElem this]
  · have : c.length ≤ i := by omega
    simp [List.getElem?_eq_none this]

theorem readCell_padded (c : List DataType) (n m : Nat) :
    readCell (readCell c n ++ c.drop n) m = readCell c m := by
  apply List.ext_getElem
  · simp [readCell_length]
  · intro i h1 h2
    rw [readCell_getElem, readCell_getElem]
    simp only [List.getD_eq_getElem?_getD]
    by_cases hi : i < n
    · have hi2 : i < (readCell c n).length := by simpa [readCell_length] using hi
      rw [List.getElem?_append_left hi2, List.getElem?_eq_getElem hi2, readCell_getElem]
      simp
    · have hi2 : (readCell c n).length ≤ i := by simpa [readCell_length] using hi
      rw [List.getElem?_append_right hi2, readCell_length, List.getElem?_drop]
      congr 2
      omega

theorem lower_bound_buffer (E pad : List DataType) (n : Nat) (h : E.length = n) (tmp : DataType) :
    lower_bound (E ++ pad) n tmp = (E.takeWhile fun e => e.lt tmp).length := by
  simp [lower_bound, List.take_append_eq_append_take, h]

/-- Sorted insertion position splits the block in two. -/
theorem blockInsert_ok (K : Nat) (file : File) (cur : ListBlock) (tmp : DataType)
    (hlen : cur.len < K)
    (hne : ∀ b, ((stored file cur).dropWhile fun e => e.lt tmp).head? = some b → b ≠ tmp)
    (hdef : ((stored file cur).dropWhile fun e => e.lt tmp) = [] → tmp ≠ default) :
    ListBlock.insert K file cur tmp = .ok
      ({ head := if ((stored file cur).takeWhile fun e => e.lt tmp) = [] then tmp else cur.head,
         tail := if ((stored file cur).dropWhile fun e => e.lt tmp) = [] then tmp else cur.tail,
         len := cur.len + 1, pos := cur.pos },
       Function.update file cur.pos
         ((((stored file cur).takeWhile fun e => e.lt tmp) ++
            tmp :: ((stored file cur).dropWhile fun e => e.lt tmp)) ++
          (file cur.pos).drop (cur.len + 1))) := by
  have hE : (stored file cur).length = cur.len := stored_length file cur
  have hAB := List.takeWhile_append_dropWhile (fun e => DataType.lt e tmp) (stored file cur)
  generalize hA : (stored file cur).takeWhile (fun e => e.lt tmp) = A at *
  generalize hB : (stored file cur).dropWhile (fun e => e.lt tmp) = B at *
  have hlenAB : A.length + B.length = cur.len := by
    rw [← hE, ← hAB]; simp
  unfold ListBlock.insert allocate
  rw [if_pos hlen.le]
  simp only []
  have hlb : lower_bound (readCell (file cur.pos) cur.len ++ List.replicate (K - cur.len) default)
      cur.len tmp = A.length := by
    rw [lower_bound_buffer _ _ _ (readCell_length _ _)]
    show (List.takeWhile (fun e => e.lt tmp) (stored file cur)).length = _
    rw [hA]
  rw [hlb]
  have hst : readCell (file cur.pos) cur.len = A ++ B := hAB.symm
  rw [hst]
  have hget : (A ++ B ++ List.replicate (K - cur.len) default)[A.length]? =
      some (B.headD default) := by
    rw [List.append_assoc, List.getElem?_append_right (le_refl _)]
    cases B with
    | nil =>
      have : 0 < K - cur.len := by omega
      simp [List.getElem?_replicate, this]
    | cons b B' => simp
  rw [hget]
  have hneq : DataType.eq (B.headD default) tmp = false := by
    apply Bool.eq_false_iff.mpr
    intro hc
    rw [entry_eq_iff] at hc
    cases B with
    | nil => exact hdef rfl hc.symm
    | cons b B' => exact hne b rfl hc
  simp only [hneq, Bool.false_eq_true, if_false, if_pos hlen]
  have htake : List.take A.length (A ++ B ++ List.replicate (K - cur.len) default) = A := by
    rw [List.append_assoc, List.take_left' rfl]
  have hdrop : List.take (cur.len - A.length)
      (List.drop A.length (A ++ B ++ List.replicate (K - cur.len) default)) = B := by
    rw [List.append_assoc, List.drop_left' rfl]
    have : cur.len - A.length = B.length := by omega
    rw [this, List.take_left' rfl]
  rw [htake, hdrop]
  have hA0 : (A.length = 0) = (A = []) := by
    apply propext; exact List.length_eq_zero
  have hB0 : (A.length = cur.len) = (B = []) := by
    apply propext
    constructor
    · intro h; apply List.length_eq_zero.mp; omega
    · intro h; subst h; simpa using hlenAB
  simp only [hA0, hB0]
  unfold deallocate
  simp only []
  have hw : List.take (cur.len + 1)
      (A ++ tmp :: B ++ List.drop (cur.len + 1) (A ++ B ++ List.replicate (K - cur.len) default)) =
      A ++ tmp :: B := by
    apply List.take_left'
    simp; omega
  rw [hw]
  by_cases ha : A = [] <;> by_cases hb : B = [] <;> simp only [ha, hb, if_true, if_false]

/-! ### Searching a strictly ascending list -/

theorem takeWhile_lt_mem {E : List DataType} {tmp a : DataType}
    (h : a ∈ E.takeWhile fun e => e.lt tmp) : a < tmp := by
  have h2 := List.mem_takeWhile_imp h
  exact h2

theorem dropWhile_of_mem {E : List DataType} {tmp : DataType} (hs : E.Pairwise (· < ·))
    (hm : tmp ∈ E) : ∃ B, (E.dropWhile fun e => e.lt tmp) = tmp :: B := by
  induction E with
  | nil => simp at hm
  | cons e E ih =>
    rw [List.pairwise_cons] at hs
    by_cases he : e < tmp
    · have hne : tmp ≠ e := by
        rintro rfl
        exact entry_lt_irrefl _ he
      have hm2 : tmp ∈ E := by
        rcases List.mem_cons.mp hm with h | h
        · exact absurd h hne
        · exact h
      obtain ⟨B, hB⟩ := ih hs.2 hm2
      refine ⟨B, ?_⟩
      rw [List.dropWhile_cons_of_pos (by exact he)]
      exact hB
    · have heq : tmp = e := by
        rcases List.mem_cons.mp hm with h | h
        · exact h
        · exact absurd (hs.1 tmp h) he
      subst heq
      refine ⟨E, ?_⟩
      rw [List.dropWhile_cons_of_neg (by exact he)]

theorem dropWhile_ge {E : List DataType} {tmp : DataType} (hs : E.Pairwise (· < ·)) :
    ∀ b ∈ E.dropWhile (fun e => e.lt tmp), tmp ≤ b := by
  induction E with
  | nil => simp
  | cons e E ih =>
    rw [List.pairwise_cons] at hs
    by_cases he : e < tmp
    · rw [List.dropWhile_cons_of_pos (by exact he)]
      exact ih hs.2
    · rw [List.dropWhile_cons_of_neg (by exact he)]
      intro b hb
      have h1 : tmp ≤ e := entry_le_iff_not_lt.mpr he
      rcases List.mem_cons.mp hb with h | h
      · subst h; exact h1
      · exact entry_le_of_lt (entry_lt_of_le_of_lt h1 (hs.1 b h))

theorem dropWhile_head_ne {E : List DataType} {tmp : DataType} (hm : tmp ∉ E) :
    ∀ b, (E.dropWhile fun e => e.lt tmp).head? = some b → b ≠ tmp := by
  intro b hb hc
  subst hc
  apply hm
  have h1 : b ∈ E.dropWhile fun e => e.lt b := List.mem_of_mem_head? hb
  exact (List.dropWhile_sublist _).subset h1

theorem blockInsert_dup (K : Nat) (file : File) (cur : ListBlock) (tmp : DataType)
    (hlen : cur.len ≤ K) (hs : (stored file cur).Pairwise (· < ·)) (hm : tmp ∈ stored file cur) :
    ListBlock.insert K file cur tmp = .error .inserted := by
  have hE : (stored file cur).length = cur.len := stored_length file cur
  have hAB := List.takeWhile_append_dropWhile (fun e => DataType.lt e tmp) (stored file cur)
  obtain ⟨B, hB⟩ := dropWhile_of_mem hs hm
  rw [hB] at hAB
  generalize hA : (stored file cur).takeWhile (fun e => e.lt tmp) = A at *
  unfold ListBlock.insert allocate
  rw [if_pos hlen]
  simp only []
  have hlb : lower_bound (readCell (file cur.pos) cur.len ++ List.replicate (K - cur.len) default)
      cur.len tmp = A.length := by
    rw [lower_bound_buffer _ _ _ (readCell_length _ _)]
    show (List.takeWhile (fun e => e.lt tmp) (stored file cur)).length = _
    rw [hA]
  rw [hlb]
  have hst : readCell (file cur.pos) cur.len = A ++ tmp :: B := hAB.symm
  rw [hst]
  have hget : (A ++ tmp :: B ++ List.replicate (K - cur.len) default)[A.length]? = some tmp := by
    rw [List.append_assoc, List.getElem?_append_right (le_refl _)]
    simp
  rw [hget]
  simp [entry_eq_iff.mpr rfl]

/-- Removing the entry found at the sorted position. -/
theorem blockErase_ok (K : Nat) (file : File) (cur : ListBlock) (tmp : DataType)
    (hlen : cur.len ≤ K) (A B : List DataType)
    (hA : ((stored file cur).takeWhile fun e => e.lt tmp) = A)
    (hB : ((stored file cur).dropWhile fun e => e.lt tmp) = tmp :: B) :
    ListBlock.erase K file cur tmp = .ok
      ({ head := if A = [] ∧ B ≠ [] then B.headD default else cur.head,
         tail := if B = [] ∧ A ≠ [] then A.getLastD default else cur.tail,
         len := cur.len - 1, pos := cur.pos },
       Function.update file cur.pos (A ++ B ++ (file cur.pos).drop (cur.len - 1))) := by
  have hE : (stored file cur).length = cur.len := stored_length file cur
  have hAB := List.takeWhile_append_dropWhile (fun e => DataType.lt e tmp) (stored file cur)
  rw [hA, hB] at hAB
  have hlenAB : A.length + (B.length + 1) = cur.len := by
    rw [← hE, ← hAB]; simp
  unfold ListBlock.erase allocate
  rw [if_pos hlen]
  simp only []
  have hlb : lower_bound (readCell (file cur.pos) cur.len ++ List.replicate (K - cur.len) default)
      cur.len tmp = A.length := by
    rw [lower_bound_buffer _ _ _ (readCell_length _ _)]
    show (List.takeWhile (fun e => e.lt tmp) (stored file cur)).length = _
    rw [hA]
  rw [hlb]
  have hst : readCell (file cur.pos) cur.len = A ++ tmp :: B := hAB.symm
  rw [hst]
  have hget : (A ++ tmp :: B ++ List.replicate (K - cur.len) default)[A.length]? = some tmp := by
    rw [List.append_assoc, List.getElem?_append_right (le_refl _)]
    simp
  rw [hget]
  have hneq : DataType.ne tmp tmp = false := by
    simp [DataType.ne, entry_eq_iff.mpr rfl]
  have hpos : A.length < cur.len := by omega
  simp only [hneq, Bool.false_eq_true, if_false, if_pos hpos]
  have hc1 : (A.length = 0 ∧ cur.len ≠ 1) = (A = [] ∧ B ≠ []) := by
    apply propext
    constructor
    · rintro ⟨h1, h2⟩
      have ha : A = [] := List.length_eq_zero.mp h1
      refine ⟨ha, ?_⟩
      rintro rfl
      simp at hlenAB
      omega
    · rintro ⟨rfl, h2⟩
      refine ⟨rfl, ?_⟩
      have : B.length ≠ 0 := fun h => h2 (List.length_eq_zero.mp h)
      simp at hlenAB
      omega
  have hc2 : (A.length = cur.len - 1 ∧ cur.len ≠ 1) = (B = [] ∧ A ≠ []) := by
    apply propext
    constructor
    · rintro ⟨h1, h2⟩
      have hb : B = [] := List.length_eq_zero.mp (by omega)
      refine ⟨hb, ?_⟩
      rintro rfl
      simp at hlenAB h1
      omega
    · rintro ⟨rfl, h2⟩
      have : A.length ≠ 0 := fun h => h2 (List.length_eq_zero.mp h)
      simp at hlenAB
      omega
  simp only [hc1, hc2]
  have hhead : B ≠ [] → (A ++ tmp :: B ++ List.replicate (K - cur.len) default).getD
      (A.length + 1) default = B.headD default := by
    intro hb
    cases B with
    | nil => exact absurd rfl hb
    | cons b B' =>
      rw [List.getD_eq_getElem?_getD, List.append_assoc,
        List.getElem?_append_right (Nat.le_succ _)]
      simp
  have htail : A ≠ [] → (A ++ tmp :: B ++ List.replicate (K - cur.len) default).getD
      (A.length - 1) default = A.getLastD default := by
    intro ha
    have hl : A.length - 1 < A.length := by
      have : A.length ≠ 0 := fun h => ha (List.length_eq_zero.mp h)
      omega
    rw [List.getD_eq_getElem?_getD, List.append_assoc, List.getElem?_append_left hl]
    rw [List.getLastD_eq_getLast?, List.getLast?_eq_getElem?]
  have htake : List.take A.length (A ++ tmp :: B ++ List.replicate (K - cur.len) default) = A := by
    rw [List.append_assoc, List.take_left' rfl]
  have hdrop : List.take (cur.len - (A.length + 1))
      (List.drop (A.length + 1) (A ++ tmp :: B ++ List.replicate (K - cur.len) default)) = B := by
    have e1 : A ++ tmp :: B ++ List.replicate (K - cur.len) default =
        (A ++ [tmp]) ++ (B ++ List.replicate (K - cur.len) default) := by simp
    rw [e1, List.drop_left' (by simp)]
    have : cur.len - (A.length + 1) = B.length := by omega
    rw [this, List.take_left' rfl]
  rw [htake, hdrop]
  unfold deallocate
  simp only []
  have hw : List.take (cur.len - 1)
      (A ++ B ++ List.drop (cur.len - 1) (A ++ tmp :: B ++ List.replicate (K - cur.len) default)) =
      A ++ B := by
    apply List.take_left'
    simp; omega
  rw [hw]
  by_cases ha : A = [] <;> by_cases hb : B = [] <;>
    simp only [ha, hb, if_true, if_false, and_true, and_false, true_and, false_and, ne_eq,
      not_true_eq_false, not_false_eq_true]
  · subst ha
    simp only [List.length_nil, Nat.zero_add]
    rw [← hhead hb]
    simp
  · subst hb
    rw [← htail ha]
  

theorem drop_takeWhile_length (p : DataType → Bool) (l : List DataType) :
    l.drop (l.takeWhile p).length = l.dropWhile p := by
  have h := List.takeWhile_append_dropWhile p l
  generalize List.takeWhile p l = A at h
  generalize List.dropWhile p l = B at h
  subst h
  exact List.drop_left' rfl

theorem blockFind_eq (K : Nat) (file : File) (cur : ListBlock) (key : KeyType)
    (hlen : cur.len ≤ K) :
    ListBlock.find K file cur key = .ok
      ((((stored file cur).dropWhile fun e => e.lt ⟨key, 0⟩).takeWhile
        fun e => !(KeyType.gt e.key key)).map DataType.value) := by
  unfold ListBlock.find allocate
  rw [if_pos hlen]
  simp only []
  by_cases h0 : cur.len = 0
  · have : stored file cur = [] := List.length_eq_zero.mp (by rw [stored_length, h0])
    simp [h0, this]
  · rw [if_neg h0, lower_bound_buffer _ _ _ (readCell_length _ _)]
    rw [List.take_left' (readCell_length _ _)]
    show Except.ok (List.map DataType.value (List.takeWhile _ (List.drop
      (List.takeWhile (fun e => e.lt ⟨key, 0⟩) (stored file cur)).length (stored file cur)))) = _
    rw [drop_takeWhile_length]

/-- The upper half moves to the cell at the front of the free pool. -/
theorem split_ok (K : Nat) (file : File) (cur : ListBlock) (f : Int) (fs : List Int)
    (hlen : cur.len ≤ K) (h2 : 2 ≤ cur.len) :
    split K file (f :: fs) cur = .ok
      ({ cur with len := cur.len - cur.len / 2,
                  tail := ((stored file cur).take (cur.len - cur.len / 2)).getLastD default },
       { head := ((stored file cur).drop (cur.len - cur.len / 2)).headD default,
         tail := ((stored file cur).drop (cur.len - cur.len / 2)).getLastD default,
         len := cur.len / 2, pos := f },
       Function.update
         (Function.update file cur.pos ((stored file cur).take (cur.len - cur.len / 2) ++
           (file cur.pos).drop (cur.len - cur.len / 2)))
         f ((stored file cur).drop (cur.len - cur.len / 2) ++
           ((Function.update file cur.pos ((stored file cur).take (cur.len - cur.len / 2) ++
           (file cur.pos).drop (cur.len - cur.len / 2))) f).drop (cur.len / 2)),
       setErase f (f :: fs)) := by
  have hE : (stored file cur).length = cur.len := stored_length file cur
  generalize hEd : stored file cur = E at *
  have hn : 0 < cur.len / 2 := Nat.div_pos h2 (by norm_num)
  have hc : 0 < cur.len - cur.len / 2 := by omega
  have hcl : cur.len - cur.len / 2 ≤ cur.len := by omega
  unfold split allocate
  simp only [if_pos hlen]
  have hst : readCell (file cur.pos) cur.len = E := hEd
  rw [hst]
  have hor : ¬ (cur.len - cur.len / 2 = 0 ∨ cur.len / 2 = 0) := by omega
  rw [if_neg hor]
  unfold deallocate
  simp only []
  have e1 : List.take (cur.len / 2) (List.drop (cur.len - cur.len / 2)
      (E ++ List.replicate (K - cur.len) default)) = E.drop (cur.len - cur.len / 2) := by
    rw [List.drop_append_of_le_length (by omega)]
    apply List.take_left'
    simp [hE]; omega
  have e2 : List.take (cur.len - cur.len / 2) (E ++ List.replicate (K - cur.len) default) =
      E.take (cur.len - cur.len / 2) := by
    rw [List.take_append_of_le_length (by omega)]
  have e3 : (E ++ List.replicate (K - cur.len) default).getD (cur.len - cur.len / 2 - 1) default =
      (E.take (cur.len - cur.len / 2)).getLastD default := by
    rw [List.getD_eq_getElem?_getD, List.getElem?_append_left (by omega),
      List.getLastD_eq_getLast?, List.getLast?_eq_getElem?, List.getElem?_take_of_lt]
    · simp [hE]
    · simp [hE]; omega
  rw [e1, e2, e3]
  have hdl : (E.drop (cur.len - cur.len / 2)).length = cur.len / 2 := by
    simp [hE]; omega
  have e4 : (E.drop (cur.len - cur.len / 2) ++
      List.drop (cur.len / 2) (E ++ List.replicate (K - cur.len) default)).getD 0 default =
      (E.drop (cur.len - cur.len / 2)).headD default := by
    rw [List.getD_eq_getElem?_getD, List.getElem?_append_left (by omega)]
    cases h : E.drop (cur.len - cur.len / 2) with
    | nil => simp
    | cons a l => simp
  have e5 : (E.drop (cur.len - cur.len / 2) ++
      List.drop (cur.len / 2) (E ++ List.replicate (K - cur.len) default)).getD
        (cur.len / 2 - 1) default = (E.drop (cur.len - cur.len / 2)).getLastD default := by
    rw [List.getD_eq_getElem?_getD, List.getElem?_append_left (by omega),
      List.getLastD_eq_getLast?, List.getLast?_eq_getElem?, hdl]
  have e6 : List.take (cur.len / 2) (E.drop (cur.len - cur.len / 2) ++
      List.drop (cur.len / 2) (E ++ List.replicate (K - cur.len) default)) =
      E.drop (cur.len - cur.len / 2) := List.take_left' hdl
  rw [e4, e5, e6]

/-! ### What `find` returns -/

theorem entry_key_mono {x y : DataType} (h : x < y) : KeyType.lt y.key x.key = false := by
  rcases entry_lt_iff.mp h with ⟨k, _⟩ | k
  · rw [k]; exact key_lt_irrefl _
  · exact key_lt_asymm k

theorem not_lt_probe {x : DataType} {key : KeyType} (h : ¬ x < ⟨key, 0⟩) :
    KeyType.lt x.key key = false ∧ (x.key = key → 0 ≤ x.value) := by
  rw [entry_lt_iff] at h
  push_neg at h
  refine ⟨by simpa using h.2, fun hk => ?_⟩
  have := h.1 hk
  simpa using this

theorem takeWhile_key_eq_filter (key : KeyType) (L : List DataType) (hs : L.Pairwise (· < ·))
    (hge : ∀ x ∈ L, ¬ x < ⟨key, 0⟩) :
    (L.takeWhile fun e => !(KeyType.gt e.key key)) =
      L.filter fun e => decide (e.key = key ∧ 0 ≤ e.value) := by
  induction L with
  | nil => rfl
  | cons x L ih =>
    rw [List.pairwise_cons] at hs
    have hx := not_lt_probe (hge x (List.mem_cons_self _ _))
    by_cases hq : KeyType.lt key x.key = true
    · have h1 : (!(KeyType.gt x.key key)) = false := by
        rw [key_gt_eq_lt, hq]; rfl
      rw [List.takeWhile_cons, h1]
      simp only [Bool.false_eq_true, if_false]
      symm
      rw [List.filter_eq_nil_iff]
      intro y hy
      have hyk : KeyType.lt key y.key = true := by
        rcases List.mem_cons.mp hy with h | h
        · rw [h]; exact hq
        · rcases entry_lt_iff.mp (hs.1 y h) with ⟨k, _⟩ | k
          · rw [← k]; exact hq
          · exact key_lt_trans hq k
      have : y.key ≠ key := fun e => (key_lt_ne hyk) e.symm
      simp [this]
    · have hq' : KeyType.lt key x.key = false := by simpa using hq
      have hk : x.key = key := by
        rcases key_lt_trichotomy x.key key with h | h | h
        · rw [hx.1] at h; exact absurd h (by simp)
        · exact h
        · exact absurd h hq
      have h1 : (!(KeyType.gt x.key key)) = true := by
        rw [key_gt_eq_lt, hq']; rfl
      have h2 : decide (x.key = key ∧ 0 ≤ x.value) = true := by
        simp [hk, hx.2 hk]
      rw [List.takeWhile_cons, h1, List.filter_cons, h2]
      simp only [if_true]
      rw [ih hs.2 (fun y hy => hge y (List.mem_cons_of_mem _ hy))]

theorem filter_dropWhile_probe (key : KeyType) (E : List DataType) :
    (E.dropWhile fun e => e.lt ⟨key, 0⟩).filter (fun e => decide (e.key = key ∧ 0 ≤ e.value)) =
      E.filter fun e => decide (e.key = key ∧ 0 ≤ e.value) := by
  induction E with
  | nil => rfl
  | cons x E ih =>
    by_cases hx : x < ⟨key, 0⟩
    · rw [List.dropWhile_cons_of_pos (by exact hx), ih]
      have : decide (x.key = key ∧ 0 ≤ x.value) = false := by
        rw [decide_eq_false_iff_not]
        rintro ⟨hk, hv⟩
        rcases entry_lt_iff.mp hx with ⟨_, v⟩ | k
        · simp at v; omega
        · simp only at k
          rw [hk, key_lt_irrefl] at k
          exact absurd k (by simp)
      rw [List.filter_cons, this]
      simp
    · rw [List.dropWhile_cons_of_neg (by exact hx)]

theorem blockFind_spec (K : Nat) (file : File) (cur : ListBlock) (key : KeyType)
    (hlen : cur.len ≤ K) (hs : (stored file cur).Pairwise (· < ·)) :
    ListBlock.find K file cur key = .ok (valuesOf key (stored file cur)) := by
  rw [blockFind_eq K file cur key hlen, valuesOf]
  congr 2
  rw [takeWhile_key_eq_filter key _ (hs.sublist (List.dropWhile_sublist _))
    (fun x hx => entry_le_iff_not_lt.mp (dropWhile_ge hs x hx)), filter_dropWhile_probe]

theorem entry_le_key {x y : DataType} (h : x ≤ y) : KeyType.lt y.key x.key = false := by
  rcases entry_le_iff_lt_or_eq.mp h with a | a
  · exact entry_key_mono a
  · subst a; exact key_lt_irrefl _

theorem head_le_of_sorted {E : List DataType} {h : DataType} (hs : E.Pairwise (· < ·))
    (hh : E.head? = some h) : ∀ x ∈ E, h ≤ x := by
  cases E with
  | nil => simp at hh
  | cons e E =>
    simp only [List.head?_cons, Option.some.injEq] at hh
    subst hh
    rw [List.pairwise_cons] at hs
    intro x hx
    rcases List.mem_cons.mp hx with a | a
    · subst a; exact entry_le_refl _
    · exact entry_le_of_lt (hs.1 x a)

theorem le_last_of_sorted {E : List DataType} {t : DataType} (hs : E.Pairwise (· < ·))
    (ht : E.getLast? = some t) : ∀ x ∈ E, x ≤ t := by
  obtain ⟨l, rfl⟩ : ∃ l, E = l ++ [t] := by
    rcases List.eq_nil_or_concat E with h | ⟨l, b, h⟩
    · subst h; simp at ht
    · subst h
      have ht2 : b = t := by simpa [Option.or] using ht
      subst ht2
      exact ⟨l, by simp⟩
  rw [List.pairwise_append] at hs
  intro x hx
  rcases List.mem_append.mp hx with a | a
  · exact entry_le_of_lt (hs.2.2 x a t (List.mem_singleton_self _))
  · rw [List.mem_singleton.mp a]; exact entry_le_refl _

theorem valuesOf_append (key : KeyType) (X Y : List DataType) :
    valuesOf key (X ++ Y) = valuesOf key X ++ valuesOf key Y := by
  simp [valuesOf]

theorem valuesOf_eq_nil {key : KeyType} {X : List DataType} (h : ∀ x ∈ X, x.key ≠ key) :
    valuesOf key X = [] := by
  simp only [valuesOf, List.map_eq_nil_iff, List.filter_eq_nil_iff]
  intro x hx
  simp [h x hx]

theorem findLoop_spec (K : Nat) (file : File) (key : KeyType) (bs : List ListBlock)
    (hsz : ∀ b ∈ bs, 0 < b.len ∧ b.len ≤ K)
    (hs : ((bs.map (stored file)).flatten).Pairwise (· < ·))
    (hacc : ∀ b ∈ bs, (stored file b).head? = some b.head ∧
      (stored file b).getLast? = some b.tail) :
    UnrolledLinkedList.findLoop K file key bs =
      .ok (valuesOf key (bs.map (stored file)).flatten) := by
  induction bs with
  | nil => rfl
  | cons b bs ih =>
    simp only [List.map_cons, List.flatten_cons] at hs ⊢
    rw [List.pairwise_append] at hs
    obtain ⟨hE, hR, hX⟩ := hs
    have hb := hacc b (List.mem_cons_self _ _)
    have hih := ih (fun c hc => hsz c (List.mem_cons_of_mem _ hc)) hR
      (fun c hc => hacc c (List.mem_cons_of_mem _ hc))
    have hne : stored file b ≠ [] := by
      intro h; rw [h] at hb; simp at hb
    have hhead_mem : b.head ∈ stored file b := List.mem_of_mem_head? hb.1
    unfold UnrolledLinkedList.findLoop
    by_cases h1 : KeyType.gt b.head.key key = true
    · rw [if_pos h1]
      rw [key_gt_eq_lt] at h1
      have hall : ∀ x ∈ stored file b ++ (bs.map (stored file)).flatten, x.key ≠ key := by
        intro x hx
        have hle : b.head ≤ x := by
          rcases List.mem_append.mp hx with a | a
          · exact head_le_of_sorted hE hb.1 x a
          · exact entry_le_of_lt (hX _ hhead_mem x a)
        have hk : KeyType.lt key x.key = true := by
          rcases entry_le_iff_lt_or_eq.mp hle with a | a
          · rcases entry_lt_iff.mp a with ⟨k, _⟩ | k
            · rw [← k]; exact h1
            · exact key_lt_trans h1 k
          · rw [← a]; exact h1
        exact fun e => key_lt_ne hk e.symm
      rw [valuesOf_eq_nil hall]
    · rw [if_neg h1]
      by_cases h2 : KeyType.ge b.tail.key key = true
      · rw [if_pos h2, blockFind_spec K file b key (hsz b (List.mem_cons_self _ _)).2 hE, hih]
        simp only []
        rw [valuesOf_append]
      · rw [if_neg h2, hih, valuesOf_append]
        have h3 : KeyType.lt b.tail.key key = true := by
          simpa [KeyType.ge] using h2
        have hall : ∀ x ∈ stored file b, x.key ≠ key := by
          intro x hx
          have hle := le_last_of_sorted hE hb.2 x hx
          have hk : KeyType.lt x.key key = true := by
            rcases entry_le_iff_lt_or_eq.mp hle with a | a
            · rcases entry_lt_iff.mp a with ⟨k, _⟩ | k
              · rw [k]; exact h3
              · exact key_lt_trans k h3
            · rw [a]; exact h3
          exact key_lt_ne hk
        rw [valuesOf_eq_nil hall]
        rfl

/-! ### Frames: what a write to one cell leaves alone -/

theorem stored_update_ne (file : File) (p : Int) (c : List DataType) (b : ListBlock)
    (h : b.pos ≠ p) : stored (Function.update file p c) b = stored file b := by
  unfold stored
  rw [Function.update_noteq h]

theorem stored_congr (file file1 : File) (b : ListBlock) (h : file1 b.pos = file b.pos) :
    stored file1 b = stored file b := by
  unfold stored
  rw [h]

theorem map_stored_congr (file file1 : File) (bs : List ListBlock)
    (h : ∀ b ∈ bs, file1 b.pos = file b.pos) : bs.map (stored file1) = bs.map (stored file) :=
  List.map_congr_left fun b hb => stored_congr file file1 b (h b hb)

theorem stored_head (file : File) (b : ListBlock) (h : 0 < b.len) :
    (stored file b).head? = some ((file b.pos).getD 0 default) := by
  have hl : 0 < (stored file b).length := by rw [stored_length]; exact h
  rw [List.head?_eq_getElem?, List.getElem?_eq_getElem hl]
  unfold stored
  rw [readCell_getElem]

/-! ### The block search loop -/

theorem locate_some {tmp : DataType} {bs : List ListBlock} {i : Nat}
    (h : locate tmp bs = some i) :
    ∃ pre cur post, bs = pre ++ cur :: post ∧ pre.length = i ∧
      (∀ b ∈ pre, b.tail < tmp) ∧ tmp ≤ cur.tail := by
  induction bs generalizing i with
  | nil => simp [locate] at h
  | cons b bs ih =>
    unfold locate at h
    by_cases hb : tmp.le b.tail = true
    · rw [if_pos hb] at h
      simp only [Option.some.injEq] at h
      subst h
      exact ⟨[], b, bs, rfl, rfl, by simp, hb⟩
    · rw [if_neg hb] at h
      cases hl : locate tmp bs with
      | none => rw [hl] at h; simp at h
      | some j =>
        rw [hl] at h
        simp only [Option.map_some', Option.some.injEq] at h
        obtain ⟨pre, cur, post, h1, h2, h3, h4⟩ := ih hl
        refine ⟨b :: pre, cur, post, by rw [h1]; rfl, by simp [h2, h], ?_, h4⟩
        intro c hc
        rcases List.mem_cons.mp hc with a | a
        · subst a; exact entry_not_le.mp hb
        · exact h3 c a

theorem locate_none {tmp : DataType} {bs : List ListBlock} (h : locate tmp bs = none) :
    ∀ b ∈ bs, b.tail < tmp := by
  induction bs with
  | nil => simp
  | cons b bs ih =>
    unfold locate at h
    by_cases hb : tmp.le b.tail = true
    · rw [if_pos hb] at h; simp at h
    · rw [if_neg hb] at h
      have hl : locate tmp bs = none := by
        cases hl : locate tmp bs with
        | none => rfl
        | some j => rw [hl] at h; simp at h
      intro c hc
      rcases List.mem_cons.mp hc with a | a
      · subst a; exact entry_not_le.mp hb
      · exact ih hl c a

/-- Where `insert` puts an entry: the first block whose tail is not below it,
or the last block when every tail is below it. -/
theorem insert_target (tmp : DataType) (bs : List ListBlock) (hne : bs ≠ []) :
    ∃ pre cur post, bs = pre ++ cur :: post ∧
      (locate tmp bs).getD (bs.length - 1) = pre.length ∧
      (∀ b ∈ pre, b.tail < tmp) ∧ (tmp ≤ cur.tail ∨ (post = [] ∧ cur.tail < tmp)) := by
  cases hl : locate tmp bs with
  | some i =>
    obtain ⟨pre, cur, post, h1, h2, h3, h4⟩ := locate_some hl
    exact ⟨pre, cur, post, h1, by simp [h2], h3, Or.inl h4⟩
  | none =>
    have hall := locate_none hl
    rcases List.eq_nil_or_concat bs with h | ⟨pre, cur, h⟩
    · exact absurd h hne
    · subst h
      refine ⟨pre, cur, [], by simp, by simp, ?_, Or.inr ⟨rfl, ?_⟩⟩
      · intro b hb; exact hall b (by simp [hb])
      · exact hall cur (by simp)

theorem getElem?_mid (pre post : List ListBlock) (cur : ListBlock) :
    (pre ++ cur :: post)[pre.length]? = some cur := by
  rw [List.getElem?_append_right (le_refl _)]
  simp

theorem set_mid (pre post : List ListBlock) (cur x : ListBlock) :
    (pre ++ cur :: post).set pre.length x = pre ++ x :: post := by
  rw [List.set_append_right _ _ (le_refl _)]
  simp

theorem take_mid (pre post : List ListBlock) (cur : ListBlock) :
    (pre ++ cur :: post).take pre.length = pre := List.take_left' rfl

theorem drop_mid (pre post : List ListBlock) (cur : ListBlock) :
    (pre ++ cur :: post).drop (pre.length + 1) = post := by
  have : pre ++ cur :: post = (pre ++ [cur]) ++ post := by simp
  rw [this]
  exact List.drop_left' (by simp)

theorem eraseIdx_mid (pre post : List ListBlock) (cur : ListBlock) :
    (pre ++ cur :: post).eraseIdx pre.length = pre ++ post := by
  rw [List.eraseIdx_eq_take_drop_succ, take_mid, drop_mid]

/-! ### Block operations, stated by their effect -/

theorem blockInsert_props (K : Nat) (file : File) (cur : ListBlock) (tmp : DataType)
    (hlen : cur.len < K) (hm : tmp ∉ stored file cur) (hd : tmp ≠ default)
    (hacc : cur.len = 0 ∨ ((stored file cur).head? = some cur.head ∧
      (stored file cur).getLast? = some cur.tail)) :
    ∃ cur1 file1, ListBlock.insert K file cur tmp = .ok (cur1, file1) ∧
      cur1.len = cur.len + 1 ∧ cur1.pos = cur.pos ∧
      (∀ c, c ≠ cur.pos → file1 c = file c) ∧
      stored file1 cur1 = ((stored file cur).takeWhile fun e => e.lt tmp) ++
        tmp :: ((stored file cur).dropWhile fun e => e.lt tmp) ∧
      (stored file1 cur1).head? = some cur1.head ∧
      (stored file1 cur1).getLast? = some cur1.tail := by
  have hok := blockInsert_ok K file cur tmp hlen (dropWhile_head_ne hm) (fun _ => hd)
  have hE : (stored file cur).length = cur.len := stored_length file cur
  have hAB := List.takeWhile_append_dropWhile (fun e => DataType.lt e tmp) (stored file cur)
  generalize hA : (stored file cur).takeWhile (fun e => e.lt tmp) = A at *
  generalize hB : (stored file cur).dropWhile (fun e => e.lt tmp) = B at *
  have hlenAB : A.length + B.length = cur.len := by
    rw [← hE, ← hAB]; simp
  refine ⟨_, _, hok, rfl, rfl, ?_, ?_, ?_, ?_⟩
  · intro c hc
    exact Function.update_noteq hc _ _
  · unfold stored
    simp only [Function.update_same]
    exact readCell_written _ _ _ (by simp; omega)
  · unfold stored
    simp only [Function.update_same]
    rw [readCell_written _ _ _ (by simp; omega)]
    cases A with
    | nil => simp
    | cons a A' =>
      simp only [List.cons_append, List.head?_cons, reduceCtorEq, if_false]
      rcases hacc with h0 | ⟨h1, _⟩
      · simp at hlenAB; omega
      · rw [← hAB] at h1
        simpa using h1
  · unfold stored
    simp only [Function.update_same]
    rw [readCell_written _ _ _ (by simp; omega)]
    cases B with
    | nil => simp
    | cons b B' =>
      simp only [reduceCtorEq, if_false]
      rcases hacc with h0 | ⟨_, h2⟩
      · simp at hlenAB; omega
      · rw [← hAB, List.getLast?_append] at h2
        rw [List.getLast?_append]
        have e1 : (tmp :: b :: B').getLast? = (b :: B').getLast? := by
          simp [List.getLast?_cons_cons]
        rw [e1]
        exact h2

theorem getLast?_eq_getLastD {l : List DataType} (h : l ≠ []) :
    l.getLast? = some (l.getLastD default) := by
  rw [List.getLastD_eq_getLast?]
  cases hl : l.getLast? with
  | none => exact absurd (List.getLast?_eq_none_iff.mp hl) h
  | some a => rfl

theorem head?_eq_headD {l : List DataType} (h : l ≠ []) :
    l.head? = some (l.headD default) := by
  cases l with
  | nil => exact absurd rfl h
  | cons a l => rfl

theorem split_props (K : Nat) (file : File) (cur : ListBlock) (f : Int) (fs : List Int)
    (hlen : cur.len ≤ K) (h2 : 2 ≤ cur.len) (hf : f ≠ cur.pos)
    (hhead : (stored file cur).head? = some cur.head) :
    ∃ cur1 nex file1, split K file (f :: fs) cur = .ok (cur1, nex, file1, setErase f (f :: fs)) ∧
      cur1.pos = cur.pos ∧ nex.pos = f ∧
      cur1.len = cur.len - cur.len / 2 ∧ nex.len = cur.len / 2 ∧
      (∀ c, c ≠ cur.pos → c ≠ f → file1 c = file c) ∧
      stored file1 cur1 = (stored file cur).take (cur.len - cur.len / 2) ∧
      stored file1 nex = (stored file cur).drop (cur.len - cur.len / 2) ∧
      ((stored file1 cur1).head? = some cur1.head ∧
        (stored file1 cur1).getLast? = some cur1.tail) ∧
      ((stored file1 nex).head? = some nex.head ∧
        (stored file1 nex).getLast? = some nex.tail) := by
  have hok := split_ok K file cur f fs hlen h2
  have hE : (stored file cur).length = cur.len := stored_length file cur
  have hn : 0 < cur.len / 2 := Nat.div_pos h2 (by norm_num)
  have hc : 0 < cur.len - cur.len / 2 := by omega
  have hcl : cur.len - cur.len / 2 ≤ cur.len := by omega
  have s1 : stored (Function.update
         (Function.update file cur.pos ((stored file cur).take (cur.len - cur.len / 2) ++
           (file cur.pos).drop (cur.len - cur.len / 2)))
         f ((stored file cur).drop (cur.len - cur.len / 2) ++
           ((Function.update file cur.pos ((stored file cur).take (cur.len - cur.len / 2) ++
           (file cur.pos).drop (cur.len - cur.len / 2))) f).drop (cur.len / 2)))
      { cur with len := cur.len - cur.len / 2,
                 tail := ((stored file cur).take (cur.len - cur.len / 2)).getLastD default } =
      (stored file cur).take (cur.len - cur.len / 2) := by
    unfold stored
    simp only []
    rw [Function.update_noteq (Ne.symm hf), Function.update_same]
    exact readCell_written _ _ _ (by rw [List.length_take]; unfold stored at hE; omega)
  have s2 : stored (Function.update
         (Function.update file cur.pos ((stored file cur).take (cur.len - cur.len / 2) ++
           (file cur.pos).drop (cur.len - cur.len / 2)))
         f ((stored file cur).drop (cur.len - cur.len / 2) ++
           ((Function.update file cur.pos ((stored file cur).take (cur.len - cur.len / 2) ++
           (file cur.pos).drop (cur.len - cur.len / 2))) f).drop (cur.len / 2)))
      { head := ((stored file cur).drop (cur.len - cur.len / 2)).headD default,
        tail := ((stored file cur).drop (cur.len - cur.len / 2)).getLastD default,
        len := cur.len / 2, pos := f } =
      (stored file cur).drop (cur.len - cur.len / 2) := by
    unfold stored
    simp only []
    rw [Function.update_same]
    exact readCell_written _ _ _ (by rw [List.length_drop]; unfold stored at hE; omega)
  have n1 : (stored file cur).take (cur.len - cur.len / 2) ≠ [] := by
    intro h
    have := congrArg List.length h
    simp [hE] at this
    omega
  have n2 : (stored file cur).drop (cur.len - cur.len / 2) ≠ [] := by
    intro h
    have := congrArg List.length h
    simp [hE] at this
    omega
  refine ⟨_, _, _, hok, rfl, rfl, rfl, rfl, ?_, s1, s2, ⟨?_, ?_⟩, ⟨?_, ?_⟩⟩
  · intro c h1 h2
    rw [Function.update_noteq h2, Function.update_noteq h1]
  · rw [s1]
    simp only []
    rw [← hhead]
    cases hl : stored file cur with
    | nil => rw [hl] at hE; simp at hE; omega
    | cons a l =>
      obtain ⟨m, hm⟩ : ∃ m, cur.len - cur.len / 2 = m + 1 := ⟨cur.len - cur.len / 2 - 1, by omega⟩
      rw [hm]; rfl
  · rw [s1]
    exact getLast?_eq_getLastD n1
  · rw [s2]
    exact head?_eq_headD n2
  · rw [s2]
    exact getLast?_eq_getLastD n2

theorem blockErase_props (K : Nat) (file : File) (cur : ListBlock) (tmp : DataType)
    (hlen : cur.len ≤ K) (hs : (stored file cur).Pairwise (· < ·)) (hm : tmp ∈ stored file cur)
    (hacc : (stored file cur).head? = some cur.head ∧
      (stored file cur).getLast? = some cur.tail) :
    ∃ cur1 file1, ListBlock.erase K file cur tmp = .ok (cur1, file1) ∧
      cur1.len = cur.len - 1 ∧ cur1.pos = cur.pos ∧
      (∀ c, c ≠ cur.pos → file1 c = file c) ∧
      ∃ A B, stored file cur = A ++ tmp :: B ∧ stored file1 cur1 = A ++ B ∧
        (cur1.len ≠ 0 → (stored file1 cur1).head? = some cur1.head ∧
          (stored file1 cur1).getLast? = some cur1.tail) := by
  obtain ⟨B, hB⟩ := dropWhile_of_mem hs hm
  have hok := blockErase_ok K file cur tmp hlen _ B rfl hB
  have hE : (stored file cur).length = cur.len := stored_length file cur
  have hAB := List.takeWhile_append_dropWhile (fun e => DataType.lt e tmp) (stored file cur)
  rw [hB] at hAB
  generalize hA : (stored file cur).takeWhile (fun e => e.lt tmp) = A at *
  have hlenAB : A.length + (B.length + 1) = cur.len := by
    rw [← hE, ← hAB]; simp
  have hst : stored (Function.update file cur.pos (A ++ B ++ (file cur.pos).drop (cur.len - 1)))
      { head := if A = [] ∧ B ≠ [] then B.headD default else cur.head,
        tail := if B = [] ∧ A ≠ [] then A.getLastD default else cur.tail,
        len := cur.len - 1, pos := cur.pos } = A ++ B := by
    unfold stored
    simp only [Function.update_same]
    exact readCell_written _ _ _ (by simp; omega)
  refine ⟨_, _, hok, rfl, rfl, ?_, A, B, hAB.symm, hst, ?_⟩
  · intro c hc
    exact Function.update_noteq hc _ _
  · intro hne
    simp only [] at hne
    rw [hst]
    simp only []
    rw [← hAB] at hacc
    constructor
    · cases A with
      | nil =>
        have hb : B ≠ [] := by
          rintro rfl
          simp at hlenAB
          omega
        simp only [true_and, hb, ne_eq, not_false_eq_true, if_true, List.nil_append]
        exact head?_eq_headD hb
      | cons a A' =>
        simp only [reduceCtorEq, false_and, if_false]
        simpa using hacc.1
    · cases B with
      | nil =>
        have ha : A ≠ [] := by
          rintro rfl
          simp at hlenAB
          omega
        simp only [true_and, ha, ne_eq, not_false_eq_true, if_true, List.append_nil]
        exact getLast?_eq_getLastD ha
      | cons b B' =>
        simp only [reduceCtorEq, false_and, if_false]
        have h2 := hacc.2
        rw [List.getLast?_append] at h2 ⊢
        have e1 : (tmp :: b :: B').getLast? = (b :: B').getLast? := by
          simp [List.getLast?_cons_cons]
        rw [e1] at h2
        exact h2

/-! ### Well-formed states, taken apart and put together -/

theorem entries_mid (s : UnrolledLinkedList) (pre post : List ListBlock) (cur : ListBlock)
    (hb : s.blocks = pre ++ cur :: post) :
    entries s = (pre.map (stored s.file)).flatten ++ stored s.file cur ++
      (post.map (stored s.file)).flatten := by
  unfold entries
  rw [hb]
  simp

theorem mem_flat {file : File} {bs : List ListBlock} {b : ListBlock} {x : DataType}
    (hb : b ∈ bs) (hx : x ∈ stored file b) : x ∈ (bs.map (stored file)).flatten := by
  rw [List.mem_flatten]
  exact ⟨stored file b, List.mem_map_of_mem _ hb, hx⟩

theorem wf_cell_ne (K : Nat) (s : UnrolledLinkedList) (pre post : List ListBlock)
    (cur : ListBlock) (hwf : WellFormed K s) (hb : s.blocks = pre ++ cur :: post) :
    ∀ b ∈ pre ++ post, b.pos ≠ cur.pos := by
  obtain ⟨hsz, hs, _⟩ := hwf
  rw [entries_mid s pre post cur hb, List.append_assoc, List.pairwise_append] at hs
  obtain ⟨_, h2, h3⟩ := hs
  rw [List.pairwise_append] at h2
  have hcur : 0 < cur.len := (hsz cur (by rw [hb]; simp)).1
  have hx := List.mem_of_mem_head? (stored_head s.file cur hcur)
  intro b hbm he
  have hbl : 0 < b.len := by
    apply (hsz b _).1
    rw [hb]
    rcases List.mem_append.mp hbm with a | a
    · exact List.mem_append_left _ a
    · exact List.mem_append_right _ (List.mem_cons_of_mem _ a)
  have hy := List.mem_of_mem_head? (stored_head s.file b hbl)
  rw [he] at hy
  rcases List.mem_append.mp hbm with a | a
  · exact entry_lt_irrefl _ (h3 _ (mem_flat a hy) _ (List.mem_append_left _ hx))
  · exact entry_lt_irrefl _ (h2.2.2 _ hx _ (mem_flat a hy))

theorem wf_of_parts (K : Nat) (file file1 : File) (fr : List Int)
    (pre post news : List ListBlock)
    (hold : ∀ b ∈ pre ++ post, (0 < b.len ∧ b.len < K) ∧
      ((stored file b).head? = some b.head ∧ (stored file b).getLast? = some b.tail))
    (hframe : ∀ b ∈ pre ++ post, file1 b.pos = file b.pos)
    (hnews : ∀ b ∈ news, (0 < b.len ∧ b.len < K) ∧
      ((stored file1 b).head? = some b.head ∧ (stored file1 b).getLast? = some b.tail))
    (hsorted : ((pre.map (stored file)).flatten ++ (news.map (stored file1)).flatten ++
      (post.map (stored file)).flatten).Pairwise (· < ·)) :
    WellFormed K ⟨pre ++ news ++ post, fr, file1⟩ ∧
    entries ⟨pre ++ news ++ post, fr, file1⟩ =
      (pre.map (stored file)).flatten ++ (news.map (stored file1)).flatten ++
        (post.map (stored file)).flatten := by
  have e1 : pre.map (stored file1) = pre.map (stored file) :=
    map_stored_congr file file1 pre fun b hb => hframe b (List.mem_append_left _ hb)
  have e2 : post.map (stored file1) = post.map (stored file) :=
    map_stored_congr file file1 post fun b hb => hframe b (List.mem_append_right _ hb)
  have hent : entries ⟨pre ++ news ++ post, fr, file1⟩ =
      (pre.map (stored file)).flatten ++ (news.map (stored file1)).flatten ++
        (post.map (stored file)).flatten := by
    unfold entries
    simp only [List.map_append, List.flatten_append, e1, e2]
  refine ⟨⟨?_, ?_, ?_⟩, hent⟩
  · intro b hb
    simp only [List.mem_append] at hb
    rcases hb with (a | a) | a
    · exact (hold b (List.mem_append_left _ a)).1
    · exact (hnews b a).1
    · exact (hold b (List.mem_append_right _ a)).1
  · rw [hent]; exact hsorted
  · intro b hb
    simp only [List.mem_append] at hb
    rcases hb with (a | a) | a
    · show (stored file1 b).head? = _ ∧ _
      rw [stored_congr file file1 b (hframe b (List.mem_append_left _ a))]
      exact (hold b (List.mem_append_left _ a)).2
    · exact (hnews b a).2
    · show (stored file1 b).head? = _ ∧ _
      rw [stored_congr file file1 b (hframe b (List.mem_append_right _ a))]
      exact (hold b (List.mem_append_right _ a)).2

theorem wf_old (K : Nat) (s : UnrolledLinkedList) (pre post : List ListBlock) (cur : ListBlock)
    (hwf : WellFormed K s) (hb : s.blocks = pre ++ cur :: post) :
    ∀ b ∈ pre ++ post, (0 < b.len ∧ b.len < K) ∧
      ((stored s.file b).head? = some b.head ∧ (stored s.file b).getLast? = some b.tail) := by
  intro b hbm
  have hmem : b ∈ s.blocks := by
    rw [hb]
    rcases List.mem_append.mp hbm with a | a
    · exact List.mem_append_left _ a
    · exact List.mem_append_right _ (List.mem_cons_of_mem _ a)
  exact ⟨hwf.1 b hmem, hwf.2.2 b hmem⟩

theorem pairwise_insert_mid {X Y : List DataType} {tmp : DataType}
    (h : (X ++ Y).Pairwise (· < ·)) (hx : ∀ x ∈ X, x < tmp) (hy : ∀ y ∈ Y, tmp < y) :
    (X ++ tmp :: Y).Pairwise (· < ·) := by
  rw [List.pairwise_append] at h ⊢
  refine ⟨h.1, ?_, ?_⟩
  · rw [List.pairwise_cons]
    exact ⟨hy, h.2.1⟩
  · intro a ha b hb
    rcases List.mem_cons.mp hb with e | e
    · subst e; exact hx a ha
    · exact h.2.2 a ha b e

/-! ### `insert` on a well-formed index -/

/-- Shape of the state after inserting an absent entry into a non-empty index:
the target block gains the entry and, when that fills it, is split in two. -/
theorem insert_shape (K : Nat) (s : UnrolledLinkedList) (key : KeyType) (value : Int)
    (hwf : WellFormed K s) (hfree : FreeOK s) (hpool : s.free_blocks ≠ [])
    (hne : s.blocks ≠ [])
    (hnew : (⟨key, value⟩ : DataType) ∉ entries s) (hd : (⟨key, value⟩ : DataType) ≠ default) :
    ∃ pre cur post cur1 file1, s.blocks = pre ++ cur :: post ∧
      (∀ b ∈ pre, b.tail < ⟨key, value⟩) ∧
      ((⟨key, value⟩ : DataType) ≤ cur.tail ∨ (post = [] ∧ cur.tail < ⟨key, value⟩)) ∧
      cur1.len = cur.len + 1 ∧ cur1.pos = cur.pos ∧
      (∀ c, c ≠ cur.pos → file1 c = s.file c) ∧
      stored file1 cur1 = ((stored s.file cur).takeWhile fun e => e.lt ⟨key, value⟩) ++
        ⟨key, value⟩ :: ((stored s.file cur).dropWhile fun e => e.lt ⟨key, value⟩) ∧
      ((stored file1 cur1).head? = some cur1.head ∧
        (stored file1 cur1).getLast? = some cur1.tail) ∧
      ((cur1.len < K ∧ UnrolledLinkedList.insert K s key value =
          ⟨⟨pre ++ cur1 :: post, s.free_blocks, file1⟩, none⟩) ∨
       (cur1.len = K ∧ ∃ f fs cur2 nex file2, s.free_blocks = f :: fs ∧
          cur2.pos = cur.pos ∧ nex.pos = f ∧
          cur2.len = cur1.len - cur1.len / 2 ∧ nex.len = cur1.len / 2 ∧
          (∀ c, c ≠ cur.pos → c ≠ f → file2 c = file1 c) ∧
          stored file2 cur2 = (stored file1 cur1).take (cur1.len - cur1.len / 2) ∧
          stored file2 nex = (stored file1 cur1).drop (cur1.len - cur1.len / 2) ∧
          ((stored file2 cur2).head? = some cur2.head ∧
            (stored file2 cur2).getLast? = some cur2.tail) ∧
          ((stored file2 nex).head? = some nex.head ∧
            (stored file2 nex).getLast? = some nex.tail) ∧
          UnrolledLinkedList.insert K s key value =
            ⟨⟨pre ++ cur2 :: nex :: post, setErase f (f :: fs), file2⟩, none⟩)) := by
  obtain ⟨pre, cur, post, hb, hloc, hpre, htgt⟩ := insert_target ⟨key, value⟩ s.blocks hne
  have hcurmem : cur ∈ s.blocks := by rw [hb]; simp
  have hsz := hwf.1 cur hcurmem
  have hacc := hwf.2.2 cur hcurmem
  have hm : (⟨key, value⟩ : DataType) ∉ stored s.file cur :=
    fun h => hnew (mem_flat hcurmem h)
  obtain ⟨cur1, file1, hins, hl1, hp1, hfr1, hst1, hacc1⟩ :=
    blockInsert_props K s.file cur ⟨key, value⟩ hsz.2 hm hd (Or.inr hacc)
  refine ⟨pre, cur, post, cur1, file1, hb, hpre, htgt, hl1, hp1, hfr1, hst1, hacc1, ?_⟩
  have hlen0 : ¬ s.blocks.length = 0 := fun h => hne (List.length_eq_zero.mp h)
  obtain ⟨bs, fr, file⟩ := s
  simp only [] at hb hloc hins hlen0 hpool hfr1 hst1
  subst hb
  by_cases hK : K ≤ cur1.len
  · right
    have hKeq : cur1.len = K := by omega
    refine ⟨hKeq, ?_⟩
    obtain ⟨f, fs, hfs⟩ : ∃ f fs, fr = f :: fs := by
      cases fr with
      | nil => exact absurd rfl hpool
      | cons f fs => exact ⟨f, fs, rfl⟩
    subst hfs
    have hfne : f ≠ cur1.pos := by
      rw [hp1]
      intro h
      exact hfree cur hcurmem (by rw [← h]; exact List.mem_cons_self _ _)
    have h2 : 2 ≤ cur1.len := by omega
    obtain ⟨cur2, nex, file2, hsp, q1, q2, q3, q4, q5, q6, q7, q8, q9⟩ :=
      split_props K file1 cur1 f fs (by omega) h2 hfne hacc1.1
    refine ⟨f, fs, cur2, nex, file2, rfl, by rw [q1, hp1], q2, q3, q4, ?_, q6, q7, q8, q9, ?_⟩
    · intro c h1 h2
      exact q5 c (by rw [hp1]; exact h1) h2
    · unfold UnrolledLinkedList.insert
      simp only [if_neg hlen0, hloc, getElem?_mid, hins, if_pos hK, hsp, take_mid, drop_mid]
  · left
    refine ⟨by omega, ?_⟩
    unfold UnrolledLinkedList.insert
    simp only [if_neg hlen0, hloc, getElem?_mid, hins, if_neg hK, set_mid]

theorem mem_setErase {x f : Int} {l : List Int} : x ∈ setErase f l ↔ x ∈ l ∧ x ≠ f := by
  simp [setErase]

/-- Inserting into an index without blocks creates the block in cell 1. -/
theorem insert_empty (K : Nat) (s : UnrolledLinkedList) (key : KeyType) (value : Int)
    (hK : 0 < K) (he : s.blocks = []) (hd : (⟨key, value⟩ : DataType) ≠ default) :
    ∃ file1, UnrolledLinkedList.insert K s key value =
        ⟨⟨[⟨⟨key, value⟩, ⟨key, value⟩, 1, 1⟩], setErase 1 s.free_blocks, file1⟩, none⟩ ∧
      stored file1 ⟨⟨key, value⟩, ⟨key, value⟩, 1, 1⟩ = [⟨key, value⟩] := by
  have hst0 : stored s.file ⟨default, default, 0, 1⟩ = [] :=
    List.length_eq_zero.mp (stored_length _ _)
  have hok := blockInsert_ok K s.file ⟨default, default, 0, 1⟩ ⟨key, value⟩ hK
    (by rw [hst0]; simp) (fun _ => hd)
  rw [hst0] at hok
  simp only [List.takeWhile_nil, List.dropWhile_nil, if_true, List.nil_append,
    Nat.zero_add] at hok
  refine ⟨Function.update s.file 1 ([⟨key, value⟩] ++ List.drop 1 (s.file 1)), ?_, ?_⟩
  · unfold UnrolledLinkedList.insert
    simp only [he, List.length_nil, if_true, List.nil_append, hok]
  · unfold stored
    simp only [Function.update_same]
    exact readCell_written _ _ _ rfl

theorem insert_sorted_mid (K : Nat) (s : UnrolledLinkedList) (tmp : DataType)
    (pre post : List ListBlock) (cur : ListBlock)
    (hwf : WellFormed K s) (hb : s.blocks = pre ++ cur :: post)
    (hpre : ∀ b ∈ pre, b.tail < tmp)
    (htgt : tmp ≤ cur.tail ∨ (post = [] ∧ cur.tail < tmp))
    (hnew : tmp ∉ entries s) :
    (∀ x ∈ (pre.map (stored s.file)).flatten ++
        ((stored s.file cur).takeWhile fun e => e.lt tmp), x < tmp) ∧
    (∀ y ∈ ((stored s.file cur).dropWhile fun e => e.lt tmp) ++
        (post.map (stored s.file)).flatten, tmp < y) := by
  have hent := entries_mid s pre post cur hb
  have hs := hwf.2.1
  rw [hent, List.append_assoc, List.pairwise_append] at hs
  obtain ⟨s1, s2, s3⟩ := hs
  rw [List.pairwise_append] at s2
  obtain ⟨s4, s5, s6⟩ := s2
  have hcurmem : cur ∈ s.blocks := by rw [hb]; simp
  constructor
  · intro x hx
    rcases List.mem_append.mp hx with a | a
    · rw [List.mem_flatten] at a
      obtain ⟨l, hl, hxl⟩ := a
      obtain ⟨b, hbm, rfl⟩ := List.mem_map.mp hl
      have hbs : b ∈ s.blocks := by rw [hb]; exact List.mem_append_left _ hbm
      have hsb : (stored s.file b).Pairwise (· < ·) := by
        apply s1.sublist
        exact List.sublist_flatten_of_mem (List.mem_map_of_mem _ hbm)
      exact entry_lt_of_le_of_lt (le_last_of_sorted hsb (hwf.2.2 b hbs).2 x hxl) (hpre b hbm)
    · exact takeWhile_lt_mem a
  · intro y hy
    rcases List.mem_append.mp hy with a | a
    · have h1 := dropWhile_ge s4 y a
      rcases entry_le_iff_lt_or_eq.mp h1 with h | h
      · exact h
      · exfalso
        apply hnew
        rw [hent, h]
        exact List.mem_append_left _ (List.mem_append_right _
          ((List.dropWhile_sublist _).subset a))
    · rcases htgt with h | ⟨h, _⟩
      · have htail : cur.tail ∈ stored s.file cur :=
          List.mem_of_mem_getLast? (hwf.2.2 cur hcurmem).2
        exact entry_lt_of_le_of_lt h (s6 _ htail _ a)
      · subst h
        simp at a

/-- Inserting an absent entry, other than the all-zero one, into a well-formed
index succeeds, keeps the index well formed and puts the entry in its place. -/
theorem insert_spec (K : Nat) (s : UnrolledLinkedList) (key : KeyType) (value : Int)
    (hK : 2 ≤ K) (hwf : WellFormed K s) (hfree : FreeOK s) (hpool : s.free_blocks ≠ [])
    (hnew : (⟨key, value⟩ : DataType) ∉ entries s) (hd : (⟨key, value⟩ : DataType) ≠ default) :
    (UnrolledLinkedList.insert K s key value).thrown = none ∧
    WellFormed K (UnrolledLinkedList.insert K s key value).state ∧
    FreeOK (UnrolledLinkedList.insert K s key value).state ∧
    ∃ X Y, entries s = X ++ Y ∧ (∀ x ∈ X, x < ⟨key, value⟩) ∧ (∀ y ∈ Y, ⟨key, value⟩ < y) ∧
      entries (UnrolledLinkedList.insert K s key value).state = X ++ ⟨key, value⟩ :: Y := by
  by_cases he : s.blocks = []
  · obtain ⟨file1, hins, hst⟩ := insert_empty K s key value (by omega) he hd
    rw [hins]
    have hent : entries s = [] := by unfold entries; rw [he]; rfl
    have hent1 : entries ⟨[⟨⟨key, value⟩, ⟨key, value⟩, 1, 1⟩], setErase 1 s.free_blocks, file1⟩ =
        [⟨key, value⟩] := by
      unfold entries
      simp [hst]
    refine ⟨rfl, ⟨?_, ?_, ?_⟩, ?_, [], [], by rw [hent]; rfl, by simp, by simp, ?_⟩
    · intro b hb
      simp only [List.mem_singleton] at hb
      subst hb
      exact ⟨by norm_num, by simp only []; omega⟩
    · rw [hent1]; simp
    · intro b hb
      simp only [List.mem_singleton] at hb
      subst hb
      simp only [hst]
      exact ⟨rfl, rfl⟩
    · intro b hb
      simp only [List.mem_singleton] at hb
      subst hb
      simp only []
      rw [mem_setErase]
      simp
    · rw [hent1]; rfl
  · obtain ⟨pre, cur, post, cur1, file1, hb, hpre, htgt, hl1, hp1, hfr1, hst1, hacc1, hcase⟩ :=
      insert_shape K s key value hwf hfree hpool he hnew hd
    obtain ⟨hX, hY⟩ := insert_sorted_mid K s ⟨key, value⟩ pre post cur hwf hb hpre htgt hnew
    have hent := entries_mid s pre post cur hb
    have hAB := List.takeWhile_append_dropWhile (fun e => DataType.lt e ⟨key, value⟩)
      (stored s.file cur)
    generalize hA : (stored s.file cur).takeWhile (fun e => e.lt ⟨key, value⟩) = A at *
    generalize hB : (stored s.file cur).dropWhile (fun e => e.lt ⟨key, value⟩) = B at *
    have hcurmem : cur ∈ s.blocks := by rw [hb]; simp
    have hold := wf_old K s pre post cur hwf hb
    have hne := wf_cell_ne K s pre post cur hwf hb
    have hXY : entries s = ((pre.map (stored s.file)).flatten ++ A) ++
        (B ++ (post.map (stored s.file)).flatten) := by
      rw [hent, ← hAB]; simp
    have hsorted : ((pre.map (stored s.file)).flatten ++ (A ++ ⟨key, value⟩ :: B) ++
        (post.map (stored s.file)).flatten).Pairwise (· < ·) := by
      have h1 := hwf.2.1
      rw [hXY] at h1
      have := pairwise_insert_mid h1 hX hY
      simpa using this
    have hfreeold : ∀ b ∈ pre ++ post, b.pos ∉ s.free_blocks := by
      intro b hbm
      apply hfree b
      rw [hb]
      rcases List.mem_append.mp hbm with a | a
      · exact List.mem_append_left _ a
      · exact List.mem_append_right _ (List.mem_cons_of_mem _ a)
    rcases hcase with ⟨hlt, hins⟩ | ⟨hKeq, f, fs, cur2, nex, file2, hfs, q1, q2, q3, q4, q5, q6,
      q7, q8, q9, hins⟩
    · rw [hins]
      have hw := wf_of_parts K s.file file1 s.free_blocks pre post [cur1] hold
        (fun b hbm => hfr1 _ (hne b hbm))
        (by
          intro b hbm
          simp only [List.mem_singleton] at hbm
          subst hbm
          exact ⟨⟨by omega, hlt⟩, hacc1⟩)
        (by simpa [hst1] using hsorted)
      simp only [List.append_assoc, List.singleton_append] at hw
      refine ⟨rfl, hw.1, ?_, _, _, hXY, hX, hY, ?_⟩
      · intro b hbm
        simp only [List.mem_append, List.mem_cons] at hbm
        rcases hbm with a | a | a
        · exact hfreeold b (List.mem_append_left _ a)
        · subst a; rw [hp1]; exact hfree cur hcurmem
        · exact hfreeold b (List.mem_append_right _ a)
      · rw [hw.2]
        simp [hst1]
    · rw [hins]
      have hcat : stored file2 cur2 ++ stored file2 nex = A ++ ⟨key, value⟩ :: B := by
        rw [q6, q7, List.take_append_drop, hst1]
      have hfmem : f ∈ s.free_blocks := by rw [hfs]; exact List.mem_cons_self _ _
      have hposf : ∀ b ∈ pre ++ post, b.pos ≠ f := by
        intro b hbm h
        exact hfreeold b hbm (by rw [h]; exact hfmem)
      have hsz := hwf.1 cur hcurmem
      have hw := wf_of_parts K s.file file2 (setErase f (f :: fs)) pre post [cur2, nex] hold
        (fun b hbm => by rw [q5 _ (hne b hbm) (hposf b hbm)]; exact hfr1 _ (hne b hbm))
        (by
          intro b hbm
          simp only [List.mem_cons, List.mem_singleton, List.not_mem_nil, or_false] at hbm
          rcases hbm with a | a
          · subst a
            exact ⟨⟨by omega, by omega⟩, q8⟩
          · subst a
            exact ⟨⟨by omega, by omega⟩, q9⟩)
        (by
          have : ([cur2, nex].map (stored file2)).flatten = A ++ ⟨key, value⟩ :: B := by
            simp [hcat]
          rw [this]
          exact hsorted)
      simp only [List.append_assoc, List.cons_append, List.nil_append] at hw
      refine ⟨rfl, hw.1, ?_, _, _, hXY, hX, hY, ?_⟩
      · intro b hbm
        simp only [List.mem_append, List.mem_cons] at hbm
        simp only []
        rw [mem_setErase, ← hfs]
        rcases hbm with a | a | a | a
        · exact fun h => hfreeold b (List.mem_append_left _ a) h.1
        · subst a; rw [q1]; exact fun h => hfree cur hcurmem h.1
        · subst a; rw [q2]; exact fun h => h.2 rfl
        · exact fun h => hfreeold b (List.mem_append_right _ a) h.1
      · rw [hw.2]
        have : ([cur2, nex].map (stored file2)).flatten = A ++ ⟨key, value⟩ :: B := by
          simp [hcat]
        rw [this]
        simp

/-! ### Entries already stored: duplicate `insert`, `erase` -/

/-- A stored entry sits in the block the search loop selects. -/
theorem target_holds (K : Nat) (s : UnrolledLinkedList) (tmp : DataType)
    (pre post : List ListBlock) (cur : ListBlock)
    (hwf : WellFormed K s) (hb : s.blocks = pre ++ cur :: post)
    (hpre : ∀ b ∈ pre, b.tail < tmp)
    (htgt : tmp ≤ cur.tail ∨ (post = [] ∧ cur.tail < tmp))
    (hm : tmp ∈ entries s) : tmp ∈ stored s.file cur := by
  have hent := entries_mid s pre post cur hb
  have hs := hwf.2.1
  rw [hent, List.append_assoc, List.pairwise_append] at hs
  obtain ⟨s1, s2, s3⟩ := hs
  rw [List.pairwise_append] at s2
  obtain ⟨s4, s5, s6⟩ := s2
  have hcurmem : cur ∈ s.blocks := by rw [hb]; simp
  rw [hent, List.append_assoc] at hm
  rcases List.mem_append.mp hm with a | a
  · exfalso
    rw [List.mem_flatten] at a
    obtain ⟨l, hl, hxl⟩ := a
    obtain ⟨b, hbm, rfl⟩ := List.mem_map.mp hl
    have hbs : b ∈ s.blocks := by rw [hb]; exact List.mem_append_left _ hbm
    have hsb : (stored s.file b).Pairwise (· < ·) := by
      apply s1.sublist
      exact List.sublist_flatten_of_mem (List.mem_map_of_mem _ hbm)
    exact entry_lt_irrefl _
      (entry_lt_of_le_of_lt (le_last_of_sorted hsb (hwf.2.2 b hbs).2 tmp hxl) (hpre b hbm))
  · rcases List.mem_append.mp a with a | a
    · exact a
    · exfalso
      rcases htgt with h | ⟨h, _⟩
      · have htail : cur.tail ∈ stored s.file cur :=
          List.mem_of_mem_getLast? (hwf.2.2 cur hcurmem).2
        exact entry_lt_irrefl _ (entry_lt_of_le_of_lt h (s6 _ htail _ a))
      · subst h
        simp at a

theorem blocks_ne_nil_of_mem {s : UnrolledLinkedList} {tmp : DataType} (hm : tmp ∈ entries s) :
    s.blocks ≠ [] := by
  intro h
  unfold entries at hm
  rw [h] at hm
  simp at hm

theorem stored_sorted (K : Nat) (s : UnrolledLinkedList) (b : ListBlock)
    (hwf : WellFormed K s) (hb : b ∈ s.blocks) : (stored s.file b).Pairwise (· < ·) := by
  apply hwf.2.1.sublist
  exact List.sublist_flatten_of_mem (List.mem_map_of_mem _ hb)

/-- Inserting a stored entry throws and changes nothing. -/
theorem insert_dup (K : Nat) (s : UnrolledLinkedList) (key : KeyType) (value : Int)
    (hwf : WellFormed K s) (hm : (⟨key, value⟩ : DataType) ∈ entries s) :
    UnrolledLinkedList.insert K s key value = ⟨s, some .inserted⟩ := by
  have hne := blocks_ne_nil_of_mem hm
  obtain ⟨pre, cur, post, hb, hloc, hpre, htgt⟩ := insert_target ⟨key, value⟩ s.blocks hne
  have hin := target_holds K s ⟨key, value⟩ pre post cur hwf hb hpre htgt hm
  have hcurmem : cur ∈ s.blocks := by rw [hb]; simp
  have hdup := blockInsert_dup K s.file cur ⟨key, value⟩ (hwf.1 cur hcurmem).2.le
    (stored_sorted K s cur hwf hcurmem) hin
  have hlen0 : ¬ s.blocks.length = 0 := fun h => hne (List.length_eq_zero.mp h)
  unfold UnrolledLinkedList.insert
  simp only [if_neg hlen0, hloc]
  rw [hb, getElem?_mid]
  simp only [hdup]

/-- Shape of the state after erasing a stored entry: its block loses the entry
and, when that empties it, leaves the sequence; the pool then receives the cell
id found at the vacated index. -/
theorem erase_shape (K : Nat) (s : UnrolledLinkedList) (key : KeyType) (value : Int)
    (hwf : WellFormed K s) (hm : (⟨key, value⟩ : DataType) ∈ entries s) :
    ∃ pre cur post cur1 file1 A B, s.blocks = pre ++ cur :: post ∧
      cur1.len = cur.len - 1 ∧ cur1.pos = cur.pos ∧
      (∀ c, c ≠ cur.pos → file1 c = s.file c) ∧
      stored s.file cur = A ++ ⟨key, value⟩ :: B ∧ stored file1 cur1 = A ++ B ∧
      ((cur.len = 1 ∧ UnrolledLinkedList.erase K s key value =
          ⟨⟨pre ++ post, setInsert ((post.head?.getD cur1).pos) s.free_blocks, file1⟩, none⟩) ∨
       (1 < cur.len ∧ ((stored file1 cur1).head? = some cur1.head ∧
          (stored file1 cur1).getLast? = some cur1.tail) ∧
        UnrolledLinkedList.erase K s key value =
          ⟨⟨pre ++ cur1 :: post, s.free_blocks, file1⟩, none⟩)) := by
  have hne := blocks_ne_nil_of_mem hm
  have hlen0 : ¬ s.blocks.length = 0 := fun h => hne (List.length_eq_zero.mp h)
  cases hl : locate ⟨key, value⟩ s.blocks with
  | none =>
    exfalso
    have hall := locate_none hl
    unfold entries at hm
    rw [List.mem_flatten] at hm
    obtain ⟨l, hl2, hxl⟩ := hm
    obtain ⟨b, hbm, rfl⟩ := List.mem_map.mp hl2
    exact entry_lt_irrefl _ (entry_lt_of_le_of_lt
      (le_last_of_sorted (stored_sorted K s b hwf hbm) (hwf.2.2 b hbm).2 _ hxl) (hall b hbm))
  | some i =>
    obtain ⟨pre, cur, post, hb, hi, hpre, htgt⟩ := locate_some hl
    have hin := target_holds K s ⟨key, value⟩ pre post cur hwf hb hpre (Or.inl htgt) hm
    have hcurmem : cur ∈ s.blocks := by rw [hb]; simp
    have hsz := hwf.1 cur hcurmem
    obtain ⟨cur1, file1, her, hl1, hp1, hfr1, A, B, hAB, hst1, hacc1⟩ :=
      blockErase_props K s.file cur ⟨key, value⟩ hsz.2.le (stored_sorted K s cur hwf hcurmem) hin
        (hwf.2.2 cur hcurmem)
    refine ⟨pre, cur, post, cur1, file1, A, B, hb, hl1, hp1, hfr1, hAB, hst1, ?_⟩
    obtain ⟨bs, fr, file⟩ := s
    simp only [] at hb hl her hlen0 hfr1 hst1 hAB
    subst hb
    subst hi
    by_cases h1 : cur1.len = 0
    · left
      refine ⟨by omega, ?_⟩
      unfold UnrolledLinkedList.erase
      simp only [if_neg hlen0, hl, getElem?_mid, her, if_pos h1, eraseIdx_mid]
      have : (pre ++ post)[pre.length]? = post.head? := by
        rw [List.getElem?_append_right (le_refl _)]
        simp [List.head?_eq_getElem?]
      rw [this]
    · right
      refine ⟨by omega, hacc1 h1, ?_⟩
      unfold UnrolledLinkedList.erase
      simp only [if_neg hlen0, hl, getElem?_mid, her, if_neg h1, set_mid]

/-- Erasing a stored entry succeeds, keeps the index well formed and removes
exactly that entry. -/
theorem erase_spec (K : Nat) (s : UnrolledLinkedList) (key : KeyType) (value : Int)
    (hwf : WellFormed K s) (hm : (⟨key, value⟩ : DataType) ∈ entries s) :
    (UnrolledLinkedList.erase K s key value).thrown = none ∧
    WellFormed K (UnrolledLinkedList.erase K s key value).state ∧
    ∃ X Y, entries s = X ++ ⟨key, value⟩ :: Y ∧
      entries (UnrolledLinkedList.erase K s key value).state = X ++ Y := by
  obtain ⟨pre, cur, post, cur1, file1, A, B, hb, hl1, hp1, hfr1, hAB, hst1, hcase⟩ :=
    erase_shape K s key value hwf hm
  have hent := entries_mid s pre post cur hb
  have hold := wf_old K s pre post cur hwf hb
  have hne := wf_cell_ne K s pre post cur hwf hb
  have hcurmem : cur ∈ s.blocks := by rw [hb]; simp
  have hsz := hwf.1 cur hcurmem
  have hXY : entries s = ((pre.map (stored s.file)).flatten ++ A) ++
      ⟨key, value⟩ :: (B ++ (post.map (stored s.file)).flatten) := by
    rw [hent, hAB]; simp
  have hsorted : ((pre.map (stored s.file)).flatten ++ (A ++ B) ++
      (post.map (stored s.file)).flatten).Pairwise (· < ·) := by
    have h1 := hwf.2.1
    rw [hXY] at h1
    apply h1.sublist
    simp only [List.append_assoc]
    apply List.Sublist.append_left
    apply List.Sublist.append_left
    exact List.sublist_cons_self _ _
  rcases hcase with ⟨h1, her⟩ | ⟨h1, hacc1, her⟩
  · rw [her]
    have hAB0 : A ++ B = [] := by
      apply List.length_eq_zero.mp
      have := congrArg List.length hst1
      rw [stored_length] at this
      omega
    have hw := wf_of_parts K s.file file1
      (setInsert ((post.head?.getD cur1).pos) s.free_blocks) pre post [] hold
      (fun b hbm => hfr1 _ (hne b hbm)) (by simp)
      (by simpa [hAB0] using hsorted)
    simp only [List.append_nil] at hw
    refine ⟨rfl, hw.1, _, _, hXY, ?_⟩
    rw [hw.2]
    have hA : A = [] := (List.append_eq_nil.mp hAB0).1
    have hB : B = [] := (List.append_eq_nil.mp hAB0).2
    simp [hA, hB]
  · rw [her]
    have hw := wf_of_parts K s.file file1 s.free_blocks pre post [cur1] hold
      (fun b hbm => hfr1 _ (hne b hbm))
      (by
        intro b hbm
        simp only [List.mem_singleton] at hbm
        subst hbm
        exact ⟨⟨by omega, by omega⟩, hacc1⟩)
      (by simpa [hst1] using hsorted)
    simp only [List.append_assoc, List.singleton_append] at hw
    refine ⟨rfl, hw.1, _, _, hXY, ?_⟩
    rw [hw.2]
    simp [hst1]

/-! ### Claims on the unrolled linked list -/

theorem find_spec (K : Nat) (s : UnrolledLinkedList) (key : KeyType) (hwf : WellFormed K s) :
    UnrolledLinkedList.find K s key = .ok (valuesOf key (entries s)) :=
  findLoop_spec K s.file key s.blocks (fun b hb => ⟨(hwf.1 b hb).1, (hwf.1 b hb).2.le⟩)
    hwf.2.1 hwf.2.2

theorem wf_of_no_blocks (K : Nat) (s : UnrolledLinkedList) (h : s.blocks = []) :
    WellFormed K s ∧ FreeOK s ∧ entries s = [] := by
  unfold WellFormed FreeOK entries
  rw [h]
  simp

theorem insertAll_invariant (K : Nat) (hK : 2 ≤ K) (ops : List DataType) :
    ∀ s, WellFormed K s → FreeOK s → (∀ e ∈ ops, 1 ≤ e.value) → poolLasts K s ops = true →
      WellFormed K (insertAll K s ops) ∧
      ∀ e, e ∈ entries (insertAll K s ops) ↔ e ∈ entries s ∨ e ∈ ops := by
  induction ops with
  | nil =>
    intro s hwf _ _ _
    exact ⟨hwf, by simp [insertAll]⟩
  | cons op ops ih =>
    intro s hwf hfree hv hp
    simp only [poolLasts, Bool.and_eq_true, Bool.not_eq_true', List.isEmpty_eq_false] at hp
    have hv1 := hv op (List.mem_cons_self _ _)
    have hv2 : ∀ e ∈ ops, 1 ≤ e.value := fun e he => hv e (List.mem_cons_of_mem _ he)
    have hop : (⟨op.key, op.value⟩ : DataType) = op := rfl
    by_cases hm : op ∈ entries s
    · have hdup := insert_dup K s op.key op.value hwf hm
      simp only [insertAll, hdup] at hp ⊢
      obtain ⟨h1, h2⟩ := ih s hwf hfree hv2 hp.2
      refine ⟨h1, fun e => ?_⟩
      rw [h2 e, List.mem_cons]
      constructor
      · rintro (a | a)
        · exact Or.inl a
        · exact Or.inr (Or.inr a)
      · rintro (a | a | a)
        · exact Or.inl a
        · subst a; exact Or.inl hm
        · exact Or.inr a
    · have hd : (⟨op.key, op.value⟩ : DataType) ≠ default := by
        intro h
        have := congrArg DataType.value h
        simp only [] at this
        have h0 : (default : DataType).value = 0 := rfl
        omega
      obtain ⟨_, h1, h2, X, Y, hXY, _, _, hent⟩ :=
        insert_spec K s op.key op.value hK hwf hfree hp.1 hm hd
      simp only [insertAll]
      obtain ⟨i1, i2⟩ := ih _ h1 h2 hv2 hp.2
      refine ⟨i1, fun e => ?_⟩
      rw [i2 e, hent, hXY]
      simp only [List.mem_append, List.mem_cons]
      constructor
      · rintro ((a | a | a) | a)
        · exact Or.inl (Or.inl a)
        · exact Or.inr (Or.inl a)
        · exact Or.inl (Or.inr a)
        · exact Or.inr (Or.inr a)
      · rintro ((a | a) | a | a)
        · exact Or.inl (Or.inl a)
        · exact Or.inl (Or.inr (Or.inr a))
        · exact Or.inl (Or.inr (Or.inl a))
        · exact Or.inr a

/-- C1. Starting from an index without blocks, with `kMaxBlockSize >= 2`, every
value at least 1 and the free pool non-empty at every call, any sequence of
`insert` calls leaves the blocks holding, read in sequence order, exactly the
inserted pairs, each once, in strictly ascending order of key, then value. -/
theorem insert_sequence_sorted (K : Nat) (s : UnrolledLinkedList) (ops : List DataType)
    (hK : 2 ≤ K) (hs : s.blocks = []) (hv : ∀ e ∈ ops, 1 ≤ e.value)
    (hp : poolLasts K s ops = true) :
    (entries (insertAll K s ops)).Pairwise (· < ·) ∧
    (entries (insertAll K s ops)).Nodup ∧
    ∀ e, e ∈ entries (insertAll K s ops) ↔ e ∈ ops := by
  obtain ⟨h1, h2, h3⟩ := wf_of_no_blocks K s hs
  obtain ⟨i1, i2⟩ := insertAll_invariant K hK ops s h1 h2 hv hp
  refine ⟨i1.2.1, ?_, fun e => ?_⟩
  · unfold List.Nodup
    refine i1.2.1.imp ?_
    intro a b hab heq
    rw [heq] at hab
    exact entry_lt_irrefl b hab
  · rw [i2 e, h3]
    simp

theorem insert_sequence_sorted_witness :
    poolLasts 2 demoIndex demoOps = true ∧
    ((entries (insertAll 2 demoIndex demoOps)).Pairwise (· < ·) ∧
     (entries (insertAll 2 demoIndex demoOps)).Nodup ∧
     ∀ e, e ∈ entries (insertAll 2 demoIndex demoOps) ↔ e ∈ demoOps) :=
  ⟨by decide, insert_sequence_sorted 2 demoIndex demoOps (by decide) rfl (by decide) (by decide)⟩

theorem valuesOf_mem {key : KeyType} {X : List DataType} {v : Int} :
    v ∈ valuesOf key X ↔ (⟨key, v⟩ : DataType) ∈ X ∧ 0 ≤ v := by
  unfold valuesOf
  simp only [List.mem_map, List.mem_filter, decide_eq_true_eq]
  constructor
  · rintro ⟨e, ⟨he, hk, hv⟩, rfl⟩
    obtain ⟨k, w⟩ := e
    simp only at hk
    subst hk
    exact ⟨he, hv⟩
  · rintro ⟨he, hv⟩
    exact ⟨⟨key, v⟩, ⟨he, rfl, hv⟩, rfl⟩

theorem valuesOf_sorted {key : KeyType} {X : List DataType} (h : X.Pairwise (· < ·)) :
    (valuesOf key X).Pairwise (· < ·) := by
  unfold valuesOf
  rw [List.pairwise_map, List.pairwise_filter]
  refine h.imp ?_
  intro a b hab ha hb
  replace ha : a.key = key ∧ 0 ≤ a.value := by simpa using ha
  replace hb : b.key = key ∧ 0 ≤ b.value := by simpa using hb
  rcases entry_lt_iff.mp hab with ⟨_, v⟩ | k
  · exact v
  · rw [ha.1, hb.1, key_lt_irrefl] at k
    exact absurd k (by simp)

theorem find_nodup_of_sorted {r : List Int} (h : r.Pairwise (· < ·)) : r.Nodup := by
  unfold List.Nodup
  exact h.imp fun hab => ne_of_lt hab

/-- C2. On a well-formed index whose values are all non-negative, `find(key)`
returns normally, and what it returns is strictly ascending and holds exactly
the values `v` with `(key, v)` stored, each once; it is empty when no entry
has the key. -/
theorem find_exact (K : Nat) (s : UnrolledLinkedList) (key : KeyType)
    (hwf : WellFormed K s) (hv : ∀ e ∈ entries s, 0 ≤ e.value) :
    ∃ r, UnrolledLinkedList.find K s key = .ok r ∧ r.Pairwise (· < ·) ∧ r.Nodup ∧
      (∀ v, v ∈ r ↔ (⟨key, v⟩ : DataType) ∈ entries s) ∧
      ((∀ e ∈ entries s, e.key ≠ key) → r = []) := by
  refine ⟨valuesOf key (entries s), find_spec K s key hwf, valuesOf_sorted hwf.2.1,
    find_nodup_of_sorted (valuesOf_sorted hwf.2.1), fun v => ?_, valuesOf_eq_nil⟩
  rw [valuesOf_mem]
  constructor
  · exact fun h => h.1
  · exact fun h => ⟨h, hv _ h⟩

theorem find_exact_witness :
    (WellFormed 4 demoWide ∧ ∀ e ∈ entries demoWide, 0 ≤ e.value) ∧
    UnrolledLinkedList.find 4 demoWide [2] = .ok [1, 3, 5] ∧
    ∃ r, UnrolledLinkedList.find 4 demoWide [2] = .ok r ∧ r.Pairwise (· < ·) ∧ r.Nodup ∧
      (∀ v, v ∈ r ↔ (⟨[2], v⟩ : DataType) ∈ entries demoWide) ∧
      ((∀ e ∈ entries demoWide, e.key ≠ [2]) → r = []) :=
  ⟨⟨by decide, by decide⟩, by decide, find_exact 4 demoWide [2] (by decide) (by decide)⟩

theorem valuesOf_insert_same (key : KeyType) (v : Int) (X Y : List DataType) (hv : 0 ≤ v) :
    valuesOf key (X ++ ⟨key, v⟩ :: Y) = valuesOf key X ++ v :: valuesOf key Y := by
  simp [valuesOf, List.filter_cons, hv]

theorem valuesOf_insert_other (key k : KeyType) (v : Int) (X Y : List DataType) (h : key ≠ k) :
    valuesOf key (X ++ ⟨k, v⟩ :: Y) = valuesOf key (X ++ Y) := by
  have : ¬ k = key := fun e => h e.symm
  simp [valuesOf, List.filter_cons, this]

theorem orderedInsert_mid (v : Int) (L1 L2 : List Int) (h1 : ∀ a ∈ L1, a < v)
    (h2 : ∀ b ∈ L2, v < b) :
    List.orderedInsert (· ≤ ·) v (L1 ++ L2) = L1 ++ v :: L2 := by
  induction L1 with
  | nil =>
    cases L2 with
    | nil => rfl
    | cons b l =>
      have : v ≤ b := le_of_lt (h2 b (List.mem_cons_self _ _))
      simp [List.orderedInsert, this]
  | cons a l ih =>
    have ha : ¬ v ≤ a := not_le.mpr (h1 a (List.mem_cons_self _ _))
    have e := ih fun x hx => h1 x (List.mem_cons_of_mem _ hx)
    show List.orderedInsert (fun x1 x2 => x1 ≤ x2) v (a :: (l ++ L2)) = a :: (l ++ v :: L2)
    unfold List.orderedInsert
    rw [if_neg ha, e]

theorem valuesOf_lt {key : KeyType} {v : Int} {X : List DataType}
    (h : ∀ x ∈ X, x < ⟨key, v⟩) : ∀ a ∈ valuesOf key X, a < v := by
  intro a ha
  rw [valuesOf_mem] at ha
  rcases entry_lt_iff.mp (h _ ha.1) with ⟨_, w⟩ | k
  · exact w
  · simp only [key_lt_irrefl] at k
    exact absurd k (by simp)

theorem valuesOf_gt {key : KeyType} {v : Int} {Y : List DataType}
    (h : ∀ y ∈ Y, (⟨key, v⟩ : DataType) < y) : ∀ a ∈ valuesOf key Y, v < a := by
  intro a ha
  rw [valuesOf_mem] at ha
  rcases entry_lt_iff.mp (h _ ha.1) with ⟨_, w⟩ | k
  · exact w
  · simp only [key_lt_irrefl] at k
    exact absurd k (by simp)

theorem count_mid (v : Int) (L1 L2 : List Int) (h1 : ∀ a ∈ L1, a < v) (h2 : ∀ b ∈ L2, v < b) :
    (L1 ++ v :: L2).count v = 1 := by
  have n1 : v ∉ L1 := fun h => lt_irrefl v (h1 v h)
  have n2 : v ∉ L2 := fun h => lt_irrefl v (h2 v h)
  rw [List.count_append, List.count_cons_self, List.count_eq_zero_of_not_mem n1,
    List.count_eq_zero_of_not_mem n2]

/-- C3. On a well-formed index with no live cell id in the free pool and a
non-empty pool, inserting an absent pair `(k, v)` with `v >= 1` succeeds; after
it `find(k)` is the earlier result with `v` put in at its place, holding `v`
exactly once, and `find` of every other key is as before. Splits included. -/
theorem insert_then_find (K : Nat) (s : UnrolledLinkedList) (k : KeyType) (v : Int)
    (hK : 2 ≤ K) (hwf : WellFormed K s) (hfree : FreeOK s) (hpool : s.free_blocks ≠ [])
    (hv : 1 ≤ v) (hnew : (⟨k, v⟩ : DataType) ∉ entries s) :
    (UnrolledLinkedList.insert K s k v).thrown = none ∧
    ∃ r, UnrolledLinkedList.find K s k = .ok r ∧
      UnrolledLinkedList.find K (UnrolledLinkedList.insert K s k v).state k =
        .ok (List.orderedInsert (· ≤ ·) v r) ∧
      (List.orderedInsert (· ≤ ·) v r).count v = 1 ∧
      ∀ k2, k2 ≠ k → UnrolledLinkedList.find K (UnrolledLinkedList.insert K s k v).state k2 =
        UnrolledLinkedList.find K s k2 := by
  have hd : (⟨k, v⟩ : DataType) ≠ default := by
    intro h
    have := congrArg DataType.value h
    simp only [] at this
    have h0 : (default : DataType).value = 0 := rfl
    omega
  obtain ⟨h0, h1, _, X, Y, hXY, hX, hY, hent⟩ := insert_spec K s k v hK hwf hfree hpool hnew hd
  refine ⟨h0, valuesOf k (entries s), find_spec K s k hwf, ?_, ?_, ?_⟩
  · rw [find_spec K _ k h1, hent, hXY, valuesOf_insert_same k v X Y (by omega), valuesOf_append,
      orderedInsert_mid v _ _ (valuesOf_lt hX) (valuesOf_gt hY)]
  · rw [hXY, valuesOf_append, orderedInsert_mid v _ _ (valuesOf_lt hX) (valuesOf_gt hY)]
    exact count_mid v _ _ (valuesOf_lt hX) (valuesOf_gt hY)
  · intro k2 hk
    rw [find_spec K _ k2 h1, find_spec K s k2 hwf, hent, hXY, valuesOf_insert_other k2 k v X Y hk]

theorem insert_then_find_witness :
    (WellFormed 2 demoOne ∧ FreeOK demoOne ∧ demoOne.free_blocks ≠ [] ∧
      (⟨[1], 1⟩ : DataType) ∉ entries demoOne) ∧
    ((UnrolledLinkedList.insert 2 demoOne [1] 1).thrown = none ∧
    ∃ r, UnrolledLinkedList.find 2 demoOne [1] = .ok r ∧
      UnrolledLinkedList.find 2 (UnrolledLinkedList.insert 2 demoOne [1] 1).state [1] =
        .ok (List.orderedInsert (· ≤ ·) 1 r) ∧
      (List.orderedInsert (· ≤ ·) 1 r).count 1 = 1 ∧
      ∀ k2, k2 ≠ [1] → UnrolledLinkedList.find 2 (UnrolledLinkedList.insert 2 demoOne [1] 1).state k2 =
        UnrolledLinkedList.find 2 demoOne k2) :=
  ⟨⟨by decide, by decide, by decide, by decide⟩,
    insert_then_find 2 demoOne [1] 1 (by decide) (by decide) (by decide) (by decide) (by decide)
      (by decide)⟩

/-- C4. On a well-formed index, erasing a stored pair `(k, v)` succeeds; after
it `find(k)` is the earlier result with `v` taken out and no longer holds `v`,
and `find` of every other key is as before. -/
theorem erase_then_find (K : Nat) (s : UnrolledLinkedList) (k : KeyType) (v : Int)
    (hwf : WellFormed K s) (hv : ∀ e ∈ entries s, 1 ≤ e.value)
    (hm : (⟨k, v⟩ : DataType) ∈ entries s) :
    (UnrolledLinkedList.erase K s k v).thrown = none ∧
    ∃ r, UnrolledLinkedList.find K s k = .ok r ∧ r.count v = 1 ∧
      UnrolledLinkedList.find K (UnrolledLinkedList.erase K s k v).state k = .ok (r.erase v) ∧
      v ∉ r.erase v ∧
      ∀ k2, k2 ≠ k → UnrolledLinkedList.find K (UnrolledLinkedList.erase K s k v).state k2 =
        UnrolledLinkedList.find K s k2 := by
  obtain ⟨h0, h1, X, Y, hXY, hent⟩ := erase_spec K s k v hwf hm
  have hv0 : 0 ≤ v := by
    have := hv _ hm
    simp only [] at this
    omega
  have hs := hwf.2.1
  rw [hXY, List.pairwise_append] at hs
  obtain ⟨_, s2, s3⟩ := hs
  rw [List.pairwise_cons] at s2
  have hX : ∀ x ∈ X, x < ⟨k, v⟩ := fun x hx => s3 x hx _ (List.mem_cons_self _ _)
  have hY : ∀ y ∈ Y, (⟨k, v⟩ : DataType) < y := s2.1
  have n1 : v ∉ valuesOf k X := fun h => lt_irrefl v (valuesOf_lt hX v h)
  have n2 : v ∉ valuesOf k Y := fun h => lt_irrefl v (valuesOf_gt hY v h)
  have her : (valuesOf k X ++ v :: valuesOf k Y).erase v = valuesOf k X ++ valuesOf k Y := by
    rw [List.erase_append_right _ n1, List.erase_cons_head]
  refine ⟨h0, valuesOf k (entries s), find_spec K s k hwf, ?_, ?_, ?_, ?_⟩
  · rw [hXY, valuesOf_insert_same k v X Y hv0]
    exact count_mid v _ _ (valuesOf_lt hX) (valuesOf_gt hY)
  · rw [find_spec K _ k h1, hent, hXY, valuesOf_insert_same k v X Y hv0, her, valuesOf_append]
  · rw [hXY, valuesOf_insert_same k v X Y hv0, her]
    simp [n1, n2]
  · intro k2 hk
    rw [find_spec K _ k2 h1, find_spec K s k2 hwf, hent, hXY, valuesOf_insert_other k2 k v X Y hk]

theorem erase_then_find_witness :
    (WellFormed 4 demoWide ∧ (∀ e ∈ entries demoWide, 1 ≤ e.value) ∧
      (⟨[2], 3⟩ : DataType) ∈ entries demoWide) ∧
    UnrolledLinkedList.find 4 (UnrolledLinkedList.erase 4 demoWide [2] 3).state [2] = .ok [1, 5] ∧
    ((UnrolledLinkedList.erase 4 demoWide [2] 3).thrown = none ∧
    ∃ r, UnrolledLinkedList.find 4 demoWide [2] = .ok r ∧ r.count 3 = 1 ∧
      UnrolledLinkedList.find 4 (UnrolledLinkedList.erase 4 demoWide [2] 3).state [2] =
        .ok (r.erase 3) ∧
      3 ∉ r.erase 3 ∧
      ∀ k2, k2 ≠ [2] → UnrolledLinkedList.find 4 (UnrolledLinkedList.erase 4 demoWide [2] 3).state k2 =
        UnrolledLinkedList.find 4 demoWide k2) :=
  ⟨⟨by decide, by decide, by decide⟩, by decide,
    erase_then_find 4 demoWide [2] 3 (by decide) (by decide) (by decide)⟩

/-- Inserting a stored pair. On a well-formed index, inserting a stored pair
throws the duplicate-entry exception and leaves blocks, stored entries,
`head`/`tail` and free pool as they were; so a pair inserted once (value at
least 1, no live cell id in the pool, pool non-empty) is rejected when inserted
again. -/
theorem insert_duplicate_rejected (K : Nat) (s : UnrolledLinkedList) (k : KeyType) (v : Int)
    (hwf : WellFormed K s) :
    ((⟨k, v⟩ : DataType) ∈ entries s →
      UnrolledLinkedList.insert K s k v = ⟨s, some .inserted⟩) ∧
    (2 ≤ K → FreeOK s → s.free_blocks ≠ [] → 1 ≤ v →
      UnrolledLinkedList.insert K (UnrolledLinkedList.insert K s k v).state k v =
        ⟨(UnrolledLinkedList.insert K s k v).state, some .inserted⟩) := by
  refine ⟨insert_dup K s k v hwf, fun hK hfree hpool hv => ?_⟩
  by_cases hm : (⟨k, v⟩ : DataType) ∈ entries s
  · rw [insert_dup K s k v hwf hm]
    exact insert_dup K s k v hwf hm
  · have hd : (⟨k, v⟩ : DataType) ≠ default := by
      intro h
      have := congrArg DataType.value h
      simp only [] at this
      have h0 : (default : DataType).value = 0 := rfl
      omega
    obtain ⟨_, h1, _, X, Y, _, _, _, hent⟩ := insert_spec K s k v hK hwf hfree hpool hm hd
    apply insert_dup K _ k v h1
    rw [hent]
    simp

theorem insert_duplicate_rejected_witness :
    (WellFormed 2 demoState ∧ (⟨[3], 2⟩ : DataType) ∈ entries demoState) ∧
    UnrolledLinkedList.insert 2 demoState [3] 2 = ⟨demoState, some .inserted⟩ ∧
    (WellFormed 2 demoOne ∧ FreeOK demoOne ∧ demoOne.free_blocks ≠ []) ∧
    UnrolledLinkedList.insert 2 (UnrolledLinkedList.insert 2 demoOne [1] 1).state [1] 1 =
      ⟨(UnrolledLinkedList.insert 2 demoOne [1] 1).state, some .inserted⟩ :=
  ⟨⟨by decide, by decide⟩,
    (insert_duplicate_rejected 2 demoState [3] 2 (by decide)).1 (by decide),
    ⟨by decide, by decide, by decide⟩,
    (insert_duplicate_rejected 2 demoOne [1] 1 (by decide)).2 (by decide) (by decide) (by decide)
      (by decide)⟩

/-- C6, evaluated. `demoOne` stores only `([2], 1)`; erasing the absent pair
`([3], 1)`, which lies above every tail, returns without throwing, whereas the
absent pair `([1], 1)` below the tail throws. Erasing `([3], 2)` from
`demoState` twice returns without throwing both times. -/
theorem erase_above_tails_returns :
    entries demoOne = [⟨[2], 1⟩] ∧
    (UnrolledLinkedList.erase 2 demoOne [3] 1).thrown = none ∧
    (UnrolledLinkedList.erase 2 demoOne [1] 1).thrown = some .notFound ∧
    (UnrolledLinkedList.erase 2 demoState [3] 2).thrown = none ∧
    entries (UnrolledLinkedList.erase 2 demoState [3] 2).state = [⟨[1], 1⟩, ⟨[2], 1⟩] ∧
    (UnrolledLinkedList.erase 2 (UnrolledLinkedList.erase 2 demoState [3] 2).state [3] 2).thrown =
      none := by
  decide

/-- C7, evaluated. `demoState` has the blocks of cells 1, 2, 3 holding
`([1], 1)`, `([2], 1)`, `([3], 2)` and the pool `[4]`. Erasing `([1], 1)` empties
and removes the block of cell 1, yet the pool receives cell 2, which the next
block still uses, and cell 1 is not returned. -/
theorem erase_frees_next_cell :
    demoState.blocks.map (fun b => b.pos) = [1, 2, 3] ∧ demoState.free_blocks = [4] ∧
    (UnrolledLinkedList.erase 2 demoState [1] 1).thrown = none ∧
    (UnrolledLinkedList.erase 2 demoState [1] 1).state.blocks.map (fun b => b.pos) = [2, 3] ∧
    (UnrolledLinkedList.erase 2 demoState [1] 1).state.free_blocks = [2, 4] := by
  decide

/-! ### Teardown and start-up -/

theorem stored_of_readCell_eq (file file1 : File) (b : ListBlock)
    (h : ∀ c n, readCell (file1 c) n = readCell (file c) n) : stored file1 b = stored file b :=
  h b.pos b.len

theorem loadRows_roundtrip (K : Nat) (bs : List ListBlock) :
    ∀ (file : File) (free : List Int),
      (∀ b ∈ bs, (0 < b.len ∧ b.len ≤ K) ∧ ((stored file b).head? = some b.head ∧
        (stored file b).getLast? = some b.tail)) →
      ∃ file1, loadRows K file free (bs.map fun b => (b.len, b.pos)) =
          .ok (bs, free.filter (fun c => decide (c ∉ bs.map fun b => b.pos)), file1) ∧
        ∀ c n, readCell (file1 c) n = readCell (file c) n := by
  induction bs with
  | nil =>
    intro file free _
    exact ⟨file, by simp [loadRows], fun _ _ => rfl⟩
  | cons b bs ih =>
    intro file free h
    obtain ⟨⟨hpos, hle⟩, hhead, hlast⟩ := h b (List.mem_cons_self _ _)
    have hE : (stored file b).length = b.len := stored_length file b
    have hfile1 : ∀ c n, readCell (Function.update file b.pos
        (readCell (file b.pos) b.len ++ (file b.pos).drop b.len) c) n = readCell (file c) n := by
      intro c n
      by_cases hc : c = b.pos
      · subst hc
        rw [Function.update_same, readCell_padded]
      · rw [Function.update_noteq hc]
    obtain ⟨file2, hload, hfile2⟩ := ih
      (Function.update file b.pos (readCell (file b.pos) b.len ++ (file b.pos).drop b.len))
      (setErase b.pos free)
      (fun c hc => by
        rw [stored_of_readCell_eq file _ c hfile1]
        exact h c (List.mem_cons_of_mem _ hc))
    refine ⟨file2, ?_, fun c n => by rw [hfile2, hfile1]⟩
    have hd0 : (readCell (file b.pos) b.len ++ List.replicate (K - b.len) default)[0]? =
        some b.head := by
      rw [List.getElem?_append_left (by rw [readCell_length]; exact hpos)]
      rw [← hhead, List.head?_eq_getElem?]
      rfl
    have hd1 : (readCell (file b.pos) b.len ++ List.replicate (K - b.len) default)[b.len - 1]? =
        some b.tail := by
      rw [List.getElem?_append_left (by rw [readCell_length]; omega)]
      rw [← hlast, List.getLast?_eq_getElem?, hE]
      rfl
    have hne : ¬ b.len = 0 := by omega
    simp only [List.map_cons, loadRows, allocate, if_pos hle, hd0, if_neg hne, hd1, deallocate]
    have htake : List.take b.len (readCell (file b.pos) b.len ++
        List.replicate (K - b.len) default) = readCell (file b.pos) b.len :=
      List.take_left' (readCell_length _ _)
    rw [htake, hload]
    simp only [setErase, List.filter_filter]
    congr 3
    apply List.filter_congr
    intro x _
    simp only [List.mem_cons, not_or, Bool.decide_and, ne_eq, decide_not, Bool.and_comm]

/-- C8. The log written at teardown of a well-formed index, read back with the
block-storage file, yields the same blocks (entry counts, cell ids, and `head`
and `tail` equal to the first and last entry stored in the cell), the free pool
`1..kMaxBlockCnt` without the logged cell ids, and the same `find` results. -/
theorem reopen_roundtrip (K N : Nat) (s : UnrolledLinkedList) (hwf : WellFormed K s) :
    ∃ s1, UnrolledLinkedList.construct K N (some (UnrolledLinkedList.destruct s)) s.file =
        .ok s1 ∧
      s1.blocks = s.blocks ∧
      (∀ b ∈ s1.blocks, (stored s1.file b).head? = some b.head ∧
        (stored s1.file b).getLast? = some b.tail) ∧
      s1.free_blocks = ((List.range' 1 N).map Int.ofNat).filter
        (fun c => decide (c ∉ (UnrolledLinkedList.destruct s).rows.map Prod.snd)) ∧
      ∀ key, UnrolledLinkedList.find K s1 key = UnrolledLinkedList.find K s key := by
  obtain ⟨file1, hload, hfile⟩ := loadRows_roundtrip K s.blocks s.file
    ((List.range' 1 N).map Int.ofNat)
    (fun b hb => ⟨⟨(hwf.1 b hb).1, (hwf.1 b hb).2.le⟩, hwf.2.2 b hb⟩)
  have hst : ∀ b, stored file1 b = stored s.file b :=
    fun b => stored_of_readCell_eq s.file file1 b hfile
  have hmap : s.blocks.map (stored file1) = s.blocks.map (stored s.file) :=
    List.map_congr_left fun b _ => hst b
  have hwf1 : WellFormed K ⟨s.blocks, ((List.range' 1 N).map Int.ofNat).filter
      (fun c => decide (c ∉ s.blocks.map fun b => b.pos)), file1⟩ := by
    refine ⟨hwf.1, ?_, fun b hb => by simp only [hst]; exact hwf.2.2 b hb⟩
    have : entries ⟨s.blocks, ((List.range' 1 N).map Int.ofNat).filter
        (fun c => decide (c ∉ s.blocks.map fun b => b.pos)), file1⟩ = entries s := by
      unfold entries
      simp only [hmap]
    rw [this]
    exact hwf.2.1
  refine ⟨⟨s.blocks, ((List.range' 1 N).map Int.ofNat).filter
      (fun c => decide (c ∉ s.blocks.map fun b => b.pos)), file1⟩, ?_, rfl, hwf1.2.2, ?_, ?_⟩
  · unfold UnrolledLinkedList.construct UnrolledLinkedList.destruct
    simp only [List.length_map, lt_self_iff_false, if_false]
    rw [List.take_of_length_le (by simp), hload]
  · simp [UnrolledLinkedList.destruct, Function.comp_def]
  · intro key
    rw [find_spec K _ key hwf1, find_spec K s key hwf]
    congr 2
    unfold entries
    simp only [hmap]

theorem reopen_roundtrip_witness :
    WellFormed 4 demoWide ∧
    UnrolledLinkedList.destruct demoWide = ⟨2, [(2, 1), (3, 2)]⟩ ∧
    ∃ s1, UnrolledLinkedList.construct 4 4 (some (UnrolledLinkedList.destruct demoWide))
        demoWide.file = .ok s1 ∧
      s1.blocks = demoWide.blocks ∧
      (∀ b ∈ s1.blocks, (stored s1.file b).head? = some b.head ∧
        (stored s1.file b).getLast? = some b.tail) ∧
      s1.free_blocks = ((List.range' 1 4).map Int.ofNat).filter
        (fun c => decide (c ∉ (UnrolledLinkedList.destruct demoWide).rows.map Prod.snd)) ∧
      ∀ key, UnrolledLinkedList.find 4 s1 key = UnrolledLinkedList.find 4 demoWide key :=
  ⟨by decide, by decide, reopen_roundtrip 4 4 demoWide (by decide)⟩

/-- C27, evaluated. `demoNegative` is sorted and cache-accurate and stores the
pair `([1], -1)`, yet `find([1])` returns no value: the in-block search starts
at the first entry `>= ([1], 0)`, not at the least value. In `demoMixed`, which
stores `([1], -1)` and `([1], 2)`, `find([1])` returns `2` alone. -/
theorem find_skips_negative_value :
    (UnrolledLinkedList.insert 4 demoIndex [1] (-1)).thrown = none ∧
    WellFormed 4 demoNegative ∧ entries demoNegative = [⟨[1], -1⟩] ∧
    UnrolledLinkedList.find 4 demoNegative [1] = .ok [] ∧
    WellFormed 4 demoMixed ∧ entries demoMixed = [⟨[1], -1⟩, ⟨[1], 2⟩] ∧
    UnrolledLinkedList.find 4 demoMixed [1] = .ok [2] := by
  decide

/-- C28, evaluated. `demoIndex` has no blocks; inserting the empty key with
value 0 throws the duplicate error although nothing is stored: the in-block
check reads `data[0]` of the fresh buffer, the default entry `("", 0)`. The
block created for the call, with no entry, and the pool without cell 1 stay
behind. `demoBelow` is well formed and stores `("", -1)` only; there too
`insert("", 0)` throws the duplicate error and changes nothing. -/
theorem insert_default_pair_throws :
    demoIndex.blocks = [] ∧
    (UnrolledLinkedList.insert 2 demoIndex [] 0).thrown = some .inserted ∧
    (UnrolledLinkedList.insert 2 demoIndex [] 0).state.blocks = [⟨default, default, 0, 1⟩] ∧
    (UnrolledLinkedList.insert 2 demoIndex [] 0).state.free_blocks = [2, 3, 4] ∧
    WellFormed 4 demoBelow ∧ entries demoBelow = [⟨[], -1⟩] ∧
    (UnrolledLinkedList.insert 4 demoBelow [] 0).thrown = some .inserted ∧
    (UnrolledLinkedList.insert 4 demoBelow [] 0).state.blocks = demoBelow.blocks ∧
    entries (UnrolledLinkedList.insert 4 demoBelow [] 0).state = [⟨[], -1⟩] := by
  decide

/-! ### When `insert` splits -/

/-- C26, evaluated. With `kMaxBlockSize = 2` the only block of `demoOne` holds
one entry; after `insert([1], 1)` it holds exactly 2 entries, which is not
greater than `kMaxBlockSize`, and `insert` splits it: the index has two blocks
of one entry each. The class comment of `ListBlock` has the block split when
its length is greater than `kMaxBlockSize`; the test in `insert` is
`len >= kMaxBlockSize`. -/
theorem splits_at_capacity :
    demoOne.blocks = [⟨⟨[2], 1⟩, ⟨[2], 1⟩, 1, 1⟩] ∧
    (ListBlock.insert 2 demoOne.file ⟨⟨[2], 1⟩, ⟨[2], 1⟩, 1, 1⟩ ⟨[1], 1⟩).map
      (fun r => r.1.len) = .ok 2 ∧
    (UnrolledLinkedList.insert 2 demoOne [1] 1).thrown = none ∧
    (UnrolledLinkedList.insert 2 demoOne [1] 1).state.blocks.map (fun b => b.len) = [1, 1] ∧
    entries (UnrolledLinkedList.insert 2 demoOne [1] 1).state = [⟨[1], 1⟩, ⟨[2], 1⟩] := by
  decide

/-- The split test of `insert`. On a well-formed index with `kMaxBlockSize >= 2`,
no live cell id in the non-empty free pool, `insert` of an absent pair other than `("", 0)`
splits the target block if and only if the block's entry count after the
insertion equals `kMaxBlockSize`, the least count that is not below it: a block
that holds fewer entries after the insertion stays one block with one more
entry, a block that holds exactly `kMaxBlockSize` entries is replaced by two
blocks of `kMaxBlockSize - kMaxBlockSize / 2` and `kMaxBlockSize / 2` entries.
The first insertion into an index without blocks makes one block of one
entry. -/
theorem split_iff_capacity_reached (K : Nat) (s : UnrolledLinkedList) (key : KeyType)
    (value : Int) (hK : 2 ≤ K) (hwf : WellFormed K s) (hfree : FreeOK s)
    (hpool : s.free_blocks ≠ []) (hnew : (⟨key, value⟩ : DataType) ∉ entries s)
    (hd : (⟨key, value⟩ : DataType) ≠ default) :
    (s.blocks = [] →
      (UnrolledLinkedList.insert K s key value).state.blocks.map (fun b => b.len) = [1]) ∧
    (s.blocks ≠ [] → ∃ pre cur post, s.blocks = pre ++ cur :: post ∧
      (∀ b ∈ pre, b.tail < ⟨key, value⟩) ∧
      ((⟨key, value⟩ : DataType) ≤ cur.tail ∨ (post = [] ∧ cur.tail < ⟨key, value⟩)) ∧
      ((cur.len + 1 < K ∧ ∃ cur1, cur1.len = cur.len + 1 ∧ cur1.pos = cur.pos ∧
          (UnrolledLinkedList.insert K s key value).state.blocks = pre ++ cur1 :: post) ∨
        (cur.len + 1 = K ∧ ∃ cur2 nex, cur2.len = K - K / 2 ∧ nex.len = K / 2 ∧
          cur2.pos = cur.pos ∧
          (UnrolledLinkedList.insert K s key value).state.blocks =
            pre ++ cur2 :: nex :: post))) := by
  constructor
  · intro he
    obtain ⟨file1, h1, _⟩ := insert_empty K s key value (by omega) he hd
    rw [h1]
    rfl
  · intro hne
    obtain ⟨pre, cur, post, cur1, file1, hb, hpre, htgt, hl1, hp1, _, _, _, hcase⟩ :=
      insert_shape K s key value hwf hfree hpool hne hnew hd
    refine ⟨pre, cur, post, hb, hpre, htgt, ?_⟩
    rcases hcase with ⟨hlt, heq⟩ | ⟨hKeq, f, fs, cur2, nex, file2, _, q1, _, q3, q4, _, _, _, _, _,
      heq⟩
    · left
      exact ⟨by omega, cur1, hl1, hp1, by rw [heq]⟩
    · right
      refine ⟨by omega, cur2, nex, by rw [q3, hKeq], by rw [q4, hKeq], q1, by rw [heq]⟩

/-- At a concrete input: the second insertion into `demoOne` with
`kMaxBlockSize = 2` brings its block to 2 entries and splits it. -/
theorem split_iff_capacity_reached_witness :
    (2 ≤ 2 ∧ WellFormed 2 demoOne ∧ FreeOK demoOne ∧ demoOne.free_blocks ≠ []) ∧
    (demoOne.blocks ≠ [] → ∃ pre cur post, demoOne.blocks = pre ++ cur :: post ∧
      (∀ b ∈ pre, b.tail < ⟨[1], 1⟩) ∧
      ((⟨[1], 1⟩ : DataType) ≤ cur.tail ∨ (post = [] ∧ cur.tail < ⟨[1], 1⟩)) ∧
      ((cur.len + 1 < 2 ∧ ∃ cur1, cur1.len = cur.len + 1 ∧ cur1.pos = cur.pos ∧
          (UnrolledLinkedList.insert 2 demoOne [1] 1).state.blocks = pre ++ cur1 :: post) ∨
        (cur.len + 1 = 2 ∧ ∃ cur2 nex, cur2.len = 2 - 2 / 2 ∧ nex.len = 2 / 2 ∧
          cur2.pos = cur.pos ∧
          (UnrolledLinkedList.insert 2 demoOne [1] 1).state.blocks =
            pre ++ cur2 :: nex :: post))) :=
  ⟨by decide,
    (split_iff_capacity_reached 2 demoOne [1] 1 (by decide) (by decide) (by decide) (by decide)
      (by decide) (by decide)).2⟩

/-! ### What `split` leaves -/

theorem setErase_head (f : Int) (fs : List Int) (hasc : (f :: fs).Pairwise (· < ·)) :
    setErase f (f :: fs) = fs := by
  have hlt : ∀ x ∈ fs, f < x := (List.pairwise_cons.mp hasc).1
  unfold setErase
  rw [List.filter_cons_of_neg (by simp)]
  exact List.filter_eq_self.mpr fun x hx => by
    have := hlt x hx
    simp only [ne_eq, decide_eq_true_eq]
    omega

/-- What `split` leaves. For every block holding `n >= 2` entries that fit the buffer and every
non-empty free pool whose smallest id `f` is free, not the cell of the block
itself, `split` leaves the first `n - n / 2` entries in the original block (same
cell id), moves the last `n / 2` entries in the same order into a new block
whose cell id is `f`, and removes `f` from the pool; the original's tail and
the new block's head and tail are the last and first entries each retains; the
two blocks' entries, concatenated, are the entries before the split; no other
cell changes. Where `insert` splits the block at index `pos`, the new block
follows the original in the sequence. -/
theorem split_halves (K : Nat) (file : File) (cur : ListBlock) (f : Int) (fs : List Int)
    (hlen : cur.len ≤ K) (h2 : 2 ≤ cur.len) (hf : f ≠ cur.pos)
    (hasc : (f :: fs).Pairwise (· < ·)) :
    (∃ cur1 nex file1, split K file (f :: fs) cur = .ok (cur1, nex, file1, fs) ∧
      (∀ x ∈ fs, f < x) ∧
      cur1.pos = cur.pos ∧ cur1.head = cur.head ∧ nex.pos = f ∧
      cur1.len = cur.len - cur.len / 2 ∧ nex.len = cur.len / 2 ∧
      stored file1 cur1 = (stored file cur).take (cur.len - cur.len / 2) ∧
      stored file1 nex = (stored file cur).drop (cur.len - cur.len / 2) ∧
      (stored file1 cur1).getLast? = some cur1.tail ∧
      (stored file1 nex).head? = some nex.head ∧
      (stored file1 nex).getLast? = some nex.tail ∧
      stored file1 cur1 ++ stored file1 nex = stored file cur ∧
      (∀ c, c ≠ cur.pos → c ≠ f → file1 c = file c)) ∧
    (∀ (s : UnrolledLinkedList) (key : KeyType) (value : Int) (pos : Nat)
        (cur0 cur2 nex : ListBlock) (file0 file2 : File) (free2 : List Int),
      s.blocks ≠ [] → (locate ⟨key, value⟩ s.blocks).getD (s.blocks.length - 1) = pos →
      s.blocks[pos]? = some cur0 →
      ListBlock.insert K s.file cur0 ⟨key, value⟩ = .ok (cur, file0) → K ≤ cur.len →
      split K file0 s.free_blocks cur = .ok (cur2, nex, file2, free2) →
      (UnrolledLinkedList.insert K s key value).state.blocks =
        s.blocks.take pos ++ cur2 :: nex :: s.blocks.drop (pos + 1)) := by
  constructor
  · have hE : (stored file cur).length = cur.len := stored_length file cur
    obtain ⟨h0, hh0⟩ : ∃ h0, (stored file cur).head? = some h0 := by
      cases hl : stored file cur with
      | nil => rw [hl] at hE; simp at hE; omega
      | cons a l => exact ⟨a, rfl⟩
    obtain ⟨c1, nex, file1, hsp, q1, q2, q3, q4, q5, q6, q7, q8, q9⟩ :=
      split_props K file { cur with head := h0 } f fs hlen h2 hf hh0
    have hok1 := split_ok K file { cur with head := h0 } f fs hlen h2
    have hok := split_ok K file cur f fs hlen h2
    rw [hsp] at hok1
    simp only [Except.ok.injEq, Prod.mk.injEq] at hok1
    obtain ⟨e1, e2, e3, _⟩ := hok1
    refine ⟨{ c1 with head := cur.head }, nex, file1, ?_, (List.pairwise_cons.mp hasc).1, q1,
      rfl, q2, q3, q4, q6, q7, q8.2, q9.1, q9.2, ?_, q5⟩
    · rw [hok, setErase_head f fs hasc, e1, e2, e3]
      rfl
    · have a1 : stored file1 { c1 with head := cur.head } = stored file1 c1 := rfl
      have a2 : stored file { cur with head := h0 } = stored file cur := rfl
      rw [a1, q6, q7, a2]
      exact List.take_append_drop _ _
  · intro s key value pos cur0 cur2 nex file0 file2 free2 hne hpos hcur hins hK hsp
    have hlen0 : ¬ s.blocks.length = 0 := fun h => hne (List.length_eq_zero.mp h)
    unfold UnrolledLinkedList.insert
    simp only [if_neg hlen0, hpos, hcur, hins, if_pos hK, hsp]

/-- At a concrete input: the block of cell 2 of `demoWide` holds
`([2],3), ([2],5), ([3],2)`; with the pool `[3, 4]` it keeps the first two
entries and the third moves to a new block in cell 3. -/
theorem split_halves_witness :
    (demoWide.blocks[1]? = some ⟨⟨[2], 3⟩, ⟨[3], 2⟩, 3, 2⟩ ∧ demoWide.free_blocks = [3, 4] ∧
      3 ≤ 4 ∧ 2 ≤ 3 ∧ (3 : Int) ≠ 2) ∧
    ∃ cur1 nex file1,
      split 4 demoWide.file [3, 4] ⟨⟨[2], 3⟩, ⟨[3], 2⟩, 3, 2⟩ = .ok (cur1, nex, file1, [4]) ∧
      cur1.pos = 2 ∧ nex.pos = 3 ∧
      stored file1 cur1 = [⟨[2], 3⟩, ⟨[2], 5⟩] ∧ stored file1 nex = [⟨[3], 2⟩] ∧
      (stored file1 cur1).getLast? = some cur1.tail ∧
      (stored file1 nex).head? = some nex.head ∧ (stored file1 nex).getLast? = some nex.tail := by
  refine ⟨by decide, ?_⟩
  obtain ⟨cur1, nex, file1, h1, _, h3, _, h5, _, _, h8, h9, h10, h11, h12, _⟩ :=
    (split_halves 4 demoWide.file ⟨⟨[2], 3⟩, ⟨[3], 2⟩, 3, 2⟩ 3 [4] (by decide) (by decide)
      (by decide) (by decide)).1
  exact ⟨cur1, nex, file1, h1, h3, h5, h8, h9, h10, h11, h12⟩

/-! ### Calls that return: `erase` of any pair, caches, frames -/

theorem blockErase_inv {K : Nat} {file file1 : File} {cur cur1 : ListBlock} {tmp : DataType}
    (h : ListBlock.erase K file cur tmp = .ok (cur1, file1)) :
    tmp ∈ stored file cur ∧ cur1.len = cur.len - 1 ∧ cur1.pos = cur.pos ∧ 0 < cur.len := by
  unfold ListBlock.erase allocate at h
  by_cases hlen : cur.len ≤ K
  · rw [if_pos hlen] at h
    simp only [] at h
    generalize hp : lower_bound (readCell (file cur.pos) cur.len ++
      List.replicate (K - cur.len) default) cur.len tmp = pos at h
    cases hd : (readCell (file cur.pos) cur.len ++ List.replicate (K - cur.len) default)[pos]? with
    | none => rw [hd] at h; cases h
    | some d =>
      rw [hd] at h
      simp only [] at h
      by_cases hne : d.ne tmp = true
      · rw [if_pos hne] at h; cases h
      · rw [if_neg hne] at h
        by_cases hlt : pos < cur.len
        · rw [if_pos hlt] at h
          simp only [Except.ok.injEq, Prod.mk.injEq] at h
          obtain ⟨h1, _⟩ := h
          have hdt : d = tmp := by
            by_contra hc
            exact hne (entry_ne_iff.mpr hc)
          have hget : (stored file cur)[pos]? = some d := by
            rw [List.getElem?_append_left (by rw [readCell_length]; exact hlt)] at hd
            exact hd
          refine ⟨hdt ▸ List.getElem?_mem hget, ?_, ?_, by omega⟩
          · rw [← h1]
          · rw [← h1]
            simp only []
            split_ifs <;> rfl
        · rw [if_neg hlt] at h; cases h
  · rw [if_neg hlen] at h; cases h

/-- An `erase` that returns without throwing either erased a stored pair or,
its pair lying above every tail, changed nothing. -/
theorem erase_returned (K : Nat) (s : UnrolledLinkedList) (key : KeyType) (value : Int)
    (h : (UnrolledLinkedList.erase K s key value).thrown = none) :
    (⟨key, value⟩ : DataType) ∈ entries s ∨
      ((⟨key, value⟩ : DataType) ∉ entries s ∧
        (UnrolledLinkedList.erase K s key value).state.blocks = s.blocks ∧
        (UnrolledLinkedList.erase K s key value).state.free_blocks = s.free_blocks ∧
        (UnrolledLinkedList.erase K s key value).state.file = s.file) := by
  by_cases hm : (⟨key, value⟩ : DataType) ∈ entries s
  · exact Or.inl hm
  · right
    refine ⟨hm, ?_⟩
    unfold UnrolledLinkedList.erase at h ⊢
    by_cases hlen0 : s.blocks.length = 0
    · rw [if_pos hlen0] at h; cases h
    · rw [if_neg hlen0] at h ⊢
      cases hl : locate ⟨key, value⟩ s.blocks with
      | none => exact ⟨rfl, rfl, rfl⟩
      | some pos =>
        rw [hl] at h
        simp only [] at h
        cases hc : s.blocks[pos]? with
        | none => rw [hc] at h; cases h
        | some cur =>
          rw [hc] at h
          simp only [] at h
          cases he : ListBlock.erase K s.file cur ⟨key, value⟩ with
          | error e => rw [he] at h; cases h
          | ok r =>
            obtain ⟨cur1, file1⟩ := r
            exact absurd (mem_flat (List.getElem?_mem hc) (blockErase_inv he).1) hm

theorem wf_caches {K : Nat} {s : UnrolledLinkedList} (hwf : WellFormed K s) :
    CachesAccurate s := by
  obtain ⟨_, hs, hacc⟩ := hwf
  refine ⟨fun b hb => ⟨(hacc b hb).1, (hacc b hb).2, fun e he => ?_⟩, ?_⟩
  · have hsb : (stored s.file b).Pairwise (· < ·) := by
      unfold entries at hs
      exact (List.pairwise_flatten.mp hs).1 _ (List.mem_map_of_mem _ hb)
    exact ⟨head_le_of_sorted hsb (hacc b hb).1 e he, le_last_of_sorted hsb (hacc b hb).2 e he⟩
  · unfold entries at hs
    have hp := List.pairwise_map.mp (List.pairwise_flatten.mp hs).2
    refine List.Pairwise.chain' (hp.imp_of_mem ?_)
    intro A B hA hB hAB
    have hAt : A.tail ∈ stored s.file A := List.mem_of_mem_getLast? (hacc A hA).2
    have hBh : B.head ∈ stored s.file B := List.mem_of_mem_head? (hacc B hB).1
    exact entry_le_of_lt (hAB _ hAt _ hBh)

/-- Head and tail caches on an index whose pool holds no live cell. On a well-formed index with
`kMaxBlockSize >= 2`: an `insert` of a pair with value at least 1, with no live
cell id in the non-empty free pool, returns without throwing when the pair is
absent, and after every `insert` that returns so, as after every `erase` that
returns without throwing (it does when the pair is stored), every block in the
sequence has `head` equal to its first stored entry and `tail` equal to its
last, every entry `e` of a block satisfies `head <= e <= tail`, and consecutive
blocks `A`, `B` satisfy `A.tail <= B.head`. -/
theorem caches_stay_accurate (K : Nat) (s : UnrolledLinkedList) (k : KeyType) (v : Int)
    (hK : 2 ≤ K) (hwf : WellFormed K s) :
    (FreeOK s → s.free_blocks ≠ [] → 1 ≤ v →
      ((⟨k, v⟩ : DataType) ∉ entries s → (UnrolledLinkedList.insert K s k v).thrown = none) ∧
      ((UnrolledLinkedList.insert K s k v).thrown = none →
        CachesAccurate (UnrolledLinkedList.insert K s k v).state)) ∧
    (((⟨k, v⟩ : DataType) ∈ entries s → (UnrolledLinkedList.erase K s k v).thrown = none) ∧
      ((UnrolledLinkedList.erase K s k v).thrown = none →
        CachesAccurate (UnrolledLinkedList.erase K s k v).state)) := by
  refine ⟨fun hfree hpool hv => ?_, fun hm => (erase_spec K s k v hwf hm).1, fun hret => ?_⟩
  · have hd : (⟨k, v⟩ : DataType) ≠ default := by
      intro h
      have : v = 0 := congrArg DataType.value h
      omega
    refine ⟨fun hnew => (insert_spec K s k v hK hwf hfree hpool hnew hd).1, fun hret => ?_⟩
    have hnew : (⟨k, v⟩ : DataType) ∉ entries s := by
      intro hm
      rw [insert_dup K s k v hwf hm] at hret
      cases hret
    exact wf_caches (insert_spec K s k v hK hwf hfree hpool hnew hd).2.1
  · rcases erase_returned K s k v hret with hm | ⟨_, hb, _, hf⟩
    · exact wf_caches (erase_spec K s k v hwf hm).2.1
    · have := wf_caches hwf
      unfold CachesAccurate at this ⊢
      rw [hb, hf]
      exact this

/-- At a concrete input: on `demoWide`, with `kMaxBlockSize = 4`, the
insertion of `([2], 4)` fills and splits the second block, and the erasure of
`([1], 1)` takes the first entry of the first block. -/
theorem caches_stay_accurate_witness :
    (2 ≤ 4 ∧ WellFormed 4 demoWide ∧ FreeOK demoWide ∧ demoWide.free_blocks ≠ [] ∧
      (UnrolledLinkedList.insert 4 demoWide [2] 4).state.blocks.length = 3) ∧
    (UnrolledLinkedList.insert 4 demoWide [2] 4).thrown = none ∧
    CachesAccurate (UnrolledLinkedList.insert 4 demoWide [2] 4).state ∧
    (UnrolledLinkedList.erase 4 demoWide [1] 1).thrown = none ∧
    CachesAccurate (UnrolledLinkedList.erase 4 demoWide [1] 1).state :=
  have h := caches_stay_accurate 4 demoWide [2] 4 (by decide) (by decide)
  have h1 := h.1 (by decide) (by decide) (by decide)
  have g := caches_stay_accurate 4 demoWide [1] 1 (by decide) (by decide)
  ⟨by decide, h1.1 (by decide), h1.2 (h1.1 (by decide)), g.2.1 (by decide),
    g.2.2 (g.2.1 (by decide))⟩

/-- What `erase` leaves of the blocks. On a well-formed index, erasing a stored
pair returns without throwing; the block that stores the pair leaves the
sequence when the pair was its only entry, so the number of blocks goes down
by exactly one, and stays in place, one entry shorter and in the same cell,
otherwise, so the number of blocks is unchanged. Every other block keeps its
entry count, cell id, head, tail and stored entries, however small adjacent
blocks are. An `erase` of a pair that is not stored, when it returns, leaves
blocks and file as they were. -/
theorem erase_never_merges (K : Nat) (s : UnrolledLinkedList) (k : KeyType) (v : Int)
    (hwf : WellFormed K s) :
    ((⟨k, v⟩ : DataType) ∈ entries s →
      (UnrolledLinkedList.erase K s k v).thrown = none ∧
      ∃ pre cur post, s.blocks = pre ++ cur :: post ∧ (⟨k, v⟩ : DataType) ∈ stored s.file cur ∧
        ((cur.len = 1 ∧ (UnrolledLinkedList.erase K s k v).state.blocks = pre ++ post ∧
            (UnrolledLinkedList.erase K s k v).state.blocks.length + 1 = s.blocks.length) ∨
          (1 < cur.len ∧ ∃ cur1, cur1.len = cur.len - 1 ∧ cur1.pos = cur.pos ∧
            (UnrolledLinkedList.erase K s k v).state.blocks = pre ++ cur1 :: post ∧
            (UnrolledLinkedList.erase K s k v).state.blocks.length = s.blocks.length)) ∧
        ∀ b ∈ pre ++ post,
          stored (UnrolledLinkedList.erase K s k v).state.file b = stored s.file b) ∧
    ((⟨k, v⟩ : DataType) ∉ entries s → (UnrolledLinkedList.erase K s k v).thrown = none →
      (UnrolledLinkedList.erase K s k v).state.blocks = s.blocks ∧
      (UnrolledLinkedList.erase K s k v).state.file = s.file) := by
  constructor
  · intro hm
    refine ⟨(erase_spec K s k v hwf hm).1, ?_⟩
    obtain ⟨pre, cur, post, cur1, file1, A, B, hb, hl1, hp1, hfr1, hAB, _, hcase⟩ :=
      erase_shape K s k v hwf hm
    have hcell := wf_cell_ne K s pre post cur hwf hb
    have hin : (⟨k, v⟩ : DataType) ∈ stored s.file cur := by rw [hAB]; simp
    have hframe : ∀ b ∈ pre ++ post, stored file1 b = stored s.file b :=
      fun b hbm => stored_congr s.file file1 b (hfr1 _ (hcell b hbm))
    refine ⟨pre, cur, post, hb, hin, ?_⟩
    rcases hcase with ⟨h1, heq⟩ | ⟨h1, _, heq⟩
    · rw [heq]
      refine ⟨Or.inl ⟨h1, rfl, ?_⟩, hframe⟩
      rw [hb]
      simp only [List.length_append, List.length_cons]
      omega
    · rw [heq]
      refine ⟨Or.inr ⟨h1, cur1, hl1, hp1, rfl, ?_⟩, hframe⟩
      rw [hb]
      simp only [List.length_append, List.length_cons]
  · intro hnm hret
    rcases erase_returned K s k v hret with hm | ⟨_, hb, _, hf⟩
    · exact absurd hm hnm
    · exact ⟨hb, hf⟩

/-- At a concrete input: `demoState` has three blocks of one entry each,
with `kMaxBlockSize = 2`; erasing `([2], 1)` removes the middle block and leaves
its two neighbours, one entry each, unmerged. -/
theorem erase_never_merges_witness :
    (WellFormed 2 demoState ∧ (⟨[2], 1⟩ : DataType) ∈ entries demoState ∧
      demoState.blocks.map (fun b => b.len) = [1, 1, 1] ∧
      (UnrolledLinkedList.erase 2 demoState [2] 1).state.blocks.map (fun b => b.len) = [1, 1]) ∧
    (UnrolledLinkedList.erase 2 demoState [2] 1).thrown = none :=
  ⟨by decide, ((erase_never_merges 2 demoState [2] 1 (by decide)).1 (by decide)).1⟩

/-! ### Entry counts stay below the buffer size -/

theorem lower_bound_le (data : List DataType) (len : Nat) (tmp : DataType) :
    lower_bound data len tmp ≤ len := by
  unfold lower_bound
  exact ((List.takeWhile_sublist _).length_le).trans (by rw [List.length_take]; omega)

theorem buffer_length (K : Nat) (file : File) (cur : ListBlock) (h : cur.len ≤ K) :
    (readCell (file cur.pos) cur.len ++ List.replicate (K - cur.len) default).length = K := by
  rw [List.length_append, readCell_length, List.length_replicate]
  omega

theorem blockInsert_inv {K : Nat} {file file1 : File} {cur cur1 : ListBlock} {tmp : DataType}
    (h : ListBlock.insert K file cur tmp = .ok (cur1, file1)) :
    cur1.len = cur.len + 1 ∧ cur1.pos = cur.pos ∧ cur.len < K := by
  unfold ListBlock.insert allocate at h
  by_cases hlen : cur.len ≤ K
  · rw [if_pos hlen] at h
    simp only [] at h
    generalize lower_bound (readCell (file cur.pos) cur.len ++
      List.replicate (K - cur.len) default) cur.len tmp = pos at h
    cases hd : (readCell (file cur.pos) cur.len ++ List.replicate (K - cur.len) default)[pos]? with
    | none => rw [hd] at h; cases h
    | some d =>
      rw [hd] at h
      simp only [] at h
      by_cases heq : d.eq tmp = true
      · rw [if_pos heq] at h; cases h
      · rw [if_neg heq] at h
        by_cases hlt : cur.len < K
        · rw [if_pos hlt] at h
          simp only [Except.ok.injEq, Prod.mk.injEq] at h
          obtain ⟨h1, _⟩ := h
          refine ⟨by rw [← h1], ?_, hlt⟩
          rw [← h1]
          simp only []
          split_ifs <;> rfl
        · rw [if_neg hlt] at h; cases h
  · rw [if_neg hlen] at h; cases h

theorem blockInsert_defined (K : Nat) (file : File) (cur : ListBlock) (tmp : DataType)
    (hlen : cur.len < K) : ListBlock.insert K file cur tmp ≠ .error .undefined := by
  unfold ListBlock.insert allocate
  rw [if_pos hlen.le]
  simp only []
  have hpos := lower_bound_le (readCell (file cur.pos) cur.len ++
    List.replicate (K - cur.len) default) cur.len tmp
  generalize lower_bound (readCell (file cur.pos) cur.len ++
    List.replicate (K - cur.len) default) cur.len tmp = pos at hpos
  cases hd : (readCell (file cur.pos) cur.len ++ List.replicate (K - cur.len) default)[pos]? with
  | none =>
    exfalso
    rw [List.getElem?_eq_none_iff, buffer_length K file cur hlen.le] at hd
    omega
  | some d =>
    simp only []
    by_cases heq : d.eq tmp = true
    · rw [if_pos heq]
      intro h
      cases h
    · rw [if_neg heq, if_pos hlen]
      intro h
      cases h

theorem blockErase_defined (K : Nat) (file : File) (cur : ListBlock) (tmp : DataType)
    (hlen : cur.len < K) (hd : tmp ≠ default) :
    ListBlock.erase K file cur tmp ≠ .error .undefined := by
  unfold ListBlock.erase allocate
  rw [if_pos hlen.le]
  simp only []
  have hpos := lower_bound_le (readCell (file cur.pos) cur.len ++
    List.replicate (K - cur.len) default) cur.len tmp
  generalize lower_bound (readCell (file cur.pos) cur.len ++
    List.replicate (K - cur.len) default) cur.len tmp = pos at hpos
  cases hg : (readCell (file cur.pos) cur.len ++ List.replicate (K - cur.len) default)[pos]? with
  | none =>
    exfalso
    rw [List.getElem?_eq_none_iff, buffer_length K file cur hlen.le] at hg
    omega
  | some d =>
    simp only []
    by_cases hne : d.ne tmp = true
    · rw [if_pos hne]
      intro h
      cases h
    · rw [if_neg hne]
      by_cases hlt : pos < cur.len
      · rw [if_pos hlt]
        intro h
        cases h
      · exfalso
        have hp : pos = cur.len := by omega
        subst hp
        rw [List.getElem?_append_right (by rw [readCell_length]), readCell_length,
          Nat.sub_self, List.getElem?_replicate] at hg
        rw [if_pos (by omega)] at hg
        have hdd : d = default := (Option.some.inj hg).symm
        have : d = tmp := by
          by_contra hc
          exact hne (entry_ne_iff.mpr hc)
        exact hd (this ▸ hdd)

theorem insert_fits (K : Nat) (s : UnrolledLinkedList) (key : KeyType) (value : Int)
    (hK : 2 ≤ K) (hfit : BlocksFit K s) (hv : 1 ≤ value) (hpool : s.free_blocks ≠ []) :
    BlocksFit K (UnrolledLinkedList.insert K s key value).state ∧
      (UnrolledLinkedList.insert K s key value).thrown ≠ some .undefined := by
  have hd : (⟨key, value⟩ : DataType) ≠ default := by
    intro h
    have : value = 0 := congrArg DataType.value h
    omega
  by_cases hne : s.blocks = []
  · obtain ⟨file1, h1, _⟩ := insert_empty K s key value (by omega) hne hd
    rw [h1]
    refine ⟨fun b hb => ?_, by simp⟩
    simp only [List.mem_singleton] at hb
    subst hb
    simp only []
    omega
  · obtain ⟨pre, cur, post, hb, hloc, _, _⟩ := insert_target ⟨key, value⟩ s.blocks hne
    have hlen0 : ¬ s.blocks.length = 0 := fun h => hne (List.length_eq_zero.mp h)
    have hcur := hfit cur (by rw [hb]; simp)
    have hold : ∀ b ∈ pre ++ post, 1 ≤ b.len ∧ b.len ≤ K - 1 := fun b hbm =>
      hfit b (by
        rw [hb]
        rcases List.mem_append.mp hbm with a | a
        · exact List.mem_append_left _ a
        · exact List.mem_append_right _ (List.mem_cons_of_mem _ a))
    obtain ⟨bs, fr, file⟩ := s
    simp only [] at hb hloc hlen0 hpool
    subst hb
    unfold UnrolledLinkedList.insert
    simp only [if_neg hlen0, hloc, getElem?_mid]
    cases hins : ListBlock.insert K file cur ⟨key, value⟩ with
    | error e =>
      refine ⟨hfit, ?_⟩
      simp only [ne_eq, Option.some.injEq]
      rintro rfl
      exact blockInsert_defined K file cur ⟨key, value⟩ (by omega) hins
    | ok r =>
      obtain ⟨cur1, file1⟩ := r
      obtain ⟨hl1, _, _⟩ := blockInsert_inv hins
      simp only []
      by_cases hKl : K ≤ cur1.len
      · rw [if_pos hKl]
        obtain ⟨f, fs, hfs⟩ : ∃ f fs, fr = f :: fs := by
          cases fr with
          | nil => exact absurd rfl hpool
          | cons f fs => exact ⟨f, fs, rfl⟩
        subst hfs
        rw [split_ok K file1 cur1 f fs (by omega) (by omega)]
        simp only [take_mid, drop_mid]
        refine ⟨fun b hbm => ?_, by simp⟩
        simp only [List.mem_append, List.mem_cons] at hbm
        rcases hbm with a | rfl | rfl | a
        · exact hold b (List.mem_append_left _ a)
        · simp only []
          omega
        · simp only []
          omega
        · exact hold b (List.mem_append_right _ a)
      · rw [if_neg hKl]
        simp only [set_mid]
        refine ⟨fun b hbm => ?_, by simp⟩
        simp only [List.mem_append, List.mem_cons] at hbm
        rcases hbm with a | rfl | a
        · exact hold b (List.mem_append_left _ a)
        · omega
        · exact hold b (List.mem_append_right _ a)

theorem erase_fits (K : Nat) (s : UnrolledLinkedList) (key : KeyType) (value : Int)
    (hfit : BlocksFit K s) (hv : 1 ≤ value) :
    BlocksFit K (UnrolledLinkedList.erase K s key value).state ∧
      (UnrolledLinkedList.erase K s key value).thrown ≠ some .undefined := by
  have hd : (⟨key, value⟩ : DataType) ≠ default := by
    intro h
    have : value = 0 := congrArg DataType.value h
    omega
  unfold UnrolledLinkedList.erase
  by_cases hlen0 : s.blocks.length = 0
  · rw [if_pos hlen0]
    exact ⟨hfit, by simp⟩
  · rw [if_neg hlen0]
    cases hl : locate ⟨key, value⟩ s.blocks with
    | none => exact ⟨hfit, by simp⟩
    | some i =>
      obtain ⟨pre, cur, post, hb, hi, _, _⟩ := locate_some hl
      have hcur := hfit cur (by rw [hb]; simp)
      have hold : ∀ b ∈ pre ++ post, 1 ≤ b.len ∧ b.len ≤ K - 1 := fun b hbm =>
        hfit b (by
          rw [hb]
          rcases List.mem_append.mp hbm with a | a
          · exact List.mem_append_left _ a
          · exact List.mem_append_right _ (List.mem_cons_of_mem _ a))
      obtain ⟨bs, fr, file⟩ := s
      simp only [] at hb hl hlen0
      subst hb
      subst hi
      simp only [getElem?_mid]
      cases her : ListBlock.erase K file cur ⟨key, value⟩ with
      | error e =>
        refine ⟨hfit, ?_⟩
        simp only [ne_eq, Option.some.injEq]
        rintro rfl
        exact blockErase_defined K file cur ⟨key, value⟩ (by omega) hd her
      | ok r =>
        obtain ⟨cur1, file1⟩ := r
        obtain ⟨_, hl1, _, _⟩ := blockErase_inv her
        simp only []
        by_cases h0 : cur1.len = 0
        · rw [if_pos h0]
          simp only [eraseIdx_mid]
          exact ⟨hold, by simp⟩
        · rw [if_neg h0]
          simp only [set_mid]
          refine ⟨fun b hbm => ?_, by simp⟩
          simp only [List.mem_append, List.mem_cons] at hbm
          rcases hbm with a | rfl | a
          · exact hold b (List.mem_append_left _ a)
          · omega
          · exact hold b (List.mem_append_right _ a)

theorem runOps_fits (K : Nat) (hK : 2 ≤ K) (ops : List Op) :
    ∀ s, BlocksFit K s → (∀ op ∈ ops, 1 ≤ op.value) → poolHolds K s ops = true →
      (∀ n, BlocksFit K (runOps K s (ops.take n))) ∧
      ∀ (n : Nat) (op : Op), ops[n]? = some op →
        (op.run K (runOps K s (ops.take n))).thrown ≠ some .undefined := by
  induction ops with
  | nil =>
    intro s hfit _ _
    refine ⟨fun n => by simpa [runOps] using hfit, fun n op h => by simp at h⟩
  | cons o os ih =>
    intro s hfit hv hp
    have hv0 := hv o (List.mem_cons_self _ _)
    have hstep : BlocksFit K (o.run K s).state ∧ (o.run K s).thrown ≠ some .undefined ∧
        poolHolds K (o.run K s).state os = true := by
      cases o with
      | insert k v =>
        simp only [poolHolds, Bool.and_eq_true, Bool.not_eq_true', List.isEmpty_eq_false] at hp
        obtain ⟨h1, h2⟩ := insert_fits K s k v hK hfit hv0 (by
          intro h
          rw [h] at hp
          simp at hp)
        exact ⟨h1, h2, hp.2⟩
      | erase k v =>
        simp only [poolHolds] at hp
        obtain ⟨h1, h2⟩ := erase_fits K s k v hfit hv0
        exact ⟨h1, h2, hp⟩
    obtain ⟨i1, i2⟩ := ih (o.run K s).state hstep.1
      (fun op hop => hv op (List.mem_cons_of_mem _ hop)) hstep.2.2
    constructor
    · intro n
      cases n with
      | zero => simpa [runOps] using hfit
      | succ m => simpa [runOps] using i1 m
    · intro n op hop
      cases n with
      | zero =>
        simp only [List.getElem?_cons_zero, Option.some.injEq] at hop
        subst hop
        simpa [runOps] using hstep.2.1
      | succ m =>
        simp only [List.getElem?_cons_succ] at hop
        simpa [runOps] using i2 m op hop

/-- C30: block buffer safety. For `kMaxBlockSize >= 2`, start from an index
without blocks and make any sequence of `insert` and `erase` calls with values
at least 1, the free pool being non-empty whenever an `insert` starts. After
each call every block in the sequence holds at least 1 and at most
`kMaxBlockSize - 1` entries, and no call of the sequence ends in an access
outside the `kMaxBlockSize`-entry buffer or outside the block vector: neither
the probe `data[pos]` nor the entry shift of the in-block insertion reaches an
index `>= kMaxBlockSize`. -/
theorem blocks_fit_buffer (K : Nat) (s : UnrolledLinkedList) (ops : List Op) (hK : 2 ≤ K)
    (hs : s.blocks = []) (hv : ∀ op ∈ ops, 1 ≤ op.value) (hp : poolHolds K s ops = true) :
    (∀ n, ∀ b ∈ (runOps K s (ops.take n)).blocks, 1 ≤ b.len ∧ b.len ≤ K - 1) ∧
    (∀ (n : Nat) (op : Op), ops[n]? = some op →
      (op.run K (runOps K s (ops.take n))).thrown ≠ some .undefined) :=
  runOps_fits K hK ops s (fun b hb => by rw [hs] at hb; cases hb) hv hp

/-- C30 at a concrete input: the six calls of `demoCalls` on `demoIndex` with
`kMaxBlockSize = 2`, which fill, split and empty blocks. -/
theorem blocks_fit_buffer_witness :
    (2 ≤ 2 ∧ demoIndex.blocks = [] ∧ poolHolds 2 demoIndex demoCalls = true ∧
      (runOps 2 demoIndex demoCalls).blocks.map (fun b => b.len) = [1, 1, 1]) ∧
    (∀ n, ∀ b ∈ (runOps 2 demoIndex (demoCalls.take n)).blocks, 1 ≤ b.len ∧ b.len ≤ 2 - 1) ∧
    (∀ (n : Nat) (op : Op), demoCalls[n]? = some op →
      (op.run 2 (runOps 2 demoIndex (demoCalls.take n))).thrown ≠ some .undefined) :=
  ⟨by decide, blocks_fit_buffer 2 demoIndex demoCalls (by decide) (by decide) (by decide)
    (by decide)⟩

/-! ### Ascending insertions: every block splits in the middle once -/

theorem pool_cons (a n : Nat) (hn : 1 ≤ n) :
    (List.range' a n).map Int.ofNat =
      Int.ofNat a :: (List.range' (a + 1) (n - 1)).map Int.ofNat := by
  obtain ⟨k, rfl⟩ : ∃ k, n = k + 1 := ⟨n - 1, by omega⟩
  rw [List.range'_succ]
  rfl

theorem pool_ascending (a n : Nat) : ((List.range' a n).map Int.ofNat).Pairwise (· < ·) := by
  rw [List.pairwise_map]
  exact (List.pairwise_lt_range' a n).imp fun h => by
    show (Int.ofNat _) < (Int.ofNat _)
    exact Int.ofNat_lt.mpr h

theorem pool_take (a n : Nat) (hn : 1 ≤ n) :
    setErase (Int.ofNat a) ((List.range' a n).map Int.ofNat) =
      (List.range' (a + 1) (n - 1)).map Int.ofNat := by
  have hasc := pool_ascending a n
  rw [pool_cons a n hn] at hasc ⊢
  exact setErase_head _ _ hasc

theorem entry_lt_of_key_lt {x y : DataType} (h : KeyType.lt x.key y.key = true) : x < y :=
  entry_lt_iff.mpr (Or.inr h)

theorem valuesOf_single (ops : List DataType)
    (hasc : ops.Pairwise fun a b => KeyType.lt a.key b.key = true) (e : DataType)
    (he : e ∈ ops) : valuesOf e.key ops = if 0 ≤ e.value then [e.value] else [] := by
  induction ops with
  | nil => cases he
  | cons x xs ih =>
    obtain ⟨hx, hxs⟩ := List.pairwise_cons.mp hasc
    have hsplit : valuesOf e.key (x :: xs) = valuesOf e.key [x] ++ valuesOf e.key xs :=
      valuesOf_append e.key [x] xs
    rw [hsplit]
    rcases List.mem_cons.mp he with h | h
    · subst h
      have h1 : valuesOf e.key xs = [] :=
        valuesOf_eq_nil fun y hy => (key_lt_ne (hx y hy)).symm
      rw [h1]
      unfold valuesOf
      by_cases hv : 0 ≤ e.value
      · simp [hv]
      · simp [hv]
    · have h1 : valuesOf e.key [x] = [] :=
        valuesOf_eq_nil fun y hy => by
          rw [List.mem_singleton.mp hy]
          exact key_lt_ne (hx e h)
      rw [h1, ih hxs h]
      rfl

theorem insertAll_cons (K : Nat) (s : UnrolledLinkedList) (e : DataType) (es : List DataType) :
    insertAll K s (e :: es) = insertAll K (UnrolledLinkedList.insert K s e.key e.value).state es :=
  rfl

theorem ascending_step (m N : Nat) (hm : 1 ≤ m) (s : UnrolledLinkedList) (E : List DataType)
    (t r : Nat) (tmp : DataType) (hsh : AscendingShape m N s E t r) (hN : t + 2 ≤ N)
    (hgt : ∀ x ∈ E, x < tmp) (hd0 : tmp ≠ default) :
    ∃ t2 r2, AscendingShape m N (UnrolledLinkedList.insert (2 * m) s tmp.key tmp.value).state
      (E ++ [tmp]) t2 r2 := by
  obtain ⟨hwf, hfree, hent, hlens, ⟨hr1, hr2, hrt⟩, hpool, hcount⟩ := hsh
  have hK : 2 ≤ 2 * m := by omega
  have hd : (⟨tmp.key, tmp.value⟩ : DataType) ≠ default := hd0
  have hnew : (⟨tmp.key, tmp.value⟩ : DataType) ∉ entries s := by
    rw [hent]
    intro h
    exact entry_lt_irrefl _ (hgt _ h)
  have hpne : s.free_blocks ≠ [] := by
    rw [hpool, pool_cons _ _ (by omega)]
    simp
  have hne : s.blocks ≠ [] := by
    intro h
    rw [h] at hlens
    simp at hlens
  obtain ⟨_, hwf2, hfree2, X, Y, hXY, _, hY, hent2⟩ :=
    insert_spec (2 * m) s tmp.key tmp.value hK hwf hfree hpne hnew hd
  have hYnil : Y = [] := by
    cases Y with
    | nil => rfl
    | cons y ys =>
      exfalso
      have h1 := hY y (List.mem_cons_self _ _)
      have h2 : y < tmp := hgt y (by rw [← hent, hXY]; simp)
      exact entry_lt_asymm h1 h2
  subst hYnil
  have hent3 : entries (UnrolledLinkedList.insert (2 * m) s tmp.key tmp.value).state =
      E ++ [tmp] := by
    rw [hent2, ← hent, hXY, List.append_nil]
  obtain ⟨pre, cur, post, cur1, file1, hb, _, htgt, hl1, _, _, _, _, hcase⟩ :=
    insert_shape (2 * m) s tmp.key tmp.value hwf hfree hpne hne hnew hd
  have hcurmem : cur ∈ s.blocks := by rw [hb]; simp
  have htail : cur.tail < tmp := by
    apply hgt
    rw [← hent]
    exact mem_flat hcurmem (List.mem_of_mem_getLast? (hwf.2.2 cur hcurmem).2)
  have hpost : post = [] := by
    rcases htgt with h | ⟨h, _⟩
    · exact absurd h (entry_not_le.mpr htail)
    · exact h
  subst hpost
  rw [hb, List.map_append, List.map_cons, List.map_nil] at hlens
  obtain ⟨hpl, hcl⟩ := List.append_inj' hlens rfl
  have hcl2 : cur.len = r := by simpa using hcl
  have hlen2 : (E ++ [tmp]).length = E.length + 1 := by simp
  rcases hcase with ⟨hlt, heq⟩ | ⟨hKeq, f, fs, cur2, nex, file2, hfs, _, _, q3, q4, _, _, _, _, _,
      heq⟩
  · refine ⟨t, r + 1, hwf2, hfree2, hent3, ?_, ⟨by omega, by omega, fun h => by
      have := hrt h
      omega⟩, ?_, by rw [hlen2, hcount]; ring⟩
    · rw [heq]
      simp only [List.map_append, List.map_cons, List.map_nil, hpl, hl1, hcl2]
    · rw [heq]
      exact hpool
  · refine ⟨t + 1, m, hwf2, hfree2, hent3, ?_, ⟨hm, by omega, fun _ => le_refl _⟩, ?_, ?_⟩
    · rw [heq]
      simp only [List.map_append, List.map_cons, List.map_nil, hpl, q3, q4, hKeq]
      have h1 : 2 * m - 2 * m / 2 = m := by omega
      have h2 : 2 * m / 2 = m := by omega
      rw [h1, h2, List.replicate_succ', List.append_assoc]
      rfl
    · rw [heq]
      simp only []
      rw [← hfs, hpool]
      have hf : f = Int.ofNat (t + 2) := by
        rw [hpool, pool_cons _ _ (by omega)] at hfs
        exact (List.cons.inj hfs).1.symm
      rw [hf, pool_take (t + 2) (N - (t + 1)) (by omega)]
      have e1 : N - (t + 1) - 1 = N - (t + 1 + 1) := by omega
      rw [e1]
    · rw [hlen2, hcount]
      have : r + 1 = 2 * m := by omega
      have e : t * m + r + 1 = t * m + (r + 1) := by ring
      rw [e, this]
      ring

theorem ascending_run (m N : Nat) (hm : 1 ≤ m) (hN : 2 ≤ N) (ops : List DataType) :
    ∀ (s : UnrolledLinkedList) (E : List DataType) (t r : Nat), AscendingShape m N s E t r →
      (∀ x ∈ E, ∀ e ∈ ops, x < e) → ops.Pairwise (· < ·) → (∀ e ∈ ops, e ≠ default) →
      E.length + ops.length ≤ N * m →
      ∃ t2 r2, AscendingShape m N (insertAll (2 * m) s ops) (E ++ ops) t2 r2 := by
  induction ops with
  | nil =>
    intro s E t r hsh _ _ _ _
    exact ⟨t, r, by simpa [insertAll] using hsh⟩
  | cons e es ih =>
    intro s E t r hsh hgt hasc hv hcount
    obtain ⟨he, has⟩ := List.pairwise_cons.mp hasc
    have hlenE : E.length = t * m + r := hsh.2.2.2.2.2.2
    have hrt := hsh.2.2.2.2.1
    have htN : t + 2 ≤ N := by
      by_cases h0 : t = 0
      · omega
      · have h1 : m ≤ r := hrt.2.2 (by omega)
        have h2 : (t + 1) * m < N * m := by
          have : (t + 1) * m = t * m + m := by ring
          simp only [List.length_cons] at hcount
          omega
        have := Nat.lt_of_mul_lt_mul_right h2
        omega
    obtain ⟨t1, r1, hsh1⟩ := ascending_step m N hm s E t r e hsh htN
      (fun x hx => hgt x hx e (List.mem_cons_self _ _)) (hv e (List.mem_cons_self _ _))
    obtain ⟨t2, r2, hsh2⟩ := ih _ (E ++ [e]) t1 r1 hsh1
      (fun x hx y hy => by
        rcases List.mem_append.mp hx with a | a
        · exact hgt x a y (List.mem_cons_of_mem _ hy)
        · rw [List.mem_singleton.mp a]
          exact he y hy)
      has (fun y hy => hv y (List.mem_cons_of_mem _ hy))
      (by simp only [List.length_append, List.length_cons, List.length_nil] at hcount ⊢; omega)
    refine ⟨t2, r2, ?_⟩
    rw [insertAll_cons]
    simpa using hsh2

theorem ascending_first (m N : Nat) (hm : 1 ≤ m) (hN : 1 ≤ N) (s : UnrolledLinkedList)
    (e : DataType) (hs : s.blocks = [])
    (hpool : s.free_blocks = (List.range' 1 N).map Int.ofNat) (hd0 : e ≠ default) :
    AscendingShape m N (UnrolledLinkedList.insert (2 * m) s e.key e.value).state [e] 0 1 := by
  have hd : (⟨e.key, e.value⟩ : DataType) ≠ default := hd0
  obtain ⟨hwf, hfree, hent⟩ := wf_of_no_blocks (2 * m) s hs
  have hpne : s.free_blocks ≠ [] := by
    rw [hpool, pool_cons _ _ hN]
    simp
  obtain ⟨_, hwf2, hfree2, X, Y, hXY, _, _, hent2⟩ :=
    insert_spec (2 * m) s e.key e.value (by omega) hwf hfree hpne (by rw [hent]; simp) hd
  rw [hent] at hXY
  obtain ⟨hX, hY⟩ := List.append_eq_nil.mp hXY.symm
  subst hX hY
  obtain ⟨file1, heq, _⟩ := insert_empty (2 * m) s e.key e.value (by omega) hs hd
  refine ⟨hwf2, hfree2, hent2, ?_, ⟨le_refl _, by omega, fun h => by omega⟩, ?_, by simp⟩
  · rw [heq]
    rfl
  · rw [heq]
    simp only []
    rw [hpool]
    exact pool_take 1 N hN

/-- Ascending insertions, for every value. Start from an index without blocks
whose pool is that of a fresh index, `1, ..., kMaxBlockCnt` with
`kMaxBlockCnt >= 10`, take `kMaxBlockSize = 1000` and insert 5000 pairs with
strictly increasing keys, none of them the pair `("", 0)`. The index then has 10
blocks of 500 entries each and stores the pairs in the order of insertion; the
`head` and `tail` of every block are the first and last entry it stores. `find`
of an inserted key returns that key's value when the value is not negative, and
nothing when it is. -/
theorem ascending_inserts_blocks (N : Nat) (s : UnrolledLinkedList) (ops : List DataType)
    (hN : 10 ≤ N) (hs : s.blocks = [])
    (hpool : s.free_blocks = (List.range' 1 N).map Int.ofNat) (hlen : ops.length = 5000)
    (hasc : ops.Pairwise fun a b => KeyType.lt a.key b.key = true)
    (hd : ∀ e ∈ ops, e ≠ default) :
    (insertAll 1000 s ops).blocks.map (fun b => b.len) = List.replicate 10 500 ∧
    entries (insertAll 1000 s ops) = ops ∧
    (∀ e ∈ ops, UnrolledLinkedList.find 1000 (insertAll 1000 s ops) e.key =
      .ok (if 0 ≤ e.value then [e.value] else [])) ∧
    (∀ b ∈ (insertAll 1000 s ops).blocks,
      (stored (insertAll 1000 s ops).file b).head? = some b.head ∧
      (stored (insertAll 1000 s ops).file b).getLast? = some b.tail ∧
      b.head ∈ ops ∧ b.tail ∈ ops) := by
  cases ops with
  | nil => simp at hlen
  | cons e es =>
    obtain ⟨he, hes⟩ := List.pairwise_cons.mp hasc
    have hsh1 := ascending_first 500 N (by omega) (by omega) s e hs hpool
      (hd e (List.mem_cons_self _ _))
    obtain ⟨t2, r2, hwf, _, hent, hlens, ⟨hr1, hr2, hrt⟩, _, hcount⟩ :=
      ascending_run 500 N (by omega) (by omega) es _ [e] 0 1 hsh1
        (fun x hx y hy => by
          rw [List.mem_singleton.mp hx]
          exact entry_lt_of_key_lt (he y hy))
        (hes.imp fun h => entry_lt_of_key_lt h)
        (fun y hy => hd y (List.mem_cons_of_mem _ hy))
        (by simp only [List.length_cons, List.length_nil] at hlen ⊢; omega)
    have hrun : insertAll 1000 s (e :: es) =
        insertAll (2 * 500) (UnrolledLinkedList.insert (2 * 500) s e.key e.value).state es := rfl
    rw [hrun]
    have hcat : [e] ++ es = e :: es := rfl
    rw [hcat] at hent hcount
    rw [hlen] at hcount
    have ht : t2 = 9 := by omega
    have hr : r2 = 500 := by omega
    subst ht hr
    have hfind : ∀ x ∈ e :: es, UnrolledLinkedList.find (2 * 500)
        (insertAll (2 * 500) (UnrolledLinkedList.insert (2 * 500) s e.key e.value).state es)
        x.key = .ok (if 0 ≤ x.value then [x.value] else []) := by
      intro x hx
      rw [find_spec (2 * 500) _ x.key hwf, hent]
      exact congrArg Except.ok (valuesOf_single (e :: es) hasc x hx)
    refine ⟨by rw [hlens]; rfl, hent, hfind, fun b hb => ?_⟩
    obtain ⟨hh, ht⟩ := hwf.2.2 b hb
    have hhm : b.head ∈ e :: es := by
      rw [← hent]
      exact mem_flat hb (List.mem_of_mem_head? hh)
    have htm : b.tail ∈ e :: es := by
      rw [← hent]
      exact mem_flat hb (List.mem_of_mem_getLast? ht)
    exact ⟨hh, ht, hhm, htm⟩

theorem demoKey_lt {i j : Nat} (h : i < j) : KeyType.lt (demoKey i) (demoKey j) = true := by
  simp only [KeyType.lt, demoKey, strcmp, decide_eq_true_eq]
  split_ifs <;> omega

theorem demoAscending_keys :
    demoAscending.Pairwise fun a b => KeyType.lt a.key b.key = true := by
  unfold demoAscending
  rw [List.pairwise_map]
  exact (List.pairwise_lt_range 5000).imp fun h => demoKey_lt h

theorem demoAscending_values : ∀ e ∈ demoAscending, e ≠ default := by
  intro e he h
  obtain ⟨i, _, rfl⟩ := List.mem_map.mp he
  have hv := congrArg DataType.value h
  have h0 : (default : DataType).value = 0 := rfl
  rw [h0] at hv
  simp only [] at hv
  omega

theorem demoAscending_mem (i : Nat) (v : Int) (h : i < 5000) (hv : v = (i : Int) + 1) :
    (⟨demoKey i, v⟩ : DataType) ∈ demoAscending := by
  subst hv
  exact List.mem_map.mpr ⟨i, List.mem_range.mpr h, rfl⟩

/-- At a concrete input: the 5000 pairs of `demoAscending`, whose keys are two
bytes each and whose values are 1 to 5000, inserted into the fresh index with
`kMaxBlockCnt = 10`; the key of the first pair, of the 500th and of the last are
found with their values. -/
theorem ascending_inserts_found :
    (10 ≤ 10 ∧ (freshIndex 10).blocks = [] ∧
      (demoKey 0 = [1, 1] ∧ demoKey 499 = [2, 250] ∧ demoKey 4999 = [20, 250])) ∧
    (insertAll 1000 (freshIndex 10) demoAscending).blocks.map (fun b => b.len) =
      List.replicate 10 500 ∧
    UnrolledLinkedList.find 1000 (insertAll 1000 (freshIndex 10) demoAscending) (demoKey 0) =
      .ok [1] ∧
    UnrolledLinkedList.find 1000 (insertAll 1000 (freshIndex 10) demoAscending) (demoKey 499) =
      .ok [500] ∧
    UnrolledLinkedList.find 1000 (insertAll 1000 (freshIndex 10) demoAscending) (demoKey 4999) =
      .ok [5000] :=
  have h := ascending_inserts_blocks 10 (freshIndex 10) demoAscending (by decide) rfl rfl
    (by simp [demoAscending]) demoAscending_keys demoAscending_values
  ⟨by decide, h.1, h.2.2.1 ⟨demoKey 0, 1⟩ (demoAscending_mem 0 1 (by decide) (by decide)),
    h.2.2.1 ⟨demoKey 499, 500⟩ (demoAscending_mem 499 500 (by decide) (by decide)),
    h.2.2.1 ⟨demoKey 4999, 5000⟩ (demoAscending_mem 4999 5000 (by decide) (by decide))⟩

theorem demoFalling_keys :
    demoFalling.Pairwise fun a b => KeyType.lt a.key b.key = true := by
  unfold demoFalling
  rw [List.pairwise_map]
  exact (List.pairwise_lt_range 5000).imp fun h => demoKey_lt h

theorem demoFalling_values : ∀ e ∈ demoFalling, e ≠ default := by
  intro e he h
  obtain ⟨i, _, rfl⟩ := List.mem_map.mp he
  have hv := congrArg DataType.value h
  have h0 : (default : DataType).value = 0 := rfl
  rw [h0] at hv
  simp only [] at hv
  omega

theorem demoFalling_mem (i : Nat) (v : Int) (h : i < 5000) (hv : v = -((i : Int) + 1)) :
    (⟨demoKey i, v⟩ : DataType) ∈ demoFalling := by
  subst hv
  exact List.mem_map.mpr ⟨i, List.mem_range.mpr h, rfl⟩

/-- On an index without blocks, whatever `kMaxBlockSize >= 1`, `insert("", 0)`
throws the duplicate error: the in-block check reads `data[0]` of the fresh
buffer. -/
theorem insert_default_throws (K : Nat) (hK : 1 ≤ K) (s : UnrolledLinkedList)
    (hs : s.blocks = []) : (UnrolledLinkedList.insert K s [] 0).thrown = some .inserted := by
  obtain ⟨k, rfl⟩ : ∃ k, K = k + 1 := ⟨K - 1, by omega⟩
  unfold UnrolledLinkedList.insert ListBlock.insert allocate lower_bound readCell
  simp only [hs, List.length_nil, if_true, Nat.zero_le, List.take_zero, List.takeWhile_nil,
    Nat.sub_zero, List.nil_append, List.replicate_zero, List.replicate_succ,
    List.getElem?_cons_zero, Nat.zero_sub]
  rfl

/-- C23, evaluated. The 5000 pairs of `demoFalling` have strictly increasing
keys, two bytes each, and the values `-1` to `-5000`; they are inserted with
`kMaxBlockSize = 1000` into the fresh index with `kMaxBlockCnt = 10`. The index
then has 10 blocks of 500 entries each and stores the 5000 pairs, yet `find` of
the first key and of the last returns nothing instead of the key's value: the
in-block search starts at `(key, 0)`. When the first pair of such a run is
`("", 0)`, its `insert` throws the duplicate error. -/
theorem negative_values_not_found :
    ((freshIndex 10).blocks = [] ∧ demoFalling.length = 5000 ∧
      demoKey 0 = [1, 1] ∧ demoKey 4999 = [20, 250]) ∧
    (demoFalling.Pairwise fun a b => KeyType.lt a.key b.key = true) ∧
    ((⟨demoKey 0, -1⟩ : DataType) ∈ demoFalling ∧
      (⟨demoKey 4999, -5000⟩ : DataType) ∈ demoFalling) ∧
    (insertAll 1000 (freshIndex 10) demoFalling).blocks.map (fun b => b.len) =
      List.replicate 10 500 ∧
    entries (insertAll 1000 (freshIndex 10) demoFalling) = demoFalling ∧
    UnrolledLinkedList.find 1000 (insertAll 1000 (freshIndex 10) demoFalling) (demoKey 0) =
      .ok [] ∧
    UnrolledLinkedList.find 1000 (insertAll 1000 (freshIndex 10) demoFalling) (demoKey 4999) =
      .ok [] ∧
    (UnrolledLinkedList.insert 1000 (freshIndex 10) [] 0).thrown = some .inserted :=
  have h := ascending_inserts_blocks 10 (freshIndex 10) demoFalling (by decide) rfl rfl
    (by simp [demoFalling]) demoFalling_keys demoFalling_values
  ⟨⟨rfl, by simp [demoFalling], by decide, by decide⟩, demoFalling_keys,
    ⟨demoFalling_mem 0 (-1) (by decide) (by decide),
      demoFalling_mem 4999 (-5000) (by decide) (by decide)⟩,
    h.1, h.2.1,
    h.2.2.1 ⟨demoKey 0, -1⟩ (demoFalling_mem 0 (-1) (by decide) (by decide)),
    h.2.2.1 ⟨demoKey 4999, -5000⟩ (demoFalling_mem 4999 (-5000) (by decide) (by decide)),
    insert_default_throws 1000 (by decide) (freshIndex 10) rfl⟩

/-! ### Cell ids after an erase that empties a block -/

/-- C31, evaluated. From the index without blocks and the pool `1, 2, 3, 4`, with
block capacity 2, the five calls of `demoReuse` all return, carry values `>= 1`
and never find the pool empty. After the three inserts the blocks use the cells
1, 2, 3. The erase of `([1], 1)` removes the block of cell 1 and puts cell 2,
which the next block uses, into the pool. The insert of `([2], 2)` then splits
the last block into the pool's smallest cell: two blocks of the sequence have
the cell id 2, the cell of the block holding `([2], 1)` is overwritten with
`([3], 2)`, and `find([2])` no longer returns the value 1. -/
theorem live_cell_reused :
    demoIndex.blocks = [] ∧ allReturn 2 demoIndex demoReuse = true ∧
    poolHolds 2 demoIndex demoReuse = true ∧ (∀ op ∈ demoReuse, 1 ≤ op.value) ∧
    (runOps 2 demoIndex (demoReuse.take 3)).blocks.map (fun b => b.pos) = [1, 2, 3] ∧
    (runOps 2 demoIndex (demoReuse.take 3)).free_blocks = [4] ∧
    (runOps 2 demoIndex (demoReuse.take 4)).blocks.map (fun b => b.pos) = [2, 3] ∧
    (runOps 2 demoIndex (demoReuse.take 4)).free_blocks = [2, 4] ∧
    entries (runOps 2 demoIndex (demoReuse.take 4)) = [⟨[2], 1⟩, ⟨[3], 2⟩] ∧
    (runOps 2 demoIndex demoReuse).blocks.map (fun b => b.pos) = [2, 3, 2] ∧
    (runOps 2 demoIndex demoReuse).free_blocks = [4] ∧
    entries (runOps 2 demoIndex demoReuse) = [⟨[3], 2⟩, ⟨[2], 2⟩, ⟨[3], 2⟩] ∧
    UnrolledLinkedList.find 2 (runOps 2 demoIndex (demoReuse.take 4)) [2] = .ok [1] ∧
    UnrolledLinkedList.find 2 (runOps 2 demoIndex demoReuse) [2] = .ok [2] := by
  decide

/-! ### States in which the free pool holds the cell of a block -/

/-- C5, evaluated. The four returning calls `insert([2], 1)`, `insert([1], 1)`,
`insert([3], 2)`, `erase([1], 1)` with block capacity 2 leave the well-formed
index `demoFreed`, which stores `([2], 1), ([3], 2)` in the cells 2 and 3 and
whose pool is `2, 4`. The pair `([1], 5)` is not stored; `insert([1], 5)` returns,
and `insert([1], 5)` again returns as well, with no duplicate-entry error: the
split of the first call wrote both halves into cell 2, so the block that should
store `([1], 5)` reads `([2], 1)`. -/
theorem insert_twice_returns :
    allReturn 2 demoIndex (demoReuse.take 4) = true ∧
    WellFormed 2 demoFreed ∧ entries demoFreed = [⟨[2], 1⟩, ⟨[3], 2⟩] ∧
    demoFreed.blocks.map (fun b => b.pos) = [2, 3] ∧ demoFreed.free_blocks = [2, 4] ∧
    (UnrolledLinkedList.insert 2 demoFreed [1] 5).thrown = none ∧
    (UnrolledLinkedList.insert 2 demoFreed [1] 5).state.blocks.map (fun b => b.pos) = [2, 2, 3] ∧
    entries (UnrolledLinkedList.insert 2 demoFreed [1] 5).state =
      [⟨[2], 1⟩, ⟨[2], 1⟩, ⟨[3], 2⟩] ∧
    (UnrolledLinkedList.insert 2 (UnrolledLinkedList.insert 2 demoFreed [1] 5).state [1] 5).thrown =
      none := by
  decide

/-- C24, evaluated. In `demoFreed` the block of cell 2 stores `([2], 1)` and the
pool is `2, 4`: the pool's smallest id is the cell of the block. `insert([1], 5)`
brings the block to the two sorted entries `([1], 5), ([2], 1)` and calls `split`
on it with that pool. `split` gives the new block the cell id 2, the id of the
original, and writes the upper half over the lower: afterwards the original
block stores `([2], 1)`, not its first entry `([1], 5)`, and the two blocks
together no longer store the entries from before the split. -/
theorem split_into_own_cell :
    demoFreed.blocks[0]? = some ⟨⟨[2], 1⟩, ⟨[2], 1⟩, 1, 2⟩ ∧ demoFreed.free_blocks = [2, 4] ∧
    (ListBlock.insert 2 demoFreed.file ⟨⟨[2], 1⟩, ⟨[2], 1⟩, 1, 2⟩ ⟨[1], 5⟩).map
      (fun r => (r.1, stored r.2 r.1)) =
      .ok (⟨⟨[1], 5⟩, ⟨[2], 1⟩, 2, 2⟩, [⟨[1], 5⟩, ⟨[2], 1⟩]) ∧
    ((ListBlock.insert 2 demoFreed.file ⟨⟨[2], 1⟩, ⟨[2], 1⟩, 1, 2⟩ ⟨[1], 5⟩).bind fun r =>
      (split 2 r.2 demoFreed.free_blocks r.1).map fun q =>
        (q.1, q.2.1, stored q.2.2.1 q.1, stored q.2.2.1 q.2.1, q.2.2.2)) =
      .ok (⟨⟨[1], 5⟩, ⟨[1], 5⟩, 1, 2⟩, ⟨⟨[2], 1⟩, ⟨[2], 1⟩, 1, 2⟩, [⟨[2], 1⟩], [⟨[2], 1⟩], [4]) := by
  decide

/-- C25, evaluated. `demoFreed` is well formed, its pool `2, 4` is not empty, and
`insert([1], 5)` with value `5 >= 1` returns. Afterwards the first block of the
sequence has `head = tail = ([1], 5)` while its cell stores `([2], 1)`: the
cached head and tail are not the block's first and last stored entry, and the
stored entry lies above the cached tail. -/
theorem stale_head_after_insert :
    WellFormed 2 demoFreed ∧ demoFreed.free_blocks = [2, 4] ∧
    (⟨[1], 5⟩ : DataType) ∉ entries demoFreed ∧
    (UnrolledLinkedList.insert 2 demoFreed [1] 5).thrown = none ∧
    (UnrolledLinkedList.insert 2 demoFreed [1] 5).state.blocks =
      [⟨⟨[1], 5⟩, ⟨[1], 5⟩, 1, 2⟩, ⟨⟨[2], 1⟩, ⟨[2], 1⟩, 1, 2⟩, ⟨⟨[3], 2⟩, ⟨[3], 2⟩, 1, 3⟩] ∧
    (UnrolledLinkedList.insert 2 demoFreed [1] 5).state.blocks.map
      (stored (UnrolledLinkedList.insert 2 demoFreed [1] 5).state.file) =
      [[⟨[2], 1⟩], [⟨[2], 1⟩], [⟨[3], 2⟩]] := by
  decide

/-- C29, evaluated. The eight calls of `demoShare` with block capacity 4 all
return and never find the pool empty; they leave two blocks of two entries that
both use cell 2, which stores `([5], 1), ([6], 1)`. `erase([5], 1)` returns and
shortens the second block by one entry; the first block, which the call does
not touch, keeps its entry count, cell id, head and tail, but its stored
entries change from `([5], 1), ([6], 1)` to `([6], 1), ([6], 1)`. -/
theorem erase_rewrites_shared_cell :
    allReturn 4 demoIndex demoShare = true ∧ poolHolds 4 demoIndex demoShare = true ∧
    (∀ op ∈ demoShare, 1 ≤ op.value) ∧
    demoShared.blocks = [⟨⟨[3], 1⟩, ⟨[4], 1⟩, 2, 2⟩, ⟨⟨[5], 1⟩, ⟨[6], 1⟩, 2, 2⟩] ∧
    demoShared.blocks.map (stored demoShared.file) =
      [[⟨[5], 1⟩, ⟨[6], 1⟩], [⟨[5], 1⟩, ⟨[6], 1⟩]] ∧
    (UnrolledLinkedList.erase 4 demoShared [5] 1).thrown = none ∧
    (UnrolledLinkedList.erase 4 demoShared [5] 1).state.blocks =
      [⟨⟨[3], 1⟩, ⟨[4], 1⟩, 2, 2⟩, ⟨⟨[6], 1⟩, ⟨[6], 1⟩, 1, 2⟩] ∧
    (UnrolledLinkedList.erase 4 demoShared [5] 1).state.blocks.map
      (stored (UnrolledLinkedList.erase 4 demoShared [5] 1).state.file) =
      [[⟨[6], 1⟩, ⟨[6], 1⟩], [⟨[6], 1⟩]] := by
  decide

end list

/-! ## Properties of the slot store and the catalog index set -/

namespace book

open list file

/-! ### Slot store: what a write leaves and what a read returns -/

theorem slot_written_same {α : Type} [Inhabited α] (l : List α) (i : Nat) (d : α) :
    (if i < l.length then l.set i d
      else l ++ List.replicate (i - l.length) default ++ [d]).getD i default = d := by
  by_cases h : i < l.length
  · rw [if_pos h, List.getD_eq_getElem?_getD, List.getElem?_set_self h]
    rfl
  · rw [if_neg h, List.getD_eq_getElem?_getD,
      List.getElem?_append_right (by rw [List.length_append, List.length_replicate]; omega)]
    have : i - (l ++ List.replicate (i - l.length) default).length = 0 := by
      rw [List.length_append, List.length_replicate]; omega
    rw [this]
    rfl

theorem slot_written_other {α : Type} [Inhabited α] (l : List α) (i j : Nat) (d : α)
    (hne : i ≠ j) :
    (if i < l.length then l.set i d
      else l ++ List.replicate (i - l.length) default ++ [d]).getD j default =
      l.getD j default := by
  by_cases h : i < l.length
  · rw [if_pos h, List.getD_eq_getElem?_getD, List.getElem?_set_ne hne,
      List.getD_eq_getElem?_getD]
  · rw [if_neg h, List.getD_eq_getElem?_getD, List.getD_eq_getElem?_getD]
    by_cases hj : j < l.length
    · rw [List.append_assoc, List.getElem?_append_left hj]
    · rw [List.getElem?_eq_none (by omega : l.length ≤ j)]
      by_cases hj2 : j < i
      · rw [List.getElem?_append_left
            (by rw [List.length_append, List.length_replicate]; omega),
          List.getElem?_append_right (by omega), List.getElem?_replicate]
        have : j - l.length < i - l.length := by omega
        rw [if_pos this]
        rfl
      · rw [List.getElem?_eq_none (by
          rw [List.length_append, List.length_append, List.length_replicate]
          simp only [List.length_singleton]
          omega)]

theorem recordAt_insert_same {α : Type} [Inhabited α] (f : BaseFileSystem α) (p : Int) (r : α)
    (hgood : f.failed = false) (hp : 1 ≤ p) : (f.insert p r).recordAt p = r := by
  have h0 : ¬ p ≤ 0 := by omega
  have key := slot_written_same f.records (p - 1).toNat r
  have hf : ¬ f.failed = true := by rw [hgood]; simp
  unfold BaseFileSystem.insert BaseFileSystem.recordAt
  rw [if_neg h0, if_neg hf, if_neg h0]
  by_cases h : (p - 1).toNat < f.records.length
  · rw [if_pos h] at key ⊢
    exact key
  · rw [if_neg h] at key ⊢
    exact key

theorem recordAt_insert_other {α : Type} [Inhabited α] (f : BaseFileSystem α) (p q : Int) (r : α)
    (hq : q ≠ p) : (f.insert p r).recordAt q = f.recordAt q := by
  unfold BaseFileSystem.insert BaseFileSystem.recordAt
  by_cases hf : f.failed = true
  · rw [if_pos hf]
  · rw [if_neg hf]
    by_cases h0 : p ≤ 0
    · rw [if_pos h0]
    · rw [if_neg h0]
      by_cases hq0 : q ≤ 0
      · rw [if_pos hq0, if_pos hq0]
      · rw [if_neg hq0, if_neg hq0]
        have hne : (p - 1).toNat ≠ (q - 1).toNat := by omega
        have key := slot_written_other f.records (p - 1).toNat (q - 1).toNat r hne
        by_cases h : (p - 1).toNat < f.records.length
        · rw [if_pos h] at key ⊢
          exact key
        · rw [if_neg h] at key ⊢
          exact key

theorem insert_failed {α : Type} [Inhabited α] (f : BaseFileSystem α) (p : Int) (r : α)
    (hp : 1 ≤ p) : (f.insert p r).failed = f.failed := by
  have h0 : ¬ p ≤ 0 := by omega
  unfold BaseFileSystem.insert
  by_cases hf : f.failed = true
  · rw [if_pos hf]
  · rw [if_neg hf, if_neg h0]
    split_ifs <;> rfl

theorem insert_of_failed {α : Type} [Inhabited α] (f : BaseFileSystem α) (p : Int) (r : α)
    (hf : f.failed = true) : f.insert p r = f := by
  unfold BaseFileSystem.insert
  rw [if_pos hf]

theorem slot_insert_length {α : Type} [Inhabited α] (f : BaseFileSystem α) (p : Int) (r : α) :
    f.records.length ≤ (f.insert p r).records.length := by
  unfold BaseFileSystem.insert
  split_ifs
  · exact le_refl _
  · exact le_refl _
  · simp only [List.length_set]
    exact le_refl _
  · simp only [List.length_append]
    omega

/-- After a write at `p >= 1` on a stream in good state, `p` is a slot of the
file. -/
theorem insert_covers {α : Type} [Inhabited α] (f : BaseFileSystem α) (p : Int) (r : α)
    (hgood : f.failed = false) (hp : 1 ≤ p) : p ≤ (f.insert p r).records.length := by
  have h0 : ¬ p ≤ 0 := by omega
  have hf : ¬ f.failed = true := by rw [hgood]; simp
  unfold BaseFileSystem.insert
  rw [if_neg hf, if_neg h0]
  by_cases h : (p - 1).toNat < f.records.length
  · rw [if_pos h]
    simp only [List.length_set]
    omega
  · rw [if_neg h]
    simp only [List.length_append, List.length_replicate, List.length_singleton]
    omega

/-- A write inside the file leaves its length. -/
theorem insert_same_length {α : Type} [Inhabited α] (f : BaseFileSystem α) (p : Int) (r : α)
    (hp : p ≤ f.records.length) : (f.insert p r).records.length = f.records.length := by
  unfold BaseFileSystem.insert
  split_ifs with h1 h2 h3
  · rfl
  · rfl
  · simp only [List.length_set]
  · exfalso
    omega

/-- On a stream in good state, `find` returns the record the file holds at the
slot, the default record outside the file. -/
theorem find_value {α : Type} [Inhabited α] (f : BaseFileSystem α) (p : Int)
    (hgood : f.failed = false) : (f.find p).1 = f.recordAt p := by
  have hf : ¬ f.failed = true := by rw [hgood]; simp
  unfold BaseFileSystem.find BaseFileSystem.recordAt
  rw [if_neg hf]
  by_cases h0 : p ≤ 0
  · rw [if_pos h0, if_pos h0]
  · rw [if_neg h0, if_neg h0]
    by_cases h : (p - 1).toNat < f.records.length
    · rw [if_pos h]
    · rw [if_neg h, List.getD_eq_getElem?_getD, List.getElem?_eq_none (by omega)]
      rfl

/-- On a stream in good state, a read of a slot of the file leaves the stream
as it was. -/
theorem find_good {α : Type} [Inhabited α] (f : BaseFileSystem α) (p : Int)
    (hgood : f.failed = false) (hp : 1 ≤ p) (hlen : p ≤ f.records.length) :
    f.find p = (f.recordAt p, f) := by
  have h0 : ¬ p ≤ 0 := by omega
  have h : (p - 1).toNat < f.records.length := by omega
  have hf : ¬ f.failed = true := by rw [hgood]; simp
  unfold BaseFileSystem.find BaseFileSystem.recordAt
  rw [if_neg hf, if_neg h0, if_neg h0, if_pos h]

/-- On a stream in error state, `find` returns the default record. -/
theorem find_of_failed {α : Type} [Inhabited α] (f : BaseFileSystem α) (p : Int)
    (hf : f.failed = true) : f.find p = (default, f) := by
  unfold BaseFileSystem.find
  rw [if_pos hf]

/-- A read never clears the error state. -/
theorem find_stays_failed {α : Type} [Inhabited α] (f : BaseFileSystem α) (p : Int)
    (hf : f.failed = true) : (f.find p).2.failed = true := by
  rw [find_of_failed f p hf]
  exact hf

theorem recordAt_congr {α : Type} [Inhabited α] {f g : BaseFileSystem α}
    (h : f.records = g.records) (p : Int) : f.recordAt p = g.recordAt p := by
  unfold BaseFileSystem.recordAt
  rw [h]

/-- C20, as stated, fails on a stream in error state. The store holds one
record; `find(2)` reads past the end of the file and sets `failbit`. The
following `insert(2, otherBook)` writes nothing, and `find(2)` returns the
default record, not `otherBook`. -/
theorem find_after_insert_refuted :
    (⟨[demoBook], false⟩ : BaseFileSystem BookInfo).find 2 = (default, ⟨[demoBook], true⟩) ∧
    (⟨[demoBook], true⟩ : BaseFileSystem BookInfo).insert 2 otherBook = ⟨[demoBook], true⟩ ∧
    (((⟨[demoBook], true⟩ : BaseFileSystem BookInfo).insert 2 otherBook).find 2).1 = default ∧
    otherBook ≠ default := by
  decide

/-- C20, amended: slot store read-after-write on a stream in good state. For
every position `p >= 1` and record `r`, after `BaseFileSystem::insert(p, r)` the
call `find(p)` returns `r` and leaves the stream in good state, and `find(q)`
returns what it returned before for every position `q != p` (positions below 1
included): a write at `p` touches the record at `p` only. -/
theorem find_after_insert {α : Type} [Inhabited α] (f : BaseFileSystem α) (p : Int) (r : α)
    (hgood : f.failed = false) (hp : 1 ≤ p) :
    (f.insert p r).find p = (r, f.insert p r) ∧ (f.insert p r).failed = false ∧
    ∀ q : Int, q ≠ p → ((f.insert p r).find q).1 = (f.find q).1 := by
  have hg1 : (f.insert p r).failed = false := by rw [insert_failed f p r hp]; exact hgood
  refine ⟨?_, hg1, fun q hq => ?_⟩
  · rw [find_good _ p hg1 hp (insert_covers f p r hgood hp), recordAt_insert_same f p r hgood hp]
  · rw [find_value _ q hg1, find_value f q hgood]
    exact recordAt_insert_other f p q r hq

/-- C20, amended, at a concrete input: writing `otherBook` at position 3 of a
store that holds one record. -/
theorem find_after_insert_witness :
    ((⟨[demoBook], false⟩ : BaseFileSystem BookInfo).failed = false ∧ (1 : Int) ≤ 3) ∧
    (((⟨[demoBook], false⟩ : BaseFileSystem BookInfo).insert 3 otherBook).find 3).1 = otherBook ∧
    ∀ q : Int, q ≠ 3 →
      (((⟨[demoBook], false⟩ : BaseFileSystem BookInfo).insert 3 otherBook).find q).1 =
        ((⟨[demoBook], false⟩ : BaseFileSystem BookInfo).find q).1 :=
  ⟨by decide,
    congrArg Prod.fst (find_after_insert ⟨[demoBook], false⟩ 3 otherBook rfl (by decide)).1,
    (find_after_insert ⟨[demoBook], false⟩ 3 otherBook rfl (by decide)).2.2⟩

/-! ### Index tables -/

theorem mem_sorted_insert (rows : List DataType) (tmp e : DataType) :
    e ∈ (rows.takeWhile fun x => x.lt tmp) ++ tmp :: (rows.dropWhile fun x => x.lt tmp) ↔
      e = tmp ∨ e ∈ rows := by
  have h := List.takeWhile_append_dropWhile (fun x => DataType.lt x tmp) rows
  generalize List.takeWhile (fun x => DataType.lt x tmp) rows = A at h
  generalize List.dropWhile (fun x => DataType.lt x tmp) rows = B at h
  subst h
  simp only [List.mem_append, List.mem_cons]
  tauto

theorem table_insert_ok (t : Table) (key : BookStr) (value : Int)
    (h : (⟨key, value⟩ : DataType) ∉ t.rows) :
    ∃ t1, t.insert key value = .ok t1 ∧
      ∀ e, e ∈ t1.rows ↔ e = ⟨key, value⟩ ∨ e ∈ t.rows := by
  refine ⟨_, by unfold Table.insert; rw [if_neg h], fun e => ?_⟩
  exact mem_sorted_insert t.rows ⟨key, value⟩ e

theorem insertKeys_ok (pos : Int) (keys : List BookStr) :
    ∀ t : Table, keys.Nodup → (∀ k ∈ keys, (⟨k, pos⟩ : DataType) ∉ t.rows) →
      ∃ t1, insertKeys pos keys t = (none, t1) ∧
        ∀ e, e ∈ t1.rows ↔ (∃ k ∈ keys, e = ⟨k, pos⟩) ∨ e ∈ t.rows := by
  induction keys with
  | nil =>
    intro t _ _
    exact ⟨t, rfl, fun e => by simp⟩
  | cons k ks ih =>
    intro t hnd hfresh
    rw [List.nodup_cons] at hnd
    obtain ⟨t1, h1, m1⟩ := table_insert_ok t k pos (hfresh k (List.mem_cons_self _ _))
    have hfresh1 : ∀ k2 ∈ ks, (⟨k2, pos⟩ : DataType) ∉ t1.rows := by
      intro k2 hk2 hm
      rcases (m1 _).mp hm with a | a
      · have : k2 = k := congrArg DataType.key a
        exact hnd.1 (this ▸ hk2)
      · exact hfresh k2 (List.mem_cons_of_mem _ hk2) a
    obtain ⟨t2, h2, m2⟩ := ih t1 hnd.2 hfresh1
    refine ⟨t2, by simp only [insertKeys, h1, h2], fun e => ?_⟩
    rw [m2 e, m1 e]
    constructor
    · rintro (⟨k2, hk2, rfl⟩ | rfl | a)
      · exact Or.inl ⟨k2, List.mem_cons_of_mem _ hk2, rfl⟩
      · exact Or.inl ⟨k, List.mem_cons_self _ _, rfl⟩
      · exact Or.inr a
    · rintro (⟨k2, hk2, rfl⟩ | a)
      · rcases List.mem_cons.mp hk2 with b | b
        · subst b; exact Or.inr (Or.inl rfl)
        · exact Or.inl ⟨k2, b, rfl⟩
      · exact Or.inr (Or.inr a)

theorem find?_key_none {rows : List DataType} {key : IsbnStr}
    (h : rows.find? (fun e => decide (e.key = key)) = none) : ∀ e ∈ rows, e.key ≠ key := by
  intro e he
  have := List.find?_eq_none.mp h e he
  simpa using this

theorem unique_find_absent {t : UniqueTable} {key : IsbnStr}
    (h : t.find key = .error .ULL_NOT_FOUND) :
    t.rows.find? (fun e => decide (e.key = key)) = none := by
  unfold UniqueTable.find at h
  cases hf : t.rows.find? (fun e => decide (e.key = key)) with
  | none => rfl
  | some e => rw [hf] at h; simp at h

theorem unique_find_present {t : UniqueTable} {key : IsbnStr} {p : Int}
    (h : t.find key = .ok p) :
    ∃ e, t.rows.find? (fun e => decide (e.key = key)) = some e ∧ e.value = p := by
  unfold UniqueTable.find at h
  cases hf : t.rows.find? (fun e => decide (e.key = key)) with
  | none => rw [hf] at h; simp at h
  | some e =>
    rw [hf] at h
    simp only [Except.ok.injEq] at h
    exact ⟨e, rfl, h⟩

theorem unique_insert_ok (t : UniqueTable) (key : IsbnStr) (value : Int)
    (h : t.find key = .error .ULL_NOT_FOUND) :
    ∃ t1, t.insert key value = .ok t1 ∧ t1.find key = .ok value ∧
      ∀ e, e ∈ t1.rows ↔ e = ⟨key, value⟩ ∨ e ∈ t.rows := by
  have hn := unique_find_absent h
  have hall := find?_key_none hn
  refine ⟨_, by unfold UniqueTable.insert; rw [hn], ?_, fun e => ?_⟩
  · unfold UniqueTable.find
    simp only []
    have hA : ∀ e ∈ t.rows.takeWhile (fun x => x.lt ⟨key, value⟩), e.key ≠ key :=
      fun e he => hall e ((List.takeWhile_sublist _).subset he)
    have : List.find? (fun e => decide (e.key = key))
        ((t.rows.takeWhile fun x => x.lt ⟨key, value⟩) ++
          ⟨key, value⟩ :: (t.rows.dropWhile fun x => x.lt ⟨key, value⟩)) =
        some ⟨key, value⟩ := by
      rw [List.find?_append]
      have e1 : List.find? (fun e => decide (e.key = key))
          (t.rows.takeWhile fun x => x.lt ⟨key, value⟩) = none := by
        rw [List.find?_eq_none]
        intro e he
        simpa using hA e he
      rw [e1]
      simp
    rw [this]
  · exact mem_sorted_insert t.rows ⟨key, value⟩ e

/-! ### Claims on `BookFileSystem::insert` -/

/-- C9, as stated, fails. After `edit(1, keywordOnly)` on the empty catalog the
keyword index holds `("x", 1)` although no slot is allocated, and the read of
slot 1 has left the stream of the slot store in error state. The identifier "i"
is absent and `demoBook` has one keyword, yet `insert("i", demoBook)` returns
`(1, false)` with the counter already incremented and the identifier, name and
author entries added. The identifier "j" is absent too and the keyword "y" of
`otherBook` is in no index: `insert("j", otherBook)` returns `(1, true)`, but the
write is dropped and slot 1 does not read back the record. -/
theorem insert_fresh_isbn_refuted :
    (BookFileSystem.edit BookFileSystem.empty 1 keywordOnly).1 = .returned (1, true) ∧
    staleCatalog = ⟨⟨[], true⟩, ⟨[]⟩, ⟨[]⟩, ⟨[]⟩, ⟨[⟨[120], 1⟩]⟩, 0⟩ ∧
    staleCatalog.isbn_table.find [105] = .error .ULL_NOT_FOUND ∧ demoBook.keys.Nodup ∧
    (staleCatalog.insert [105] demoBook).1 = .returned (1, false) ∧
    (staleCatalog.insert [105] demoBook).2.siz = 1 ∧
    (staleCatalog.insert [105] demoBook).2.name_table.rows = [⟨[110], 1⟩] ∧
    staleCatalog.isbn_table.find [106] = .error .ULL_NOT_FOUND ∧ otherBook.keys = [[121]] ∧
    (staleCatalog.insert [106] otherBook).1 = .returned (1, true) ∧
    (staleCatalog.insert [106] otherBook).2.file.records = [] ∧
    ((staleCatalog.insert [106] otherBook).2.file.find 1).1 = default ∧
    otherBook ≠ default := by
  decide

/-- C9, amended. If `isbn` is absent from the unique index, the keywords of
`data` are pairwise distinct, the slot counter is non-negative, the stream of
the slot store is in good state and none of the pairs `(data.name, siz+1)`,
`(data.author, siz+1)`, `(data.keyword[i], siz+1)` is in its index yet, then
`insert(isbn, data)` returns `(siz+1, true)`, raises the counter by one, maps
`isbn` to `siz+1` in the unique index, adds exactly those pairs to the name,
author and keyword indexes, and the slot store returns `data` at slot `siz+1`
and what it returned before at every other slot. -/
theorem insert_fresh_isbn (s : BookFileSystem) (isbn : IsbnStr) (data : BookInfo)
    (hisbn : s.isbn_table.find isbn = .error .ULL_NOT_FOUND) (hkeys : data.keys.Nodup)
    (hsiz : 0 ≤ s.siz) (hgood : s.file.failed = false)
    (hname : (⟨data.name, s.siz + 1⟩ : DataType) ∉ s.name_table.rows)
    (hauthor : (⟨data.author, s.siz + 1⟩ : DataType) ∉ s.author_table.rows)
    (hkw : ∀ k ∈ data.keys, (⟨k, s.siz + 1⟩ : DataType) ∉ s.key_table.rows) :
    (s.insert isbn data).1 = .returned (s.siz + 1, true) ∧
    (s.insert isbn data).2.siz = s.siz + 1 ∧
    (s.insert isbn data).2.isbn_table.find isbn = .ok (s.siz + 1) ∧
    (∀ e, e ∈ (s.insert isbn data).2.isbn_table.rows ↔
      e = ⟨isbn, s.siz + 1⟩ ∨ e ∈ s.isbn_table.rows) ∧
    (∀ e, e ∈ (s.insert isbn data).2.name_table.rows ↔
      e = ⟨data.name, s.siz + 1⟩ ∨ e ∈ s.name_table.rows) ∧
    (∀ e, e ∈ (s.insert isbn data).2.author_table.rows ↔
      e = ⟨data.author, s.siz + 1⟩ ∨ e ∈ s.author_table.rows) ∧
    (∀ e, e ∈ (s.insert isbn data).2.key_table.rows ↔
      (∃ k ∈ data.keys, e = ⟨k, s.siz + 1⟩) ∨ e ∈ s.key_table.rows) ∧
    (s.insert isbn data).2.file.find (s.siz + 1) = (data, (s.insert isbn data).2.file) ∧
    (s.insert isbn data).2.file.failed = false ∧
    ∀ q, q ≠ s.siz + 1 → ((s.insert isbn data).2.file.find q).1 = (s.file.find q).1 := by
  obtain ⟨t1, h1, f1, m1⟩ := unique_insert_ok s.isbn_table isbn (s.siz + 1) hisbn
  obtain ⟨t2, h2, m2⟩ := table_insert_ok s.name_table data.name (s.siz + 1) hname
  obtain ⟨t3, h3, m3⟩ := table_insert_ok s.author_table data.author (s.siz + 1) hauthor
  obtain ⟨t4, h4, m4⟩ := insertKeys_ok (s.siz + 1) data.keys s.key_table hkeys hkw
  have hrun : s.insert isbn data = (.returned (s.siz + 1, true),
      { file := s.file.insert (s.siz + 1) data, isbn_table := t1, name_table := t2,
        author_table := t3, key_table := t4, siz := s.siz + 1 }) := by
    unfold BookFileSystem.insert
    simp only [h1, h2, h3, h4]
  rw [hrun]
  obtain ⟨r1, r2, r3⟩ := find_after_insert s.file (s.siz + 1) data hgood (by omega)
  exact ⟨rfl, rfl, f1, m1, m2, m3, m4, r1, r2, r3⟩

/-- C9, amended, at a concrete input: the record "i" added to the empty
catalog. -/
theorem insert_fresh_isbn_witness :
    (BookFileSystem.empty.isbn_table.find [105] = .error .ULL_NOT_FOUND ∧ demoBook.keys.Nodup ∧
      BookFileSystem.empty.file.failed = false) ∧
    (BookFileSystem.empty.insert [105] demoBook).1 = .returned (1, true) ∧
    (BookFileSystem.empty.insert [105] demoBook).2.file.find 1 =
      (demoBook, (BookFileSystem.empty.insert [105] demoBook).2.file) :=
  ⟨⟨by decide, by decide, by decide⟩,
    (insert_fresh_isbn BookFileSystem.empty [105] demoBook (by decide) (by decide) (by decide)
      (by decide) (by decide) (by decide) (by decide)).1,
    (insert_fresh_isbn BookFileSystem.empty [105] demoBook (by decide) (by decide) (by decide)
      (by decide) (by decide) (by decide) (by decide)).2.2.2.2.2.2.2.1⟩

/-- C10. If the unique index maps `isbn` to slot `p`, `insert(isbn, data)`
returns `(p, false)` for every record `data` and leaves the slot counter, the
four indexes and the slot store as they were. -/
theorem insert_existing_isbn (s : BookFileSystem) (isbn : IsbnStr) (data : BookInfo) (p : Int)
    (h : s.isbn_table.find isbn = .ok p) :
    s.insert isbn data = (.returned (p, false), s) := by
  obtain ⟨e, he, _⟩ := unique_find_present h
  unfold BookFileSystem.insert UniqueTable.insert
  simp only [he]
  unfold BookFileSystem.insertCatch
  simp only [if_true, h]

theorem insert_existing_isbn_witness :
    catalogOne.isbn_table.find [105] = .ok 1 ∧
    catalogOne.insert [105] keywordOnly = (.returned (1, false), catalogOne) :=
  ⟨by decide, insert_existing_isbn catalogOne [105] keywordOnly 1 (by decide)⟩

/-! ### Claims on `BookFileSystem::erase` and on refused edits -/

/-- C12: if `isbn` is not present in the unique index, `BookFileSystem::erase(isbn)`
returns `(0, false)` and leaves the slot counter, the four indexes and the slot
store unchanged. -/
theorem erase_absent_isbn (s : BookFileSystem) (isbn : IsbnStr)
    (h : s.isbn_table.find isbn = .error .ULL_NOT_FOUND) :
    s.erase isbn = (.returned (0, false), s) := by
  have hn := unique_find_absent h
  unfold BookFileSystem.erase UniqueTable.erase
  rw [hn]
  rfl

/-- C12 at a concrete input: erasing the identifier "j" from the catalog that
holds "i" only. -/
theorem erase_absent_isbn_witness :
    catalogOne.isbn_table.find [106] = .error .ULL_NOT_FOUND ∧
    catalogOne.erase [106] = (.returned (0, false), catalogOne) :=
  ⟨by decide, erase_absent_isbn catalogOne [106] (by decide)⟩

/-- C18: restocking or editing with the sentinel slot 0 is rejected. For every
other argument `BookFileSystem::import(0, q, cost)`, `BookSystem::ImportBook(0, q, cost)`
and `BookSystem::ModifyBook(0, ...)` raise the invalid-operation error and leave
the slot store, the indexes and the finance ledger as they were. -/
theorem sentinel_slot_rejected (fadd : Rat → Rat → Rat) (sys : BookSystem) (q : Int)
    (cost : Rat) (isbn : IsbnStr) (name author : BookStr) (key : List BookStr) (price : Rat) :
    sys.book_table.import_ 0 q cost = (.error .importBeforeSelect, sys.book_table) ∧
    sys.ImportBook fadd 0 q cost = (.invalid .importBeforeSelect, sys) ∧
    sys.ModifyBook 0 isbn name author key price = (.invalid .modifyBeforeSelect, sys) := by
  refine ⟨rfl, ?_, rfl⟩
  unfold BookSystem.ImportBook
  rfl

/-! ### Claims on `BookFileSystem::buy` and `BookFileSystem::import` -/

theorem wrapInt_id (x : Int) (h1 : -2147483648 ≤ x) (h2 : x ≤ 2147483647) : wrapInt x = x := by
  unfold wrapInt
  omega

/-- A record rewritten in place on a stream in good state: `erase(p)` followed by
`insert(p, d)` at a slot `p >= 1` leaves `d` at `p`, the other slots and the
good state. -/
theorem slot_rewrite (f : BaseFileSystem BookInfo) (p : Int) (d : BookInfo)
    (hgood : f.failed = false) (hp : 1 ≤ p) :
    ((f.erase p).insert p d).find p = (d, (f.erase p).insert p d) ∧
    ((f.erase p).insert p d).failed = false ∧
    (∀ q : Int, q ≠ p → (((f.erase p).insert p d).find q).1 = (f.find q).1) ∧
    (p ≤ f.records.length → ((f.erase p).insert p d).records.length = f.records.length) := by
  have hg1 : (f.erase p).failed = false := by
    unfold BaseFileSystem.erase
    rw [insert_failed f p default hp]
    exact hgood
  obtain ⟨r1, r2, r3⟩ := find_after_insert (f.erase p) p d hg1 hp
  refine ⟨r1, r2, fun q hq => ?_, fun hlen => ?_⟩
  · rw [r3 q hq]
    exact (find_after_insert f p default hgood hp).2.2 q hq
  · have e1 : (f.erase p).records.length = f.records.length :=
      insert_same_length f p default hlen
    rw [insert_same_length (f.erase p) p d (by rw [e1]; exact hlen), e1]

/-- On a stream in error state the rewrite of a record changes nothing. -/
theorem slot_rewrite_failed (f : BaseFileSystem BookInfo) (p : Int) (d : BookInfo)
    (hf : f.failed = true) : (f.erase p).insert p d = f := by
  unfold BaseFileSystem.erase
  rw [insert_of_failed f p default hf, insert_of_failed f p d hf]

/-- C16, as stated, fails. In `fullStock` the identifier "i" maps to slot 1,
whose record has price 10 and quantity `2147483647`; `buy("i", -1)` passes the
test `quantity < q`, returns `(10, true)` and stores the quantity `-2147483648`,
not `2147483647 - (-1)`. In `failedStock` slot 1 holds the record with quantity
5 and the stream is in error state: `buy("i", 3)` reads the default record and
returns `(0, false)` although `5 >= 3`. -/
theorem buy_spec_refuted :
    fullStock.isbn_table.find [105] = .ok 1 ∧
    fullStock.file = ⟨[{ demoBook with quantity := 2147483647 }], false⟩ ∧
    (fullStock.buy [105] (-1)).1 = .returned (10, true) ∧
    (fullStock.buy [105] (-1)).2.file = ⟨[{ demoBook with quantity := -2147483648 }], false⟩ ∧
    failedStock.isbn_table.find [105] = .ok 1 ∧
    failedStock.file = ⟨[{ demoBook with quantity := 5 }], true⟩ ∧
    (failedStock.buy [105] 3).1 = .returned (0, false) := by
  decide

/-- C16, amended: `BookFileSystem::buy(isbn, q)`. Let the stream of the slot
store be in good state and let `isbn` map to a slot `p` of the file, holding
record `r`. If `r.quantity >= q` and `r.quantity - q` is an `int`, the call
returns `(r.price, true)` and the record at `p` afterwards is `r` with quantity
`r.quantity - q` and every other field unchanged, the other slots reading as
before; if `r.quantity < q` it returns `(0, false)` and changes nothing. If
`isbn` is absent it returns `(0, false)` and changes nothing, whatever the
stream. No index is modified in any case, nor the counter. -/
theorem buy_spec (s : BookFileSystem) (isbn : IsbnStr) (q : Int) :
    (∀ p : Int, s.isbn_table.find isbn = .ok p → s.file.failed = false → 1 ≤ p →
      p ≤ s.file.records.length → q ≤ (s.file.recordAt p).quantity →
      (s.file.recordAt p).quantity - q ≤ 2147483647 →
      (s.buy isbn q).1 = .returned ((s.file.recordAt p).price, true) ∧
      (s.buy isbn q).2.file.find p =
        ({ s.file.recordAt p with quantity := (s.file.recordAt p).quantity - q },
          (s.buy isbn q).2.file) ∧
      (∀ p2 : Int, p2 ≠ p → ((s.buy isbn q).2.file.find p2).1 = (s.file.find p2).1)) ∧
    (s.isbn_table.find isbn = .error .ULL_NOT_FOUND → s.buy isbn q = (.returned (0, false), s)) ∧
    (∀ p : Int, s.isbn_table.find isbn = .ok p → s.file.failed = false → 1 ≤ p →
      p ≤ s.file.records.length → (s.file.recordAt p).quantity < q →
      s.buy isbn q = (.returned (0, false), s)) ∧
    (s.buy isbn q).2.isbn_table = s.isbn_table ∧ (s.buy isbn q).2.name_table = s.name_table ∧
    (s.buy isbn q).2.author_table = s.author_table ∧ (s.buy isbn q).2.key_table = s.key_table ∧
    (s.buy isbn q).2.siz = s.siz := by
  refine ⟨fun p hp hgood h1 h2 hq hhi => ?_, fun h => ?_, fun p hp hgood h1 h2 hq => ?_, ?_⟩
  · have hlt : ¬ (s.file.recordAt p).quantity < q := by omega
    have hw : wrapInt ((s.file.recordAt p).quantity - q) = (s.file.recordAt p).quantity - q :=
      wrapInt_id _ (by omega) hhi
    obtain ⟨r1, _, r3, _⟩ := slot_rewrite s.file p
      { s.file.recordAt p with quantity := (s.file.recordAt p).quantity - q } hgood h1
    unfold BookFileSystem.buy
    simp only [hp, find_good s.file p hgood h1 h2, hlt, if_false, hw]
    exact ⟨trivial, r1, r3⟩
  · unfold BookFileSystem.buy
    simp only [h, if_true]
  · unfold BookFileSystem.buy
    simp only [hp, find_good s.file p hgood h1 h2, hq, if_true]
  · unfold BookFileSystem.buy
    cases s.isbn_table.find isbn with
    | error e =>
      by_cases he : e = .ULL_NOT_FOUND
      · simp only [he, if_true, and_self]
      · simp only [he, if_false, and_self]
    | ok p =>
      by_cases hq : (s.file.find p).1.quantity < q
      · simp only [hq, if_true, and_self]
      · simp only [hq, if_false, and_self]

/-- C16, amended, the scenario of the claim: the record "i" has price 10 and
quantity 5 at slot 1; selling 3 returns 10 and leaves 2, selling 3 again fails
and changes nothing. -/
theorem buy_spec_witness :
    (stockedOne.isbn_table.find [105] = .ok 1 ∧ stockedOne.file.failed = false ∧
      (stockedOne.file.recordAt 1).price = 10 ∧ (stockedOne.file.recordAt 1).quantity = 5) ∧
    (stockedOne.buy [105] 3).1 = .returned (10, true) ∧
    ((stockedOne.buy [105] 3).2.file.find 1).1 = { demoBook with quantity := 2 } ∧
    (stockedOne.buy [105] 3).2.buy [105] 3 = (.returned (0, false), (stockedOne.buy [105] 3).2) :=
  ⟨by decide,
    ((buy_spec stockedOne [105] 3).1 1 (by decide) (by decide) (by decide) (by decide)
      (by decide) (by decide)).1,
    congrArg Prod.fst ((buy_spec stockedOne [105] 3).1 1 (by decide) (by decide) (by decide)
      (by decide) (by decide) (by decide)).2.1,
    (buy_spec (stockedOne.buy [105] 3).2 [105] 3).2.2.1 1 (by decide) (by decide) (by decide)
      (by decide) (by decide)⟩

/-- C17, as stated, fails. In `fullStock` slot 1 holds the record "i" with
quantity `2147483647`; `import(1, 1, 20)` returns `(20, true)` and stores the
quantity `-2147483648`, not `2147483647 + 1`. In `failedStock` slot 1 holds the
record with quantity 5 and the stream is in error state: `import(1, 5, 20)`
returns `(20, true)`, writes nothing, and slot 1 reads as the default record
afterwards. -/
theorem import_spec_refuted :
    fullStock.file = ⟨[{ demoBook with quantity := 2147483647 }], false⟩ ∧
    (fullStock.import_ 1 1 20).1 = .ok (20, true) ∧
    (fullStock.import_ 1 1 20).2.file = ⟨[{ demoBook with quantity := -2147483648 }], false⟩ ∧
    failedStock.file = ⟨[{ demoBook with quantity := 5 }], true⟩ ∧
    (failedStock.import_ 1 5 20).1 = .ok (20, true) ∧
    (failedStock.import_ 1 5 20).2.file = ⟨[{ demoBook with quantity := 5 }], true⟩ ∧
    ((failedStock.import_ 1 5 20).2.file.find 1).1 = default := by
  decide

/-- C17, amended: let the stream of the slot store be in good state. For every
slot `pos` of the file, holding record `r` with `r.quantity + q` an `int`,
`BookFileSystem::import(pos, q, cost)` returns `(cost, true)` and the record at
`pos` afterwards is `r` with quantity `r.quantity + q` and identifier, name,
author, keywords and price unchanged; the records at the other slots, the four
indexes and the counter are unchanged. -/
theorem import_spec (s : BookFileSystem) (pos q : Int) (cost : Rat)
    (hgood : s.file.failed = false) (hpos : 1 ≤ pos) (hlen : pos ≤ s.file.records.length)
    (hlo : -2147483648 ≤ (s.file.recordAt pos).quantity + q)
    (hhi : (s.file.recordAt pos).quantity + q ≤ 2147483647) :
    (s.import_ pos q cost).1 = .ok (cost, true) ∧
    (s.import_ pos q cost).2.file.find pos =
      ({ s.file.recordAt pos with quantity := (s.file.recordAt pos).quantity + q },
        (s.import_ pos q cost).2.file) ∧
    (∀ p2 : Int, p2 ≠ pos → ((s.import_ pos q cost).2.file.find p2).1 = (s.file.find p2).1) ∧
    (s.import_ pos q cost).2.file.records.length = s.file.records.length ∧
    (s.import_ pos q cost).2.isbn_table = s.isbn_table ∧
    (s.import_ pos q cost).2.name_table = s.name_table ∧
    (s.import_ pos q cost).2.author_table = s.author_table ∧
    (s.import_ pos q cost).2.key_table = s.key_table ∧
    (s.import_ pos q cost).2.siz = s.siz := by
  have h0 : pos ≠ 0 := by omega
  have hw := wrapInt_id _ hlo hhi
  obtain ⟨r1, _, r3, r4⟩ := slot_rewrite s.file pos
    { s.file.recordAt pos with quantity := (s.file.recordAt pos).quantity + q } hgood hpos
  unfold BookFileSystem.import_
  simp only [h0, if_false, find_good s.file pos hgood hpos hlen, hw]
  simp only [true_and, and_true]
  exact ⟨r1, r3, r4 hlen⟩

/-- C17, amended, at a concrete input: restocking 5 copies of the record "i" at
slot 1. -/
theorem import_spec_witness :
    (catalogOne.file.failed = false ∧ (1 : Int) ≤ 1 ∧ catalogOne.file.recordAt 1 = demoBook) ∧
    (catalogOne.import_ 1 5 20).1 = .ok (20, true) ∧
    ((catalogOne.import_ 1 5 20).2.file.find 1).1 = { demoBook with quantity := 5 } :=
  ⟨by decide,
    (import_spec catalogOne 1 5 20 (by decide) (by decide) (by decide) (by decide)
      (by decide)).1,
    congrArg Prod.fst (import_spec catalogOne 1 5 20 (by decide) (by decide) (by decide)
      (by decide) (by decide)).2.1⟩

/-- C11: the code evaluated where it departs from the claim. In `catalogTwo`
the indexes are in order and mirror both slots, "i" maps to slot 1 and the
counter is 2. `erase("i")` removes the identifier, name and author entries of
slot 1, then asks the keyword index to erase `("x", 2)`, the counter in place
of the slot; that pair is absent, the handler returns `(0, false)`, and the
keyword entry `("x", 1)` and the record at slot 1 stay. In `catalogShared`,
where slot 2 carries the keyword "x" too, the call returns `(1, true)` after
erasing the entry `("x", 2)` of slot 2 and keeping `("x", 1)`. Erasing the
latest slot, where the counter equals the slot, does what the claim says. -/
theorem erase_older_slot_evaluated :
    (IndexOK catalogTwo ∧ Mirrored catalogTwo 1 ∧ Mirrored catalogTwo 2) ∧
    catalogTwo.isbn_table.find [105] = .ok 1 ∧ catalogTwo.file.find 1 = (demoBook, catalogTwo.file) ∧
    catalogTwo.siz = 2 ∧
    catalogTwo.erase [105] =
      (.returned (0, false),
        ⟨⟨[demoBook, otherBook], false⟩, ⟨[⟨[106], 2⟩]⟩, ⟨[⟨[109], 2⟩]⟩, ⟨[⟨[98], 2⟩]⟩,
          ⟨[⟨[120], 1⟩, ⟨[121], 2⟩]⟩, 2⟩) ∧
    (IndexOK catalogShared ∧ Mirrored catalogShared 1 ∧ Mirrored catalogShared 2) ∧
    catalogShared.erase [105] =
      (.returned (1, true),
        ⟨⟨[default, sharingBook], false⟩, ⟨[⟨[107], 2⟩]⟩, ⟨[⟨[109], 2⟩]⟩, ⟨[⟨[98], 2⟩]⟩,
          ⟨[⟨[120], 1⟩]⟩, 2⟩) ∧
    catalogTwo.erase [106] =
      (.returned (2, true),
        ⟨⟨[demoBook, default], false⟩, ⟨[⟨[105], 1⟩]⟩, ⟨[⟨[110], 1⟩]⟩, ⟨[⟨[97], 1⟩]⟩,
          ⟨[⟨[120], 1⟩]⟩, 2⟩) := by
  decide

/-! ### Claims on the secondary searches -/

theorem isbnLess_asymm (a b : BookInfo) (h : isbnLess a b = true) : isbnLess b a = false :=
  key_lt_asymm h

theorem isbnLess_neg (a b c : BookInfo) (h : isbnLess a c = true) :
    isbnLess a b = true ∨ isbnLess b c = true := by
  unfold isbnLess at *
  rcases key_lt_trichotomy a.isbn b.isbn with h1 | h1 | h1
  · exact Or.inl h1
  · rw [← h1]; exact Or.inr h
  · exact Or.inr (key_lt_trans h1 h)

theorem sorted_insert_perm (rows : List DataType) (tmp : DataType) :
    ((rows.takeWhile fun x => x.lt tmp) ++ tmp :: (rows.dropWhile fun x => x.lt tmp)).Perm
      (tmp :: rows) := by
  have h := List.takeWhile_append_dropWhile (fun x => DataType.lt x tmp) rows
  generalize List.takeWhile (fun x => DataType.lt x tmp) rows = A at h
  generalize List.dropWhile (fun x => DataType.lt x tmp) rows = B at h
  subst h
  exact List.perm_middle

theorem table_insert_inv {t t1 : Table} {key : BookStr} {value : Int}
    (h : t.insert key value = .ok t1) :
    (⟨key, value⟩ : DataType) ∉ t.rows ∧ t1.rows.Perm (⟨key, value⟩ :: t.rows) := by
  unfold Table.insert at h
  by_cases hm : (⟨key, value⟩ : DataType) ∈ t.rows
  · rw [if_pos hm] at h; cases h
  · rw [if_neg hm] at h
    simp only [Except.ok.injEq] at h
    subst h
    exact ⟨hm, sorted_insert_perm _ _⟩

theorem table_erase_inv {t t1 : Table} {key : BookStr} {value : Int}
    (h : t.erase key value = .ok t1) :
    (⟨key, value⟩ : DataType) ∈ t.rows ∧ t1.rows = t.rows.erase ⟨key, value⟩ := by
  unfold Table.erase at h
  by_cases hm : (⟨key, value⟩ : DataType) ∈ t.rows
  · rw [if_pos hm] at h
    simp only [Except.ok.injEq] at h
    subst h
    exact ⟨hm, rfl⟩
  · rw [if_neg hm] at h; cases h

/-- A successful `erase(old, pos)` followed by a successful `insert(new, pos)`
on a table without repeated pairs: the pair `(old, pos)` is replaced by
`(new, pos)` and no pair is repeated. -/
theorem table_replace {t t1 t2 : Table} {old new : BookStr} {pos : Int}
    (hnd : t.rows.Nodup) (he : t.erase old pos = .ok t1) (hi : t1.insert new pos = .ok t2) :
    t2.rows.Nodup ∧
      ∀ e, e ∈ t2.rows ↔ e = ⟨new, pos⟩ ∨ (e ∈ t.rows ∧ e ≠ ⟨old, pos⟩) := by
  obtain ⟨_, e1⟩ := table_erase_inv he
  obtain ⟨hfresh, hperm⟩ := table_insert_inv hi
  have hnd1 : t1.rows.Nodup := by rw [e1]; exact hnd.erase _
  refine ⟨hperm.nodup_iff.mpr (List.nodup_cons.mpr ⟨hfresh, hnd1⟩), fun e => ?_⟩
  rw [hperm.mem_iff, List.mem_cons, e1, hnd.mem_erase_iff]
  tauto

theorem eraseKeys_inv (pos : Int) (keys : List BookStr) :
    ∀ t t1 : Table, t.rows.Nodup → eraseKeys pos keys t = (none, t1) →
      t1.rows.Nodup ∧ ∀ e, e ∈ t1.rows ↔ e ∈ t.rows ∧ ¬ (e.value = pos ∧ e.key ∈ keys) := by
  induction keys with
  | nil =>
    intro t t1 hnd h
    simp only [eraseKeys, Prod.mk.injEq, true_and] at h
    subst h
    exact ⟨hnd, fun e => by simp⟩
  | cons k ks ih =>
    intro t t1 hnd h
    unfold eraseKeys at h
    cases he : t.erase k pos with
    | error x => rw [he] at h; simp at h
    | ok t0 =>
      rw [he] at h
      simp only at h
      obtain ⟨_, e0⟩ := table_erase_inv he
      have hnd0 : t0.rows.Nodup := by rw [e0]; exact hnd.erase _
      obtain ⟨hnd1, m1⟩ := ih t0 t1 hnd0 h
      refine ⟨hnd1, fun e => ?_⟩
      rw [m1 e, e0, hnd.mem_erase_iff, List.mem_cons]
      constructor
      · rintro ⟨⟨hne, hm⟩, hn⟩
        refine ⟨hm, ?_⟩
        rintro ⟨hv, hk | hk⟩
        · apply hne
          cases e
          simp only at hv hk
          rw [hv, hk]
        · exact hn ⟨hv, hk⟩
      · rintro ⟨hm, hn⟩
        refine ⟨⟨?_, hm⟩, fun ⟨hv, hk⟩ => hn ⟨hv, Or.inr hk⟩⟩
        rintro rfl
        exact hn ⟨rfl, Or.inl rfl⟩

theorem insertKeys_inv (pos : Int) (keys : List BookStr) :
    ∀ t t1 : Table, t.rows.Nodup → insertKeys pos keys t = (none, t1) →
      t1.rows.Nodup ∧ ∀ e, e ∈ t1.rows ↔ (e.value = pos ∧ e.key ∈ keys) ∨ e ∈ t.rows := by
  induction keys with
  | nil =>
    intro t t1 hnd h
    simp only [insertKeys, Prod.mk.injEq, true_and] at h
    subst h
    exact ⟨hnd, fun e => by simp⟩
  | cons k ks ih =>
    intro t t1 hnd h
    unfold insertKeys at h
    cases he : t.insert k pos with
    | error x => rw [he] at h; simp at h
    | ok t0 =>
      rw [he] at h
      simp only at h
      obtain ⟨hfresh, hperm⟩ := table_insert_inv he
      have hnd0 : t0.rows.Nodup := hperm.nodup_iff.mpr (List.nodup_cons.mpr ⟨hfresh, hnd⟩)
      obtain ⟨hnd1, m1⟩ := ih t0 t1 hnd0 h
      refine ⟨hnd1, fun e => ?_⟩
      rw [m1 e, hperm.mem_iff, List.mem_cons, List.mem_cons]
      constructor
      · rintro (⟨hv, hk⟩ | rfl | hm)
        · exact Or.inl ⟨hv, Or.inr hk⟩
        · exact Or.inl ⟨rfl, Or.inl rfl⟩
        · exact Or.inr hm
      · rintro (⟨hv, hk | hk⟩ | hm)
        · right; left
          cases e
          simp only at hv hk
          rw [hv, hk]
        · exact Or.inl ⟨hv, hk⟩
        · exact Or.inr (Or.inr hm)

/-! ### The unique index: what a successful call leaves -/

theorem keys_unique {rows : List DataType} (h : rows.Pairwise fun a b => a.key ≠ b.key)
    {a b : DataType} (ha : a ∈ rows) (hb : b ∈ rows) (hk : a.key = b.key) : a = b :=
  List.inj_on_of_nodup_map (List.pairwise_map.mpr h) ha hb hk

theorem keys_unique_nodup {rows : List DataType}
    (h : rows.Pairwise fun a b => a.key ≠ b.key) : rows.Nodup :=
  h.imp fun hab e => hab (congrArg DataType.key e)

theorem unique_find_none_of {t : UniqueTable} {key : IsbnStr}
    (h : ∀ e ∈ t.rows, e.key ≠ key) : t.find key = .error .ULL_NOT_FOUND := by
  have hn : t.rows.find? (fun e => decide (e.key = key)) = none := by
    rw [List.find?_eq_none]
    intro e he
    simpa using h e he
  unfold UniqueTable.find
  rw [hn]

theorem unique_find_of_mem {t : UniqueTable} {key : IsbnStr} {p : Int}
    (hu : t.rows.Pairwise fun a b => a.key ≠ b.key) (hm : (⟨key, p⟩ : DataType) ∈ t.rows) :
    t.find key = .ok p := by
  unfold UniqueTable.find
  cases hf : t.rows.find? (fun e => decide (e.key = key)) with
  | none => exact absurd rfl (find?_key_none hf _ hm)
  | some e =>
    have hk : e.key = key := by simpa using List.find?_some hf
    have := keys_unique hu (List.mem_of_find?_eq_some hf) hm hk
    rw [this]

theorem unique_find_mem {t : UniqueTable} {key : IsbnStr} {p : Int} (h : t.find key = .ok p) :
    (⟨key, p⟩ : DataType) ∈ t.rows := by
  obtain ⟨e, hf, hv⟩ := unique_find_present h
  have hk : e.key = key := by simpa using List.find?_some hf
  have hm := List.mem_of_find?_eq_some hf
  cases e
  simp only at hk hv
  rw [← hk, ← hv]
  exact hm

theorem unique_erase_inv {t t1 : UniqueTable} {key : IsbnStr} {v : Int}
    (h : t.erase key = .ok (v, t1)) :
    ∃ e, e ∈ t.rows ∧ e.key = key ∧ e.value = v ∧ t1.rows = t.rows.erase e := by
  unfold UniqueTable.erase at h
  cases hf : t.rows.find? (fun e => decide (e.key = key)) with
  | none => rw [hf] at h; cases h
  | some e =>
    rw [hf] at h
    simp only [Except.ok.injEq, Prod.mk.injEq] at h
    obtain ⟨hv, ht⟩ := h
    subst ht
    exact ⟨e, List.mem_of_find?_eq_some hf, by simpa using List.find?_some hf, hv, rfl⟩

theorem unique_insert_inv {t t1 : UniqueTable} {key : IsbnStr} {value : Int}
    (h : t.insert key value = .ok t1) :
    (∀ e ∈ t.rows, e.key ≠ key) ∧ t1.rows.Perm (⟨key, value⟩ :: t.rows) := by
  unfold UniqueTable.insert at h
  cases hf : t.rows.find? (fun e => decide (e.key = key)) with
  | some e => rw [hf] at h; cases h
  | none =>
    rw [hf] at h
    simp only [Except.ok.injEq] at h
    subst h
    exact ⟨find?_key_none hf, sorted_insert_perm _ _⟩

/-- A successful `erase(old)` followed by a successful `insert(new, pos)` on a
unique index with one entry per key: the entry of `old` is replaced by
`new -> pos` and the keys stay distinct. -/
theorem unique_replace {t t1 t2 : UniqueTable} {old new : IsbnStr} {pos v : Int}
    (hu : t.rows.Pairwise fun a b => a.key ≠ b.key) (he : t.erase old = .ok (v, t1))
    (hi : t1.insert new pos = .ok t2) :
    (t2.rows.Pairwise fun a b => a.key ≠ b.key) ∧
      ∀ e, e ∈ t2.rows ↔ e = ⟨new, pos⟩ ∨ (e ∈ t.rows ∧ e.key ≠ old) := by
  obtain ⟨e0, hm0, hk0, _, e1⟩ := unique_erase_inv he
  obtain ⟨hfresh, hperm⟩ := unique_insert_inv hi
  have hu1 : t1.rows.Pairwise fun a b => a.key ≠ b.key := by
    rw [e1]; exact hu.sublist (List.erase_sublist _ _)
  refine ⟨(hperm.pairwise_iff (fun h => Ne.symm h)).mpr
    (List.pairwise_cons.mpr ⟨fun e he => (hfresh e he).symm, hu1⟩), fun e => ?_⟩
  rw [hperm.mem_iff, List.mem_cons, e1, (keys_unique_nodup hu).mem_erase_iff]
  constructor
  · rintro (h | ⟨hne, hm⟩)
    · exact Or.inl h
    · exact Or.inr ⟨hm, fun hk => hne (keys_unique hu hm hm0 (hk.trans hk0.symm))⟩
  · rintro (h | ⟨hm, hk⟩)
    · exact Or.inl h
    · exact Or.inr ⟨fun h => hk (h ▸ hk0), hm⟩

/-! ### The steps of `BookFileSystem::edit` -/

/-- `edit` is the read of slot `pos` followed by the rest of its body. -/
theorem edit_steps (s : BookFileSystem) (pos : Int) (data : BookInfo) :
    s.edit pos data =
      ({ s with file := (s.file.find pos).2 } : BookFileSystem).editFrom pos data
        (s.file.find pos).1 := rfl

/-- When slot `pos` is in the file and the stream in good state, `edit` is the
rest of its body on the catalog as it was, with the record of the slot. -/
theorem edit_of_good (s : BookFileSystem) (pos : Int) (data : BookInfo)
    (hgood : s.file.failed = false) (h1 : 1 ≤ pos) (h2 : pos ≤ s.file.records.length) :
    s.edit pos data = s.editFrom pos data (s.file.recordAt pos) := by
  rw [edit_steps, find_good s.file pos hgood h1 h2]

theorem editIsbn_ok {s s1 : BookFileSystem} {pos : Int} {data tmp tmp1 : BookInfo}
    (h : s.editIsbn pos data tmp = .ok (s1, tmp1)) :
    tmp1 = { tmp with isbn := if data.isbn ≠ [] then data.isbn else tmp.isbn } ∧
    ∃ ti, s1 = { s with isbn_table := ti } ∧
      ((data.isbn = [] ∧ ti = s.isbn_table) ∨
        (data.isbn ≠ [] ∧ s.isbn_table.find data.isbn = .error .ULL_NOT_FOUND ∧
          ∃ v t1, s.isbn_table.erase tmp.isbn = .ok (v, t1) ∧
            t1.insert data.isbn pos = .ok ti)) := by
  unfold BookFileSystem.editIsbn at h
  by_cases hb : data.isbn = []
  · rw [if_neg (not_not.mpr hb)] at h
    simp only [Except.ok.injEq, Prod.mk.injEq] at h
    obtain ⟨rfl, rfl⟩ := h
    exact ⟨by rw [if_neg (not_not.mpr hb)], s.isbn_table, rfl, Or.inl ⟨hb, rfl⟩⟩
  · rw [if_pos hb] at h
    cases hf : s.isbn_table.find data.isbn with
    | ok p => rw [hf] at h; cases h
    | error e =>
      rw [hf] at h
      cases e with
      | ULL_INSERTED => cases h
      | ULL_ERASE_NOT_FOUND => cases h
      | ULL_NOT_FOUND =>
        simp only at h
        cases he : s.isbn_table.erase tmp.isbn with
        | error e => rw [he] at h; cases h
        | ok r =>
          obtain ⟨v, t1⟩ := r
          rw [he] at h
          simp only at h
          cases hi : t1.insert data.isbn pos with
          | error e => rw [hi] at h; cases h
          | ok t2 =>
            rw [hi] at h
            simp only [Except.ok.injEq, Prod.mk.injEq] at h
            obtain ⟨rfl, rfl⟩ := h
            exact ⟨by rw [if_pos hb], t2, rfl, Or.inr ⟨hb, rfl, v, t1, rfl, hi⟩⟩

theorem editIsbn_error {s : BookFileSystem} {pos : Int} {data tmp : BookInfo}
    {x : Ended (Int × Bool) × BookFileSystem} (h : s.editIsbn pos data tmp = .error x) :
    ∀ p b, x.1 = .returned (p, b) → p = pos ∧ b = false := by
  intro p b hx
  unfold BookFileSystem.editIsbn at h
  by_cases hb : data.isbn = []
  · rw [if_neg (not_not.mpr hb)] at h; cases h
  · rw [if_pos hb] at h
    cases hf : s.isbn_table.find data.isbn with
    | ok p0 =>
      rw [hf] at h
      simp only [Except.error.injEq] at h
      subst h
      simp only [Ended.returned.injEq, Prod.mk.injEq] at hx
      exact ⟨hx.1.symm, hx.2.symm⟩
    | error e =>
      rw [hf] at h
      cases e with
      | ULL_INSERTED => simp only [Except.error.injEq] at h; subst h; cases hx
      | ULL_ERASE_NOT_FOUND => simp only [Except.error.injEq] at h; subst h; cases hx
      | ULL_NOT_FOUND =>
        simp only at h
        cases he : s.isbn_table.erase tmp.isbn with
        | error e => rw [he] at h; simp only [Except.error.injEq] at h; subst h; cases hx
        | ok r =>
          obtain ⟨v, t1⟩ := r
          rw [he] at h
          simp only at h
          cases hi : t1.insert data.isbn pos with
          | error e => rw [hi] at h; simp only [Except.error.injEq] at h; subst h; cases hx
          | ok t2 => rw [hi] at h; cases h
theorem editName_ok {s s1 : BookFileSystem} {pos : Int} {data tmp tmp1 : BookInfo}
    (h : s.editName pos data tmp = .ok (s1, tmp1)) :
    tmp1 = { tmp with name := if data.name ≠ [] then data.name else tmp.name } ∧
    ∃ tn, s1 = { s with name_table := tn } ∧
      ((data.name = [] ∧ tn = s.name_table) ∨
        (data.name ≠ [] ∧ ∃ t1, s.name_table.erase tmp.name pos = .ok t1 ∧
          t1.insert data.name pos = .ok tn)) := by
  unfold BookFileSystem.editName at h
  by_cases hb : data.name = []
  · rw [if_neg (not_not.mpr hb)] at h
    simp only [Except.ok.injEq, Prod.mk.injEq] at h
    obtain ⟨rfl, rfl⟩ := h
    exact ⟨by rw [if_neg (not_not.mpr hb)], s.name_table, rfl, Or.inl ⟨hb, rfl⟩⟩
  · rw [if_pos hb] at h
    cases he : s.name_table.erase tmp.name pos with
    | error e => rw [he] at h; cases h
    | ok t1 =>
      rw [he] at h
      simp only at h
      cases hi : t1.insert data.name pos with
      | error e => rw [hi] at h; cases h
      | ok t2 =>
        rw [hi] at h
        simp only [Except.ok.injEq, Prod.mk.injEq] at h
        obtain ⟨rfl, rfl⟩ := h
        exact ⟨by rw [if_pos hb], t2, rfl, Or.inr ⟨hb, t1, rfl, hi⟩⟩

theorem editName_error {s : BookFileSystem} {pos : Int} {data tmp : BookInfo}
    {x : Ended (Int × Bool) × BookFileSystem} (h : s.editName pos data tmp = .error x) :
    ∀ r, x.1 ≠ .returned r := by
  intro r hx
  unfold BookFileSystem.editName at h
  by_cases hb : data.name = []
  · rw [if_neg (not_not.mpr hb)] at h; cases h
  · rw [if_pos hb] at h
    cases he : s.name_table.erase tmp.name pos with
    | error e => rw [he] at h; simp only [Except.error.injEq] at h; subst h; cases hx
    | ok t1 =>
      rw [he] at h
      simp only at h
      cases hi : t1.insert data.name pos with
      | error e => rw [hi] at h; simp only [Except.error.injEq] at h; subst h; cases hx
      | ok t2 => rw [hi] at h; cases h

theorem editAuthor_ok {s s1 : BookFileSystem} {pos : Int} {data tmp tmp1 : BookInfo}
    (h : s.editAuthor pos data tmp = .ok (s1, tmp1)) :
    tmp1 = { tmp with author := if data.author ≠ [] then data.author else tmp.author } ∧
    ∃ ta, s1 = { s with author_table := ta } ∧
      ((data.author = [] ∧ ta = s.author_table) ∨
        (data.author ≠ [] ∧ ∃ t1, s.author_table.erase tmp.author pos = .ok t1 ∧
          t1.insert data.author pos = .ok ta)) := by
  unfold BookFileSystem.editAuthor at h
  by_cases hb : data.author = []
  · rw [if_neg (not_not.mpr hb)] at h
    simp only [Except.ok.injEq, Prod.mk.injEq] at h
    obtain ⟨rfl, rfl⟩ := h
    exact ⟨by rw [if_neg (not_not.mpr hb)], s.author_table, rfl, Or.inl ⟨hb, rfl⟩⟩
  · rw [if_pos hb] at h
    cases he : s.author_table.erase tmp.author pos with
    | error e => rw [he] at h; cases h
    | ok t1 =>
      rw [he] at h
      simp only at h
      cases hi : t1.insert data.author pos with
      | error e => rw [hi] at h; cases h
      | ok t2 =>
        rw [hi] at h
        simp only [Except.ok.injEq, Prod.mk.injEq] at h
        obtain ⟨rfl, rfl⟩ := h
        exact ⟨by rw [if_pos hb], t2, rfl, Or.inr ⟨hb, t1, rfl, hi⟩⟩

theorem editAuthor_error {s : BookFileSystem} {pos : Int} {data tmp : BookInfo}
    {x : Ended (Int × Bool) × BookFileSystem} (h : s.editAuthor pos data tmp = .error x) :
    ∀ r, x.1 ≠ .returned r := by
  intro r hx
  unfold BookFileSystem.editAuthor at h
  by_cases hb : data.author = []
  · rw [if_neg (not_not.mpr hb)] at h; cases h
  · rw [if_pos hb] at h
    cases he : s.author_table.erase tmp.author pos with
    | error e => rw [he] at h; simp only [Except.error.injEq] at h; subst h; cases hx
    | ok t1 =>
      rw [he] at h
      simp only at h
      cases hi : t1.insert data.author pos with
      | error e => rw [hi] at h; simp only [Except.error.injEq] at h; subst h; cases hx
      | ok t2 => rw [hi] at h; cases h

theorem editKeys_ok {s s1 : BookFileSystem} {pos : Int} {data tmp tmp1 : BookInfo}
    (h : s.editKeys pos data tmp = .ok (s1, tmp1)) :
    tmp1 = { tmp with
      keyword := if data.keyword_cnt ≠ 0 then data.keyword else tmp.keyword
      keyword_cnt := if data.keyword_cnt ≠ 0 then data.keyword_cnt else tmp.keyword_cnt } ∧
    ∃ tk, s1 = { s with key_table := tk } ∧
      ((data.keyword_cnt = 0 ∧ tk = s.key_table) ∨
        (data.keyword_cnt ≠ 0 ∧ ∃ t1, eraseKeys pos tmp.keys s.key_table = (none, t1) ∧
          insertKeys pos data.keys t1 = (none, tk))) := by
  unfold BookFileSystem.editKeys at h
  by_cases hb : data.keyword_cnt = 0
  · rw [if_neg (not_not.mpr hb)] at h
    simp only [Except.ok.injEq, Prod.mk.injEq] at h
    obtain ⟨rfl, rfl⟩ := h
    exact ⟨by rw [if_neg (not_not.mpr hb), if_neg (not_not.mpr hb)], s.key_table, rfl,
      Or.inl ⟨hb, rfl⟩⟩
  · rw [if_pos hb] at h
    cases he : eraseKeys pos tmp.keys s.key_table with
    | mk o t1 =>
      rw [he] at h
      cases o with
      | some e => cases h
      | none =>
        simp only at h
        cases hi : insertKeys pos data.keys t1 with
        | mk o2 t2 =>
          rw [hi] at h
          cases o2 with
          | some e => cases h
          | none =>
            simp only [Except.ok.injEq, Prod.mk.injEq] at h
            obtain ⟨rfl, rfl⟩ := h
            exact ⟨by rw [if_pos hb, if_pos hb], t2, rfl, Or.inr ⟨hb, t1, rfl, hi⟩⟩

theorem editKeys_error {s : BookFileSystem} {pos : Int} {data tmp : BookInfo}
    {x : Ended (Int × Bool) × BookFileSystem} (h : s.editKeys pos data tmp = .error x) :
    ∀ r, x.1 ≠ .returned r := by
  intro r hx
  unfold BookFileSystem.editKeys at h
  by_cases hb : data.keyword_cnt = 0
  · rw [if_neg (not_not.mpr hb)] at h; cases h
  · rw [if_pos hb] at h
    cases he : eraseKeys pos tmp.keys s.key_table with
    | mk o t1 =>
      rw [he] at h
      cases o with
      | some e => simp only [Except.error.injEq] at h; subst h; cases hx
      | none =>
        simp only at h
        cases hi : insertKeys pos data.keys t1 with
        | mk o2 t2 =>
          rw [hi] at h
          cases o2 with
          | some e => simp only [Except.error.injEq] at h; subst h; cases hx
          | none => cases h

theorem editWrite_eq (s : BookFileSystem) (pos : Int) (data tmp : BookInfo) :
    s.editWrite pos data tmp =
      (.returned (pos, true), { s with file := (s.file.erase pos).insert pos ({ tmp with
        price := if data.price ≠ -1 then data.price else tmp.price }) }) := by
  unfold BookFileSystem.editWrite
  by_cases hp : data.price = -1
  · simp only [hp, ne_eq, not_true_eq_false, if_false]
  · simp only [hp, ne_eq, not_false_eq_true, if_true]

theorem editFrom_returned_pos {s : BookFileSystem} {pos : Int} {data tmp : BookInfo} {p : Int}
    {b : Bool} (h : (s.editFrom pos data tmp).1 = .returned (p, b)) : p = pos := by
  unfold BookFileSystem.editFrom at h
  cases h1 : s.editIsbn pos data tmp with
  | error x => rw [h1] at h; exact (editIsbn_error h1 p b h).1
  | ok r1 =>
    obtain ⟨s1, tmp1⟩ := r1
    rw [h1] at h
    simp only at h
    cases h2 : s1.editName pos data tmp1 with
    | error x => rw [h2] at h; exact absurd h (editName_error h2 _)
    | ok r2 =>
      obtain ⟨s2, tmp2⟩ := r2
      rw [h2] at h
      simp only at h
      cases h3 : s2.editAuthor pos data tmp2 with
      | error x => rw [h3] at h; exact absurd h (editAuthor_error h3 _)
      | ok r3 =>
        obtain ⟨s3, tmp3⟩ := r3
        rw [h3] at h
        simp only at h
        cases h4 : s3.editKeys pos data tmp3 with
        | error x => rw [h4] at h; exact absurd h (editKeys_error h4 _)
        | ok r4 =>
          obtain ⟨s4, tmp4⟩ := r4
          rw [h4] at h
          simp only [editWrite_eq, Ended.returned.injEq, Prod.mk.injEq] at h
          exact h.1.symm

theorem editFrom_true_steps {s : BookFileSystem} {pos : Int} {data tmp : BookInfo}
    (h : (s.editFrom pos data tmp).1 = .returned (pos, true)) :
    ∃ s1 tmp1 s2 tmp2 s3 tmp3 s4 tmp4,
      s.editIsbn pos data tmp = .ok (s1, tmp1) ∧
      s1.editName pos data tmp1 = .ok (s2, tmp2) ∧
      s2.editAuthor pos data tmp2 = .ok (s3, tmp3) ∧
      s3.editKeys pos data tmp3 = .ok (s4, tmp4) ∧
      s.editFrom pos data tmp = s4.editWrite pos data tmp4 := by
  unfold BookFileSystem.editFrom at h ⊢
  cases h1 : s.editIsbn pos data tmp with
  | error x =>
    rw [h1] at h
    have := (editIsbn_error h1 pos true h).2
    cases this
  | ok r1 =>
    obtain ⟨s1, tmp1⟩ := r1
    rw [h1] at h
    simp only at h ⊢
    cases h2 : s1.editName pos data tmp1 with
    | error x => rw [h2] at h; exact absurd h (editName_error h2 _)
    | ok r2 =>
      obtain ⟨s2, tmp2⟩ := r2
      rw [h2] at h
      simp only at h ⊢
      cases h3 : s2.editAuthor pos data tmp2 with
      | error x => rw [h3] at h; exact absurd h (editAuthor_error h3 _)
      | ok r3 =>
        obtain ⟨s3, tmp3⟩ := r3
        rw [h3] at h
        simp only at h ⊢
        cases h4 : s3.editKeys pos data tmp3 with
        | error x => rw [h4] at h; exact absurd h (editKeys_error h4 _)
        | ok r4 =>
          obtain ⟨s4, tmp4⟩ := r4
          exact ⟨s1, tmp1, s2, tmp2, s3, tmp3, s4, tmp4, rfl, h2, h3, h4, rfl⟩

/-- What a successful `edit` leaves, as a function of the record `tmp` it read:
the record written at `pos` is `tmp` updated, and each index went through its
step, either untouched or with the old entry of `pos` exchanged for the new
one. -/
theorem editFrom_success {s : BookFileSystem} {pos : Int} {data tmp : BookInfo}
    (h : (s.editFrom pos data tmp).1 = .returned (pos, true)) :
    ∃ ti tn ta tk,
      s.editFrom pos data tmp = (.returned (pos, true),
        ⟨(s.file.erase pos).insert pos (tmp.updated data), ti, tn, ta, tk, s.siz⟩) ∧
      ((data.isbn = [] ∧ ti = s.isbn_table) ∨
        (data.isbn ≠ [] ∧ s.isbn_table.find data.isbn = .error .ULL_NOT_FOUND ∧
          ∃ v t1, s.isbn_table.erase tmp.isbn = .ok (v, t1) ∧
            t1.insert data.isbn pos = .ok ti)) ∧
      ((data.name = [] ∧ tn = s.name_table) ∨
        (data.name ≠ [] ∧ ∃ t1, s.name_table.erase tmp.name pos = .ok t1 ∧
          t1.insert data.name pos = .ok tn)) ∧
      ((data.author = [] ∧ ta = s.author_table) ∨
        (data.author ≠ [] ∧ ∃ t1, s.author_table.erase tmp.author pos = .ok t1 ∧
          t1.insert data.author pos = .ok ta)) ∧
      ((data.keyword_cnt = 0 ∧ tk = s.key_table) ∨
        (data.keyword_cnt ≠ 0 ∧
          ∃ t1, eraseKeys pos tmp.keys s.key_table = (none, t1) ∧
            insertKeys pos data.keys t1 = (none, tk))) := by
  obtain ⟨s1, tmp1, s2, tmp2, s3, tmp3, s4, tmp4, h1, h2, h3, h4, he⟩ := editFrom_true_steps h
  obtain ⟨e1, ti, f1, ci⟩ := editIsbn_ok h1
  obtain ⟨e2, tn, f2, cn⟩ := editName_ok h2
  obtain ⟨e3, ta, f3, ca⟩ := editAuthor_ok h3
  obtain ⟨e4, tk, f4, ck⟩ := editKeys_ok h4
  subst e1 f1 e2 f2 e3 f3 e4 f4
  refine ⟨ti, tn, ta, tk, ?_, ci, cn, ca, ck⟩
  rw [he, editWrite_eq]
  rfl

/-! ### `edit` on a mirrored slot returns -/

theorem editIsbn_runs (s : BookFileSystem) (pos : Int) (data tmp : BookInfo)
    (hin : (⟨tmp.isbn, pos⟩ : DataType) ∈ s.isbn_table.rows)
    (hfresh : data.isbn = [] ∨ s.isbn_table.find data.isbn = .error .ULL_NOT_FOUND) :
    ∃ r, s.editIsbn pos data tmp = .ok r := by
  unfold BookFileSystem.editIsbn
  by_cases hb : data.isbn = []
  · rw [if_neg (not_not.mpr hb)]
    exact ⟨_, rfl⟩
  · rw [if_pos hb]
    have hf : s.isbn_table.find data.isbn = .error .ULL_NOT_FOUND :=
      hfresh.resolve_left hb
    rw [hf]
    simp only
    cases he : s.isbn_table.erase tmp.isbn with
    | error e =>
      exfalso
      unfold UniqueTable.erase at he
      cases hq : s.isbn_table.rows.find? (fun e => decide (e.key = tmp.isbn)) with
      | none => exact find?_key_none hq _ hin rfl
      | some e0 => rw [hq] at he; cases he
    | ok r =>
      obtain ⟨v, t1⟩ := r
      simp only
      obtain ⟨e0, _, _, _, e1⟩ := unique_erase_inv he
      have habs : t1.find data.isbn = .error .ULL_NOT_FOUND :=
        unique_find_none_of fun e he1 =>
          find?_key_none (unique_find_absent hf) e
            ((List.erase_sublist e0 s.isbn_table.rows).subset (e1 ▸ he1))
      obtain ⟨t2, h2, _, _⟩ := unique_insert_ok t1 data.isbn pos habs
      rw [h2]
      exact ⟨_, rfl⟩

/-- A text step on a table whose entries for `pos` are exactly `(old, pos)`:
both calls succeed. -/
theorem pair_runs {t : Table} {old : BookStr} (new : BookStr) {pos : Int} (hnd : t.rows.Nodup)
    (hin : (⟨old, pos⟩ : DataType) ∈ t.rows)
    (hex : ∀ e ∈ t.rows, e.value = pos → e.key = old) :
    ∃ t1 t2, t.erase old pos = .ok t1 ∧ t1.insert new pos = .ok t2 := by
  refine ⟨⟨t.rows.erase ⟨old, pos⟩⟩, ?_⟩
  have hfresh : (⟨new, pos⟩ : DataType) ∉ t.rows.erase ⟨old, pos⟩ := by
    intro hm
    obtain ⟨hne, hm1⟩ := hnd.mem_erase_iff.mp hm
    exact hne (by rw [show new = old from hex _ hm1 rfl])
  obtain ⟨t2, h2, _⟩ := table_insert_ok ⟨t.rows.erase ⟨old, pos⟩⟩ new pos hfresh
  exact ⟨t2, by unfold Table.erase; rw [if_pos hin], h2⟩

theorem editName_runs (s : BookFileSystem) (pos : Int) (data tmp : BookInfo)
    (hnd : s.name_table.rows.Nodup) (hin : (⟨tmp.name, pos⟩ : DataType) ∈ s.name_table.rows)
    (hex : ∀ e ∈ s.name_table.rows, e.value = pos → e.key = tmp.name) :
    ∃ r, s.editName pos data tmp = .ok r := by
  unfold BookFileSystem.editName
  by_cases hb : data.name = []
  · rw [if_neg (not_not.mpr hb)]
    exact ⟨_, rfl⟩
  · rw [if_pos hb]
    obtain ⟨t1, t2, h1, h2⟩ := pair_runs data.name hnd hin hex
    rw [h1]
    simp only
    rw [h2]
    exact ⟨_, rfl⟩

theorem editAuthor_runs (s : BookFileSystem) (pos : Int) (data tmp : BookInfo)
    (hnd : s.author_table.rows.Nodup)
    (hin : (⟨tmp.author, pos⟩ : DataType) ∈ s.author_table.rows)
    (hex : ∀ e ∈ s.author_table.rows, e.value = pos → e.key = tmp.author) :
    ∃ r, s.editAuthor pos data tmp = .ok r := by
  unfold BookFileSystem.editAuthor
  by_cases hb : data.author = []
  · rw [if_neg (not_not.mpr hb)]
    exact ⟨_, rfl⟩
  · rw [if_pos hb]
    obtain ⟨t1, t2, h1, h2⟩ := pair_runs data.author hnd hin hex
    rw [h1]
    simp only
    rw [h2]
    exact ⟨_, rfl⟩

theorem eraseKeys_runs (pos : Int) (keys : List BookStr) :
    ∀ t : Table, keys.Nodup → (∀ k ∈ keys, (⟨k, pos⟩ : DataType) ∈ t.rows) →
      ∃ t1, eraseKeys pos keys t = (none, t1) := by
  induction keys with
  | nil => exact fun t _ _ => ⟨t, rfl⟩
  | cons k ks ih =>
    intro t hnd hin
    rw [List.nodup_cons] at hnd
    have hk := hin k (List.mem_cons_self _ _)
    have hrest : ∀ k2 ∈ ks, (⟨k2, pos⟩ : DataType) ∈ (⟨t.rows.erase ⟨k, pos⟩⟩ : Table).rows := by
      intro k2 hk2
      refine (List.mem_erase_of_ne ?_).mpr (hin k2 (List.mem_cons_of_mem _ hk2))
      intro h
      have : k2 = k := congrArg DataType.key h
      exact hnd.1 (this ▸ hk2)
    obtain ⟨t1, h1⟩ := ih ⟨t.rows.erase ⟨k, pos⟩⟩ hnd.2 hrest
    refine ⟨t1, ?_⟩
    unfold eraseKeys Table.erase
    rw [if_pos hk]
    exact h1

theorem editKeys_runs (s : BookFileSystem) (pos : Int) (data tmp : BookInfo)
    (hnd : s.key_table.rows.Nodup) (hold : tmp.keys.Nodup) (hnew : data.keys.Nodup)
    (hin : ∀ k ∈ tmp.keys, (⟨k, pos⟩ : DataType) ∈ s.key_table.rows)
    (hex : ∀ e ∈ s.key_table.rows, e.value = pos → e.key ∈ tmp.keys) :
    ∃ r, s.editKeys pos data tmp = .ok r := by
  unfold BookFileSystem.editKeys
  by_cases hb : data.keyword_cnt = 0
  · rw [if_neg (not_not.mpr hb)]
    exact ⟨_, rfl⟩
  · rw [if_pos hb]
    obtain ⟨t1, h1⟩ := eraseKeys_runs pos tmp.keys s.key_table hold hin
    obtain ⟨_, m1⟩ := eraseKeys_inv pos tmp.keys s.key_table t1 hnd h1
    have hfresh : ∀ k ∈ data.keys, (⟨k, pos⟩ : DataType) ∉ t1.rows := by
      intro k _ hm
      obtain ⟨hm1, hn⟩ := (m1 _).mp hm
      exact hn ⟨rfl, hex _ hm1 rfl⟩
    obtain ⟨t2, h2, _⟩ := insertKeys_ok pos data.keys t1 hnew hfresh
    rw [h1]
    simp only
    rw [h2]
    exact ⟨_, rfl⟩

/-- On a catalog whose index entries for `pos` are exactly those of the record
`tmp`, with pairwise distinct keywords, an update with pairwise distinct
keywords and a blank or unused identifier goes through: the body of `edit`
returns `(pos, true)`. -/
theorem editFrom_succeeds {s : BookFileSystem} {pos : Int} {data tmp : BookInfo}
    (hidx : IndexOK s) (mi : (⟨tmp.isbn, pos⟩ : DataType) ∈ s.isbn_table.rows)
    (mn1 : (⟨tmp.name, pos⟩ : DataType) ∈ s.name_table.rows)
    (mn2 : ∀ e ∈ s.name_table.rows, e.value = pos → e.key = tmp.name)
    (ma1 : (⟨tmp.author, pos⟩ : DataType) ∈ s.author_table.rows)
    (ma2 : ∀ e ∈ s.author_table.rows, e.value = pos → e.key = tmp.author)
    (mk1 : ∀ k ∈ tmp.keys, (⟨k, pos⟩ : DataType) ∈ s.key_table.rows)
    (mk2 : ∀ e ∈ s.key_table.rows, e.value = pos → e.key ∈ tmp.keys)
    (hold : tmp.keys.Nodup) (hnew : data.keys.Nodup)
    (hfresh : data.isbn = [] ∨ s.isbn_table.find data.isbn = .error .ULL_NOT_FOUND) :
    (s.editFrom pos data tmp).1 = .returned (pos, true) := by
  obtain ⟨_, hndn, hnda, hndk⟩ := hidx
  obtain ⟨⟨s1, tmp1⟩, h1⟩ := editIsbn_runs s pos data tmp mi hfresh
  obtain ⟨e1, ti, f1, _⟩ := editIsbn_ok h1
  subst e1 f1
  obtain ⟨⟨s2, tmp2⟩, h2⟩ := editName_runs { s with isbn_table := ti } pos data
    { tmp with isbn := if data.isbn ≠ [] then data.isbn else tmp.isbn } hndn mn1 mn2
  obtain ⟨e2, tn, f2, cn⟩ := editName_ok h2
  subst e2 f2
  obtain ⟨⟨s3, tmp3⟩, h3⟩ := editAuthor_runs
    ⟨s.file, ti, tn, s.author_table, s.key_table, s.siz⟩ pos data
    ⟨if data.isbn ≠ [] then data.isbn else tmp.isbn,
      if data.name ≠ [] then data.name else tmp.name,
      tmp.author, tmp.keyword, tmp.keyword_cnt, tmp.quantity, tmp.price, tmp.pos⟩
    hnda ma1 ma2
  obtain ⟨e3, ta, f3, ca⟩ := editAuthor_ok h3
  subst e3 f3
  obtain ⟨⟨s4, tmp4⟩, h4⟩ := editKeys_runs ⟨s.file, ti, tn, ta, s.key_table, s.siz⟩ pos data
    ⟨if data.isbn ≠ [] then data.isbn else tmp.isbn,
      if data.name ≠ [] then data.name else tmp.name,
      if data.author ≠ [] then data.author else tmp.author,
      tmp.keyword, tmp.keyword_cnt, tmp.quantity, tmp.price, tmp.pos⟩
    hndk hold hnew mk1 mk2
  unfold BookFileSystem.editFrom
  rw [h1]
  simp only
  rw [h2]
  simp only
  rw [h3]
  simp only
  rw [h4]
  simp only [editWrite_eq]

/-! ### Claims on `BookFileSystem::edit` -/

theorem edit_returned_pos {s : BookFileSystem} {pos : Int} {data : BookInfo} {p : Int} {b : Bool}
    (h : (s.edit pos data).1 = .returned (p, b)) : p = pos := by
  rw [edit_steps] at h
  exact editFrom_returned_pos h

/-- The record rewritten in place by `edit`, `import` and `buy`, seen in the
file: on a stream in good state slot `p >= 1` holds `d` afterwards, and every
other slot holds what it held. -/
theorem slot_rewrite_at (f : BaseFileSystem BookInfo) (p : Int) (d : BookInfo) :
    (f.failed = false → 1 ≤ p → ((f.erase p).insert p d).recordAt p = d) ∧
    (∀ q : Int, q ≠ p → ((f.erase p).insert p d).recordAt q = f.recordAt q) := by
  refine ⟨fun hgood hp => ?_, fun q hq => ?_⟩
  · have hg1 : (f.erase p).failed = false := by
      unfold BaseFileSystem.erase
      rw [insert_failed f p default hp]
      exact hgood
    exact recordAt_insert_same (f.erase p) p d hg1 hp
  · rw [recordAt_insert_other (f.erase p) p q d hq]
    exact recordAt_insert_other f p q default hq

/-- C14, as stated, fails on a stream in error state. In `failedOne` slot 1 of
the file holds the live record "i" and the stream is in error state. The update
`priceOnly` carries the price 3 and nothing else; `edit(1, priceOnly)` returns
`(1, true)`, yet it has read the default record and its write is dropped:
`FileSearchByISBN("i")` afterwards returns the default record with `pos = 1`, not
the record "i" with price 3. -/
theorem edit_then_search_refuted :
    failedOne.isbn_table.find [105] = .ok 1 ∧ failedOne.file = ⟨[demoBook], true⟩ ∧
    (failedOne.edit 1 priceOnly).1 = .returned (1, true) ∧
    demoBook.updated priceOnly = { demoBook with price := 3 } ∧
    ((failedOne.edit 1 priceOnly).2.FileSearchByISBN [105]).1 =
      .returned { (default : BookInfo) with pos := 1 } ∧
    (failedOne.edit 1 priceOnly).2.file = ⟨[demoBook], true⟩ := by
  decide

/-- C14, amended: `BookFileSystem::edit(pos, data)` returns `pos` as its first
component whenever it returns. Let the stream of the slot store be in good
state and `pos` a slot of the file, holding the record `r`. The call returns
`(pos, true)` when the slot is mirrored, the keywords of `r` and of `data` are
pairwise distinct and the identifier of `data` is blank or unused. After a
successful edit of the live record `r` (the unique index, with one entry per
key, maps `r.isbn` to `pos`), `FileSearchByISBN` of the resulting identifier
returns the record whose `pos` field is `pos` and whose fields are those of `r`
with every non-blank field of `data` (isbn, name, author), the keyword list
when `data.keyword_cnt > 0` and the price when `data.price != -1` replaced by
the values of `data`, the quantity unchanged; if the identifier was changed,
the old identifier is no longer found. -/
theorem edit_then_search (s : BookFileSystem) (pos : Int) (data : BookInfo) :
    (∀ p b, (s.edit pos data).1 = .returned (p, b) → p = pos) ∧
    (s.file.failed = false → 1 ≤ pos → pos ≤ s.file.records.length →
      (IndexOK s → Mirrored s pos → (s.file.recordAt pos).keys.Nodup → data.keys.Nodup →
        (data.isbn = [] ∨ s.isbn_table.find data.isbn = .error .ULL_NOT_FOUND) →
        (s.edit pos data).1 = .returned (pos, true)) ∧
      ((s.isbn_table.rows.Pairwise fun a b => a.key ≠ b.key) →
        s.isbn_table.find (s.file.recordAt pos).isbn = .ok pos →
        (s.edit pos data).1 = .returned (pos, true) →
        (s.edit pos data).2.FileSearchByISBN ((s.file.recordAt pos).updated data).isbn =
          (.returned { (s.file.recordAt pos).updated data with pos := pos },
            (s.edit pos data).2) ∧
        (data.isbn ≠ [] →
          (s.edit pos data).2.isbn_table.find (s.file.recordAt pos).isbn =
            .error .ULL_NOT_FOUND ∧
          (s.edit pos data).2.FileSearchByISBN (s.file.recordAt pos).isbn =
            (.returned default, (s.edit pos data).2)))) := by
  refine ⟨fun p b h => edit_returned_pos h, fun hgood hpos hlen => ?_⟩
  rw [edit_of_good s pos data hgood hpos hlen]
  refine ⟨fun hidx hm hold hnew hfresh => ?_, fun huniq hlive hok => ?_⟩
  · obtain ⟨_, mi, ⟨mn1, mn2⟩, ⟨ma1, ma2⟩, ⟨mk1, mk2⟩⟩ := hm
    exact editFrom_succeeds hidx mi mn1 mn2 ma1 ma2 mk1 mk2 hold hnew hfresh
  obtain ⟨ti, tn, ta, tk, he, ci, _, _, _⟩ := editFrom_success hok
  rw [he]
  obtain ⟨hrec, _, _, _⟩ := slot_rewrite s.file pos ((s.file.recordAt pos).updated data) hgood hpos
  have hfind : ti.find ((s.file.recordAt pos).updated data).isbn = .ok pos := by
    rcases ci with ⟨hb, rfl⟩ | ⟨hb, hf, v, t1, hers, hins⟩
    · have : ((s.file.recordAt pos).updated data).isbn = (s.file.recordAt pos).isbn := by
        unfold BookInfo.updated
        simp only [hb, ne_eq, not_true_eq_false, if_false]
      rw [this]
      exact hlive
    · have : ((s.file.recordAt pos).updated data).isbn = data.isbn := by
        unfold BookInfo.updated
        simp only [hb, ne_eq, not_false_eq_true, if_true]
      rw [this]
      obtain ⟨e0, _, _, _, e1⟩ := unique_erase_inv hers
      have habs : t1.find data.isbn = .error .ULL_NOT_FOUND :=
        unique_find_none_of fun e he1 =>
          find?_key_none (unique_find_absent hf) e
            ((List.erase_sublist e0 s.isbn_table.rows).subset (e1 ▸ he1))
      obtain ⟨t2, h2, hfound, _⟩ := unique_insert_ok t1 data.isbn pos habs
      rw [hins] at h2
      simp only [Except.ok.injEq] at h2
      rw [h2]
      exact hfound
  constructor
  · unfold BookFileSystem.FileSearchByISBN
    simp only [hfind, hrec]
  · intro hb
    rcases ci with ⟨hb0, _⟩ | ⟨_, hf, v, t1, hers, hins⟩
    · exact absurd hb0 hb
    · obtain ⟨e0, hm0, hk0, _, _⟩ := unique_erase_inv hers
      have hne : data.isbn ≠ (s.file.recordAt pos).isbn := fun h =>
        find?_key_none (unique_find_absent hf) e0 hm0 (hk0.trans h.symm)
      have hgone : ti.find (s.file.recordAt pos).isbn = .error .ULL_NOT_FOUND :=
        unique_find_none_of fun e he1 => by
          rcases ((unique_replace huniq hers hins).2 e).mp he1 with h | ⟨_, h⟩
          · rw [h]; exact hne
          · exact h
      refine ⟨hgone, ?_⟩
      unfold BookFileSystem.FileSearchByISBN
      simp only [hgone, if_true]

/-- C14, amended, at a concrete input: the record "i" at slot 1 is edited with
`demoUpdate`, which renames the identifier to "j". -/
theorem edit_then_search_witness :
    (catalogOne.file.failed = false ∧ (1 : Int) ≤ 1 ∧ catalogOne.file.recordAt 1 = demoBook ∧
      catalogOne.isbn_table.find (catalogOne.file.recordAt 1).isbn = .ok 1) ∧
    (catalogOne.edit 1 demoUpdate).1 = .returned (1, true) ∧
    ((catalogOne.edit 1 demoUpdate).2.FileSearchByISBN [106]).1 =
      .returned ⟨[106], [122], [97], [[121], [122]], 2, 0, 3, 1⟩ ∧
    ((catalogOne.edit 1 demoUpdate).2.FileSearchByISBN [105]).1 = .returned default :=
  ⟨by decide,
    ((edit_then_search catalogOne 1 demoUpdate).2 (by decide) (by decide) (by decide)).1
      (by decide) (by decide) (by decide) (by decide) (Or.inr (by decide)),
    congrArg Prod.fst (((edit_then_search catalogOne 1 demoUpdate).2 (by decide) (by decide)
      (by decide)).2 (by decide) (by decide) (by decide)).1,
    congrArg Prod.fst ((((edit_then_search catalogOne 1 demoUpdate).2 (by decide) (by decide)
      (by decide)).2 (by decide) (by decide) (by decide)).2 (by decide)).2⟩

theorem updated_keys (r data : BookInfo) :
    (r.updated data).keys = if data.keyword_cnt ≠ 0 then data.keys else r.keys := by
  unfold BookInfo.updated BookInfo.keys
  by_cases hb : data.keyword_cnt = 0
  · simp only [hb, ne_eq, not_true_eq_false, if_false]
  · simp only [hb, ne_eq, not_false_eq_true, if_true]

/-- One text step of `edit` on a duplicate-permitting index: the entries that
point to `pos` go from exactly `(old, pos)` to exactly `(u, pos)`, the entries
that point elsewhere stay. -/
theorem pair_step {t tn : Table} {old new : BookStr} {pos : Int} (hnd : t.rows.Nodup)
    (hin : (⟨old, pos⟩ : DataType) ∈ t.rows)
    (hex : ∀ e ∈ t.rows, e.value = pos → e.key = old)
    (hstep : (new = [] ∧ tn = t) ∨
      (new ≠ [] ∧ ∃ t1, t.erase old pos = .ok t1 ∧ t1.insert new pos = .ok tn)) :
    tn.rows.Nodup ∧
      (⟨if new ≠ [] then new else old, pos⟩ : DataType) ∈ tn.rows ∧
      (∀ e ∈ tn.rows, e.value = pos → e.key = if new ≠ [] then new else old) ∧
      ∀ e : DataType, e.value ≠ pos → (e ∈ tn.rows ↔ e ∈ t.rows) := by
  rcases hstep with ⟨hb, rfl⟩ | ⟨hb, t1, he, hi⟩
  · rw [if_neg (not_not.mpr hb)]
    exact ⟨hnd, hin, hex, fun e _ => Iff.rfl⟩
  · rw [if_pos hb]
    obtain ⟨hnd2, m⟩ := table_replace hnd he hi
    refine ⟨hnd2, (m _).mpr (Or.inl rfl), fun e hm hv => ?_, fun e hv => ?_⟩
    · rcases (m e).mp hm with h | ⟨h1, h2⟩
      · rw [h]
      · exfalso
        apply h2
        have hk := hex e h1 hv
        cases e
        simp only at hk hv
        rw [hk, hv]
    · rw [m e]
      constructor
      · rintro (h | ⟨h1, _⟩)
        · exact absurd (by rw [h]) hv
        · exact h1
      · intro h1
        exact Or.inr ⟨h1, fun h => hv (by rw [h])⟩

/-- The keyword step of `edit`: the entries that point to `pos` go from exactly
the keywords `old` to exactly the keywords `u`, the entries that point
elsewhere stay. -/
theorem keys_step {t tk : Table} {old new : List BookStr} {cnt : Nat} {pos : Int}
    (hnd : t.rows.Nodup) (hin : ∀ k ∈ old, (⟨k, pos⟩ : DataType) ∈ t.rows)
    (hex : ∀ e ∈ t.rows, e.value = pos → e.key ∈ old)
    (hstep : (cnt = 0 ∧ tk = t) ∨
      (cnt ≠ 0 ∧ ∃ t1, eraseKeys pos old t = (none, t1) ∧ insertKeys pos new t1 = (none, tk))) :
    tk.rows.Nodup ∧
      (∀ k ∈ (if cnt ≠ 0 then new else old), (⟨k, pos⟩ : DataType) ∈ tk.rows) ∧
      (∀ e ∈ tk.rows, e.value = pos → e.key ∈ (if cnt ≠ 0 then new else old)) ∧
      ∀ e : DataType, e.value ≠ pos → (e ∈ tk.rows ↔ e ∈ t.rows) := by
  rcases hstep with ⟨hb, rfl⟩ | ⟨hb, t1, he, hi⟩
  · rw [if_neg (not_not.mpr hb)]
    exact ⟨hnd, hin, hex, fun e _ => Iff.rfl⟩
  · rw [if_pos hb]
    obtain ⟨hnd1, m1⟩ := eraseKeys_inv pos old t t1 hnd he
    obtain ⟨hnd2, m2⟩ := insertKeys_inv pos new t1 tk hnd1 hi
    refine ⟨hnd2, fun k hk => (m2 _).mpr (Or.inl ⟨rfl, hk⟩), fun e hm hv => ?_, fun e hv => ?_⟩
    · rcases (m2 e).mp hm with h | h
      · exact h.2
      · obtain ⟨h1, h2⟩ := (m1 e).mp h
        exact absurd ⟨hv, hex e h1 hv⟩ h2
    · rw [m2 e, m1 e]
      constructor
      · rintro (h | ⟨h1, _⟩)
        · exact absurd h.1 hv
        · exact h1
      · intro h1
        exact Or.inr ⟨h1, fun h => hv h.1⟩

/-- The identifier step of `edit` on the unique index. -/
theorem isbn_step {t ti : UniqueTable} {old new : IsbnStr} {pos : Int}
    (hu : t.rows.Pairwise fun a b => a.key ≠ b.key) (hin : (⟨old, pos⟩ : DataType) ∈ t.rows)
    (hstep : (new = [] ∧ ti = t) ∨
      (new ≠ [] ∧ t.find new = .error .ULL_NOT_FOUND ∧
        ∃ v t1, t.erase old = .ok (v, t1) ∧ t1.insert new pos = .ok ti)) :
    (ti.rows.Pairwise fun a b => a.key ≠ b.key) ∧
      (⟨if new ≠ [] then new else old, pos⟩ : DataType) ∈ ti.rows ∧
      (∀ e : DataType, e.value ≠ pos → e ∈ t.rows → e ∈ ti.rows) ∧
      (new ≠ [] → ∀ e ∈ ti.rows, e.key ≠ old) := by
  rcases hstep with ⟨hb, rfl⟩ | ⟨hb, hf, v, t1, he, hi⟩
  · rw [if_neg (not_not.mpr hb)]
    exact ⟨hu, hin, fun e _ h => h, fun h => absurd hb h⟩
  · rw [if_pos hb]
    obtain ⟨hu2, m⟩ := unique_replace hu he hi
    have hne : new ≠ old := fun h =>
      find?_key_none (unique_find_absent hf) _ hin h.symm
    refine ⟨hu2, (m _).mpr (Or.inl rfl), fun e hv hm => ?_, fun _ e hm => ?_⟩
    · refine (m e).mpr (Or.inr ⟨hm, fun hk => hv ?_⟩)
      have := keys_unique hu hm hin hk
      rw [this]
    · rcases (m e).mp hm with h | ⟨_, h⟩
      · rw [h]; exact hne
      · exact h

theorem mirrored_of_parts {f : BaseFileSystem BookInfo} {ti : UniqueTable} {tn ta tk : Table}
    {siz p : Int} {r : BookInfo} (hr : f.recordAt p = r) (h1 : 1 ≤ p ∧ p ≤ f.records.length)
    (hi : (⟨r.isbn, p⟩ : DataType) ∈ ti.rows)
    (hn : (⟨r.name, p⟩ : DataType) ∈ tn.rows ∧ ∀ e ∈ tn.rows, e.value = p → e.key = r.name)
    (ha : (⟨r.author, p⟩ : DataType) ∈ ta.rows ∧
      ∀ e ∈ ta.rows, e.value = p → e.key = r.author)
    (hk : (∀ k ∈ r.keys, (⟨k, p⟩ : DataType) ∈ tk.rows) ∧
      ∀ e ∈ tk.rows, e.value = p → e.key ∈ r.keys) :
    Mirrored ⟨f, ti, tn, ta, tk, siz⟩ p := by
  subst hr
  exact ⟨h1, hi, hn, ha, hk⟩

/-- C15, as stated, fails on a stream in error state. In `failedOne` the indexes
are in order and slot 1, the one live slot, is mirrored: the file holds the
record "i" there, with the keyword "x". `edit(1, keywordY)`, an update with the
one keyword "y", returns `(1, true)`; it has read the default record, so it
erases no keyword entry, adds `("y", 1)` and writes nothing: the entry `("x", 1)`
of the previous keyword is left, and slot 1 of the file still holds the record
with the keyword "x". -/
theorem edit_keeps_consistency_refuted :
    IndexOK failedOne ∧ Mirrored failedOne 1 ∧ failedOne.file = ⟨[demoBook], true⟩ ∧
    keywordY.keys = [[121]] ∧
    (failedOne.edit 1 keywordY).1 = .returned (1, true) ∧
    (failedOne.edit 1 keywordY).2.key_table.rows = [⟨[120], 1⟩, ⟨[121], 1⟩] ∧
    (failedOne.edit 1 keywordY).2.file = ⟨[demoBook], true⟩ ∧
    (demoBook.updated keywordY).keys = [[121]] := by
  decide

/-- C15, amended: on a slot store whose stream is in good state,
`BookFileSystem::edit` preserves multi-index consistency. Let the indexes be in
order (one entry per key in the unique index, no repeated pair in the others)
and let `live` be the live slots, `pos` among them, each mirrored: slot `p` is
in the file, and holding `r` it has `r.isbn -> p` in the unique index and
exactly the entries `(r.name, p)`, `(r.author, p)` and `(r.keyword[i], p)` in
the name, author and keyword indexes. After a successful `edit(pos, data)` the
stream is in good state, the indexes are in order and every live slot is
mirrored for the record it then holds: the updated record at `pos`, the same
record elsewhere. No entry is left from the previous name, author or keywords
of `pos`, since the entries that point to `pos` are exactly those of the updated
record, and a changed identifier has no entry in the unique index. -/
theorem edit_keeps_consistency (s : BookFileSystem) (pos : Int) (data : BookInfo)
    (live : Int → Prop) (hgood : s.file.failed = false) (hidx : IndexOK s)
    (hall : ∀ p, live p → Mirrored s p)
    (hlive : live pos) (hok : (s.edit pos data).1 = .returned (pos, true)) :
    IndexOK (s.edit pos data).2 ∧
    (∀ p, live p → Mirrored (s.edit pos data).2 p) ∧
    (s.edit pos data).2.file.failed = false ∧
    (s.edit pos data).2.file.find pos =
      ((s.file.recordAt pos).updated data, (s.edit pos data).2.file) ∧
    (∀ p, p ≠ pos → ((s.edit pos data).2.file.find p).1 = (s.file.find p).1) ∧
    (data.isbn ≠ [] →
      ∀ e ∈ (s.edit pos data).2.isbn_table.rows, e.key ≠ (s.file.recordAt pos).isbn) := by
  obtain ⟨⟨hpos, hlen⟩, mi, ⟨mn1, mn2⟩, ⟨ma1, ma2⟩, ⟨mk1, mk2⟩⟩ := hall pos hlive
  rw [edit_of_good s pos data hgood hpos hlen] at hok ⊢
  obtain ⟨ti, tn, ta, tk, he, ci, cn, ca, ck⟩ := editFrom_success hok
  obtain ⟨hu, hndn, hnda, hndk⟩ := hidx
  obtain ⟨hu2, i1, i2, i3⟩ := isbn_step hu mi ci
  obtain ⟨hndn2, n1, n2, n3⟩ := pair_step hndn mn1 mn2 cn
  obtain ⟨hnda2, a1, a2, a3⟩ := pair_step hnda ma1 ma2 ca
  obtain ⟨hndk2, k1, k2, k3⟩ := keys_step hndk mk1 mk2 ck
  obtain ⟨r1, r2, r3, r4⟩ := slot_rewrite s.file pos ((s.file.recordAt pos).updated data)
    hgood hpos
  obtain ⟨q1, q2⟩ := slot_rewrite_at s.file pos ((s.file.recordAt pos).updated data)
  have hlen2 := r4 hlen
  rw [he]
  refine ⟨⟨hu2, hndn2, hnda2, hndk2⟩, fun p hp => ?_, r2, r1, r3, i3⟩
  by_cases hpp : p = pos
  · subst hpp
    refine mirrored_of_parts (q1 hgood hpos) ⟨hpos, by rw [hlen2]; exact hlen⟩ i1 ⟨n1, n2⟩
      ⟨a1, a2⟩ ?_
    rw [updated_keys]
    exact ⟨k1, k2⟩
  · obtain ⟨⟨hp1, hp2⟩, qi, ⟨qn1, qn2⟩, ⟨qa1, qa2⟩, ⟨qk1, qk2⟩⟩ := hall p hp
    refine mirrored_of_parts (q2 p hpp) ⟨hp1, by rw [hlen2]; exact hp2⟩ (i2 _ hpp qi)
      ⟨(n3 _ hpp).mpr qn1, fun e hm hv => qn2 e ((n3 e (hv ▸ hpp)).mp hm) hv⟩
      ⟨(a3 _ hpp).mpr qa1, fun e hm hv => qa2 e ((a3 e (hv ▸ hpp)).mp hm) hv⟩
      ⟨fun k hk => (k3 _ hpp).mpr (qk1 k hk),
        fun e hm hv => qk2 e ((k3 e (hv ▸ hpp)).mp hm) hv⟩

/-- C15, amended, at a concrete input: in `catalogTwo`, whose slots 1 and 2 are
live and mirrored, the record at slot 1 gets the name "z" and the keywords "y"
and "z"; slot 2 carries the keyword "y" too. -/
theorem edit_keeps_consistency_witness :
    (catalogTwo.file.failed = false ∧ IndexOK catalogTwo ∧ Mirrored catalogTwo 1 ∧
      Mirrored catalogTwo 2 ∧ (catalogTwo.edit 1 renameUpdate).1 = .returned (1, true)) ∧
    IndexOK (catalogTwo.edit 1 renameUpdate).2 ∧
    Mirrored (catalogTwo.edit 1 renameUpdate).2 1 ∧
    Mirrored (catalogTwo.edit 1 renameUpdate).2 2 ∧
    (catalogTwo.edit 1 renameUpdate).2.name_table = ⟨[⟨[109], 2⟩, ⟨[122], 1⟩]⟩ ∧
    (catalogTwo.edit 1 renameUpdate).2.key_table = ⟨[⟨[121], 1⟩, ⟨[121], 2⟩, ⟨[122], 1⟩]⟩ :=
  have h := edit_keeps_consistency catalogTwo 1 renameUpdate (fun p => p = 1 ∨ p = 2)
    (by decide) (by decide) (fun p hp => by rcases hp with rfl | rfl <;> decide) (Or.inl rfl)
    (by decide)
  ⟨by decide, h.1, h.2.1 1 (Or.inl rfl), h.2.1 2 (Or.inr rfl), by decide, by decide⟩

/-! ### Slot store: tombstones and the scan -/

theorem slot_of_mem {α : Type} [Inhabited α] (f : BaseFileSystem α) (r : α)
    (h : r ∈ f.records) : ∃ q : Int, 1 ≤ q ∧ q ≤ f.records.length ∧ f.recordAt q = r := by
  obtain ⟨i, hi, rfl⟩ := List.mem_iff_getElem.mp h
  refine ⟨(i : Int) + 1, by omega, by omega, ?_⟩
  unfold BaseFileSystem.recordAt
  rw [if_neg (by omega)]
  have : ((i : Int) + 1 - 1).toNat = i := by omega
  rw [this, List.getD_eq_getElem?_getD, List.getElem?_eq_getElem hi]
  rfl

theorem mem_setAdd {α : Type} (lt : α → α → Bool) (x r : α) (l : List α)
    (h : r ∈ BaseFileSystem.setAdd lt x l) : r = x ∨ r ∈ l := by
  induction l with
  | nil => simpa [BaseFileSystem.setAdd] using h
  | cons y ys ih =>
    unfold BaseFileSystem.setAdd at h
    split_ifs at h
    · simpa using h
    · rcases List.mem_cons.mp h with a | a
      · exact Or.inr (a ▸ List.mem_cons_self _ _)
      · rcases ih a with b | b
        · exact Or.inl b
        · exact Or.inr (List.mem_cons_of_mem _ b)
    · exact Or.inr h

theorem setAdd_keeps {α : Type} (lt : α → α → Bool) (x r : α) (l : List α) (h : r ∈ l) :
    r ∈ BaseFileSystem.setAdd lt x l := by
  induction l with
  | nil => cases h
  | cons y ys ih =>
    unfold BaseFileSystem.setAdd
    split_ifs
    · exact List.mem_cons_of_mem _ h
    · rcases List.mem_cons.mp h with a | a
      · exact a ▸ List.mem_cons_self _ _
      · exact List.mem_cons_of_mem _ (ih a)
    · exact h

theorem setAdd_holds {α : Type} (lt : α → α → Bool) (hirr : ∀ a, lt a a = false) (x : α)
    (l : List α) : ∃ r ∈ BaseFileSystem.setAdd lt x l, lt x r = false ∧ lt r x = false := by
  induction l with
  | nil => exact ⟨x, by simp [BaseFileSystem.setAdd], hirr x, hirr x⟩
  | cons y ys ih =>
    unfold BaseFileSystem.setAdd
    by_cases h1 : lt x y = true
    · rw [if_pos h1]
      exact ⟨x, List.mem_cons_self _ _, hirr x, hirr x⟩
    · rw [if_neg h1]
      by_cases h2 : lt y x = true
      · rw [if_pos h2]
        obtain ⟨r, hr, e⟩ := ih
        exact ⟨r, List.mem_cons_of_mem _ hr, e⟩
      · rw [if_neg h2]
        exact ⟨y, List.mem_cons_self _ _, by simpa using h1, by simpa using h2⟩

theorem setAdd_sorted {α : Type} (lt : α → α → Bool)
    (htrans : ∀ a b c, lt a b = true → lt b c = true → lt a c = true) (x : α) (l : List α)
    (hs : l.Pairwise fun a b => lt a b = true) :
    (BaseFileSystem.setAdd lt x l).Pairwise fun a b => lt a b = true := by
  induction l with
  | nil => simp [BaseFileSystem.setAdd]
  | cons y ys ih =>
    obtain ⟨hy, hys⟩ := List.pairwise_cons.mp hs
    unfold BaseFileSystem.setAdd
    by_cases h1 : lt x y = true
    · rw [if_pos h1]
      refine List.pairwise_cons.mpr ⟨fun z hz => ?_, hs⟩
      rcases List.mem_cons.mp hz with a | a
      · rw [a]; exact h1
      · exact htrans x y z h1 (hy z a)
    · rw [if_neg h1]
      by_cases h2 : lt y x = true
      · rw [if_pos h2]
        refine List.pairwise_cons.mpr ⟨fun z hz => ?_, ih hys⟩
        rcases mem_setAdd lt x z ys hz with a | a
        · rw [a]; exact h2
        · exact hy z a
      · rw [if_neg h2]
        exact hs

/-- What the scan loop has collected after the records `l`, starting from the
set `acc`. -/
theorem scan_fold {α : Type} (empty : α → Bool) (lt : α → α → Bool)
    (hirr : ∀ a, lt a a = false)
    (htrans : ∀ a b c, lt a b = true → lt b c = true → lt a c = true) (l : List α) :
    ∀ acc : List α, (acc.Pairwise fun a b => lt a b = true) →
      ((l.foldl (fun ret tmp => if empty tmp then ret else BaseFileSystem.setAdd lt tmp ret)
        acc).Pairwise fun a b => lt a b = true) ∧
      (∀ r ∈ l.foldl (fun ret tmp => if empty tmp then ret else BaseFileSystem.setAdd lt tmp ret)
        acc, r ∈ acc ∨ (r ∈ l ∧ empty r = false)) ∧
      (∀ r ∈ acc, r ∈ l.foldl
        (fun ret tmp => if empty tmp then ret else BaseFileSystem.setAdd lt tmp ret) acc) ∧
      (∀ r ∈ l, empty r = false → ∃ r2 ∈ l.foldl
        (fun ret tmp => if empty tmp then ret else BaseFileSystem.setAdd lt tmp ret) acc,
          lt r r2 = false ∧ lt r2 r = false) := by
  induction l with
  | nil =>
    intro acc hs
    exact ⟨hs, fun r hr => Or.inl hr, fun r hr => hr, fun r hr => by cases hr⟩
  | cons x xs ih =>
    intro acc hs
    simp only [List.foldl_cons]
    by_cases he : empty x = true
    · rw [if_pos he]
      obtain ⟨i1, i2, i3, i4⟩ := ih acc hs
      refine ⟨i1, fun r hr => ?_, i3, fun r hr hne => ?_⟩
      · rcases i2 r hr with a | ⟨a, b⟩
        · exact Or.inl a
        · exact Or.inr ⟨List.mem_cons_of_mem _ a, b⟩
      · rcases List.mem_cons.mp hr with a | a
        · rw [a, he] at hne; cases hne
        · exact i4 r a hne
    · rw [if_neg he]
      obtain ⟨i1, i2, i3, i4⟩ := ih (BaseFileSystem.setAdd lt x acc) (setAdd_sorted lt htrans x acc hs)
      refine ⟨i1, fun r hr => ?_, fun r hr => i3 r (setAdd_keeps lt x r acc hr),
        fun r hr hne => ?_⟩
      · rcases i2 r hr with a | ⟨a, b⟩
        · rcases mem_setAdd lt x r acc a with c | c
          · exact Or.inr ⟨c ▸ List.mem_cons_self _ _, by rw [c]; simpa using he⟩
          · exact Or.inl c
        · exact Or.inr ⟨List.mem_cons_of_mem _ a, b⟩
      · rcases List.mem_cons.mp hr with a | a
        · obtain ⟨r2, hr2, e⟩ := setAdd_holds lt hirr x acc
          exact ⟨r2, i3 r2 hr2, by rw [a]; exact e⟩
        · exact i4 r a hne

/-- On a stream in good state `search()` returns: the set it returns is
ascending, holds stored non-empty records only, and holds every stored non-empty
record up to records that `operator<` does not tell apart. -/
theorem search_exact {α : Type} [Inhabited α] (empty : α → Bool) (lt : α → α → Bool)
    (hdef : empty default = true) (hasym : ∀ a b, lt a b = true → lt b a = false)
    (hneg : ∀ a b c, lt a c = true → lt a b = true ∨ lt b c = true) (f : BaseFileSystem α)
    (hgood : f.failed = false) :
    ∃ l, f.search empty lt = some l ∧
      (l.Pairwise fun a b => lt a b = true) ∧
      (∀ r ∈ l, r ∈ f.records ∧ empty r = false) ∧
      (∀ r ∈ f.records, empty r = false → ∃ r2 ∈ l, lt r r2 = false ∧ lt r2 r = false) := by
  have hirr : ∀ a, lt a a = false := fun a => by
    cases h : lt a a with
    | false => rfl
    | true => exact absurd (hasym a a h) (by rw [h]; simp)
  have htrans : ∀ a b c, lt a b = true → lt b c = true → lt a c = true := fun a b c h1 h2 => by
    rcases hneg a c b h1 with h | h
    · exact h
    · rw [hasym b c h2] at h; cases h
  obtain ⟨i1, i2, _, i4⟩ := scan_fold empty lt hirr htrans (f.records ++ [default]) []
    List.Pairwise.nil
  have hf : ¬ f.failed = true := by rw [hgood]; simp
  refine ⟨_, by unfold BaseFileSystem.search; rw [if_neg hf], i1, fun r hr => ?_,
    fun r hr hne => i4 r (List.mem_append_left _ hr) hne⟩
  rcases i2 r hr with a | ⟨a, b⟩
  · cases a
  · refine ⟨?_, b⟩
    rcases List.mem_append.mp a with c | c
    · exact c
    · rw [List.mem_singleton.mp c, hdef] at b
      cases b

/-- C21, as stated, fails on a stream in error state and at a position below 1.
On the store that holds one record, `find(2)` reads past the end of the file
and sets `failbit`; `erase(1)` then writes nothing, so the record stays in the
file, and `search()` never returns. On the same store in good state `erase(0)`
seeks before the start of the file, which sets `failbit`: `find(1)` returned
the record before and returns the default record afterwards. -/
theorem erase_tombstones_refuted :
    (⟨[demoBook], false⟩ : BaseFileSystem BookInfo).find 2 = (default, ⟨[demoBook], true⟩) ∧
    (⟨[demoBook], true⟩ : BaseFileSystem BookInfo).erase 1 = ⟨[demoBook], true⟩ ∧
    ((⟨[demoBook], true⟩ : BaseFileSystem BookInfo).erase 1).search blankIsbn isbnLess = none ∧
    (⟨[demoBook], false⟩ : BaseFileSystem BookInfo).erase 0 = ⟨[demoBook], true⟩ ∧
    ((⟨[demoBook], false⟩ : BaseFileSystem BookInfo).find 1).1 = demoBook ∧
    (((⟨[demoBook], false⟩ : BaseFileSystem BookInfo).erase 0).find 1).1 = default ∧
    demoBook ≠ default := by
  decide

/-- C21, amended: slot store erase tombstones in place, on a stream in good
state. For every position `p >= 1`, after `BaseFileSystem::erase(p)` the call
`find(p)` returns the default-constructed record, `find` at every other
position returns what it returned before, and the file is not shorter than
before. `search()` then returns, and it returns exactly the set of non-empty
records stored in the file: what it returns is ascending by `operator<`, every
record in it is stored and not empty, at a slot other than `p`, and every
stored non-empty record is in it, up to records that `operator<` does not tell
apart, of which a `std::set` keeps one. `empty` and `operator<` are those of
the record type: the default-constructed record is empty and `operator<` is a
strict weak ordering. -/
theorem erase_tombstones {α : Type} [Inhabited α] (empty : α → Bool) (lt : α → α → Bool)
    (hdef : empty default = true) (hasym : ∀ a b, lt a b = true → lt b a = false)
    (hneg : ∀ a b c, lt a c = true → lt a b = true ∨ lt b c = true)
    (f : BaseFileSystem α) (p : Int) (hgood : f.failed = false) (hp : 1 ≤ p) :
    (f.erase p).find p = (default, f.erase p) ∧
    (∀ q : Int, q ≠ p → ((f.erase p).find q).1 = (f.find q).1) ∧
    f.records.length ≤ (f.erase p).records.length ∧
    ∃ l, (f.erase p).search empty lt = some l ∧
      (l.Pairwise fun a b => lt a b = true) ∧
      (∀ r ∈ l, r ∈ (f.erase p).records ∧ empty r = false ∧
        ∃ q : Int, 1 ≤ q ∧ q ≠ p ∧ (f.find q).1 = r) ∧
      (∀ r ∈ (f.erase p).records, empty r = false →
        ∃ r2 ∈ l, lt r r2 = false ∧ lt r2 r = false) ∧
      ((∀ a b, lt a b = false → lt b a = false → a = b) →
        ∀ r, r ∈ l ↔ r ∈ (f.erase p).records ∧ empty r = false) := by
  obtain ⟨r1, r2, r3⟩ := find_after_insert f p default hgood hp
  have hsame : (f.erase p).recordAt p = default := recordAt_insert_same f p default hgood hp
  have hoth : ∀ q : Int, q ≠ p → (f.erase p).recordAt q = f.recordAt q :=
    fun q hq => recordAt_insert_other f p q default hq
  obtain ⟨l, hl, s1, s2, s3⟩ := search_exact empty lt hdef hasym hneg (f.erase p) r2
  refine ⟨r1, r3, slot_insert_length f p default, l, hl, s1, fun r hr => ?_, s3,
    fun htot r => ?_⟩
  · obtain ⟨hm, hne⟩ := s2 r hr
    obtain ⟨q, hq1, _, hq⟩ := slot_of_mem (f.erase p) r hm
    have hqp : q ≠ p := by
      rintro rfl
      rw [hsame] at hq
      rw [← hq, hdef] at hne
      cases hne
    exact ⟨hm, hne, q, hq1, hqp, by rw [find_value f q hgood, ← hoth q hqp]; exact hq⟩
  · constructor
    · exact fun hr => s2 r hr
    · rintro ⟨hm, hne⟩
      obtain ⟨r2, hr2, e1, e2⟩ := s3 r hm hne
      rw [htot r r2 e1 e2]
      exact hr2

/-- C21, amended, at a concrete input: the store of `catalogTwo` holds the
records "i" and "j" at slots 1 and 2; after `erase(1)` the scan returns the
record "j" alone. -/
theorem erase_tombstones_witness :
    (blankIsbn default = true ∧ catalogTwo.file.failed = false ∧ (1 : Int) ≤ 1 ∧
      catalogTwo.file.records = [demoBook, otherBook] ∧
      (catalogTwo.file.erase 1).search blankIsbn isbnLess = some [otherBook]) ∧
    (catalogTwo.file.erase 1).find 1 = (default, catalogTwo.file.erase 1) ∧
    (∀ q : Int, q ≠ 1 → ((catalogTwo.file.erase 1).find q).1 = (catalogTwo.file.find q).1) ∧
    catalogTwo.file.records.length ≤ (catalogTwo.file.erase 1).records.length :=
  have h := erase_tombstones blankIsbn isbnLess (by decide) isbnLess_asymm isbnLess_neg
    catalogTwo.file 1 (by decide) (by decide)
  ⟨by decide, h.1, h.2.1, h.2.2.1⟩

/-! ### The slot counter over sequences of calls -/

theorem insertCatch_state (s : BookFileSystem) (isbn : IsbnStr) (e : NormalException) :
    (s.insertCatch isbn e).2 = s ∧ ∀ p, (s.insertCatch isbn e).1 ≠ .returned (p, true) := by
  unfold BookFileSystem.insertCatch
  by_cases he : e = .ULL_INSERTED
  · rw [if_pos he]
    cases s.isbn_table.find isbn with
    | ok p => exact ⟨rfl, fun q h => by simp at h⟩
    | error e1 => exact ⟨rfl, fun q h => by simp at h⟩
  · rw [if_neg he]
    exact ⟨rfl, fun q h => by simp at h⟩

/-- The counter and the name index after `insert`, however the call ends. -/
theorem insert_counter (s : BookFileSystem) (isbn : IsbnStr) (data : BookInfo)
    (hinv : ∀ e ∈ s.name_table.rows, e.value ≤ s.siz) :
    (s.siz ≤ (s.insert isbn data).2.siz ∧
      ∀ e ∈ (s.insert isbn data).2.name_table.rows, e.value ≤ (s.insert isbn data).2.siz) ∧
    ∀ p, (s.insert isbn data).1 = .returned (p, true) →
      p = s.siz + 1 ∧ (s.insert isbn data).2.siz = s.siz + 1 := by
  unfold BookFileSystem.insert
  cases h1 : s.isbn_table.insert isbn (s.siz + 1) with
  | error e =>
    simp only []
    rw [(insertCatch_state s isbn e).1]
    exact ⟨⟨le_refl _, hinv⟩, fun p h => absurd h ((insertCatch_state s isbn e).2 p)⟩
  | ok t1 =>
    simp only []
    have hinv1 : ∀ e ∈ s.name_table.rows, e.value ≤ s.siz + 1 := fun e he => by
      have := hinv e he
      omega
    cases h2 : s.name_table.insert data.name (s.siz + 1) with
    | error e =>
      simp only []
      rw [(insertCatch_state _ isbn e).1]
      exact ⟨⟨by simp, hinv1⟩, fun p h => absurd h ((insertCatch_state _ isbn e).2 p)⟩
    | ok t2 =>
      simp only []
      have hinv2 : ∀ e ∈ t2.rows, e.value ≤ s.siz + 1 := fun e he => by
        rcases List.mem_cons.mp ((table_insert_inv h2).2.mem_iff.mp he) with a | a
        · rw [a]
        · exact hinv1 e a
      cases h3 : s.author_table.insert data.author (s.siz + 1) with
      | error e =>
        simp only []
        rw [(insertCatch_state _ isbn e).1]
        exact ⟨⟨by simp, hinv2⟩, fun p h => absurd h ((insertCatch_state _ isbn e).2 p)⟩
      | ok t3 =>
        simp only []
        cases h4 : insertKeys (s.siz + 1) data.keys s.key_table with
        | mk o t4 =>
          cases o with
          | some e =>
            simp only []
            rw [(insertCatch_state _ isbn e).1]
            exact ⟨⟨by simp, hinv2⟩, fun p h => absurd h ((insertCatch_state _ isbn e).2 p)⟩
          | none =>
            simp only []
            refine ⟨⟨by simp, hinv2⟩, fun p h => ?_⟩
            simp only [Ended.returned.injEq, Prod.mk.injEq, and_true] at h
            exact ⟨h.symm, trivial⟩

theorem eraseCatch_state (s : BookFileSystem) (e : NormalException) :
    (s.eraseCatch e).2 = s ∧ ∀ p, (s.eraseCatch e).1 ≠ .returned (p, true) := by
  unfold BookFileSystem.eraseCatch
  by_cases he : e = .ULL_ERASE_NOT_FOUND
  · rw [if_pos he]
    exact ⟨rfl, fun q h => by simp at h⟩
  · rw [if_neg he]
    exact ⟨rfl, fun q h => by simp at h⟩

/-- The counter and the name index after `erase`, however the call ends; a slot
it returns with `true` had an entry in the name index. -/
theorem erase_counter (s : BookFileSystem) (isbn : IsbnStr)
    (hinv : ∀ e ∈ s.name_table.rows, e.value ≤ s.siz) :
    ((s.erase isbn).2.siz = s.siz ∧
      ∀ e ∈ (s.erase isbn).2.name_table.rows, e.value ≤ s.siz) ∧
    ∀ p, (s.erase isbn).1 = .returned (p, true) → p ≤ s.siz := by
  unfold BookFileSystem.erase
  cases h1 : s.isbn_table.erase isbn with
  | error e =>
    simp only []
    rw [(eraseCatch_state s e).1]
    exact ⟨⟨rfl, hinv⟩, fun p h => absurd h ((eraseCatch_state s e).2 p)⟩
  | ok r =>
    obtain ⟨pos, t1⟩ := r
    simp only []
    cases h2 : s.name_table.erase (s.file.find pos).1.name pos with
    | error e =>
      simp only []
      rw [(eraseCatch_state _ e).1]
      exact ⟨⟨rfl, hinv⟩, fun p h => absurd h ((eraseCatch_state _ e).2 p)⟩
    | ok t2 =>
      simp only []
      obtain ⟨hmem, hrows⟩ := table_erase_inv h2
      have hinv2 : ∀ e ∈ t2.rows, e.value ≤ s.siz := fun e he =>
        hinv e ((List.erase_sublist _ _).subset (hrows ▸ he))
      cases h3 : s.author_table.erase (s.file.find pos).1.author pos with
      | error e =>
        simp only []
        rw [(eraseCatch_state _ e).1]
        exact ⟨⟨rfl, hinv2⟩, fun p h => absurd h ((eraseCatch_state _ e).2 p)⟩
      | ok t3 =>
        simp only []
        cases h4 : eraseKeys s.siz (s.file.find pos).1.keys s.key_table with
        | mk o t4 =>
          cases o with
          | some e =>
            simp only []
            rw [(eraseCatch_state _ e).1]
            exact ⟨⟨rfl, hinv2⟩, fun p h => absurd h ((eraseCatch_state _ e).2 p)⟩
          | none =>
            simp only []
            refine ⟨⟨by trivial, hinv2⟩, fun p h => ?_⟩
            simp only [Ended.returned.injEq, Prod.mk.injEq, and_true] at h
            rw [← h]
            exact hinv _ hmem

theorem editIsbn_fail {s : BookFileSystem} {pos : Int} {data tmp : BookInfo}
    {x : Ended (Int × Bool) × BookFileSystem} (h : s.editIsbn pos data tmp = .error x) :
    x.2.siz = s.siz ∧ x.2.name_table = s.name_table := by
  unfold BookFileSystem.editIsbn at h
  by_cases hb : data.isbn = []
  · rw [if_neg (not_not.mpr hb)] at h; cases h
  · rw [if_pos hb] at h
    cases hf : s.isbn_table.find data.isbn with
    | ok p0 =>
      rw [hf] at h
      simp only [Except.error.injEq] at h
      subst h
      exact ⟨rfl, rfl⟩
    | error e =>
      rw [hf] at h
      cases e with
      | ULL_INSERTED => simp only [Except.error.injEq] at h; subst h; exact ⟨rfl, rfl⟩
      | ULL_ERASE_NOT_FOUND => simp only [Except.error.injEq] at h; subst h; exact ⟨rfl, rfl⟩
      | ULL_NOT_FOUND =>
        simp only at h
        cases he : s.isbn_table.erase tmp.isbn with
        | error e => rw [he] at h; simp only [Except.error.injEq] at h; subst h; exact ⟨rfl, rfl⟩
        | ok r =>
          obtain ⟨v, t1⟩ := r
          rw [he] at h
          simp only at h
          cases hi : t1.insert data.isbn pos with
          | error e =>
            rw [hi] at h; simp only [Except.error.injEq] at h; subst h; exact ⟨rfl, rfl⟩
          | ok t2 => rw [hi] at h; cases h

theorem editName_fail {s : BookFileSystem} {pos : Int} {data tmp : BookInfo}
    {x : Ended (Int × Bool) × BookFileSystem} (h : s.editName pos data tmp = .error x) :
    x.2.siz = s.siz ∧ ∀ e ∈ x.2.name_table.rows, e ∈ s.name_table.rows := by
  unfold BookFileSystem.editName at h
  by_cases hb : data.name = []
  · rw [if_neg (not_not.mpr hb)] at h; cases h
  · rw [if_pos hb] at h
    cases he : s.name_table.erase tmp.name pos with
    | error e =>
      rw [he] at h; simp only [Except.error.injEq] at h; subst h
      exact ⟨rfl, fun e he => he⟩
    | ok t1 =>
      rw [he] at h
      simp only at h
      cases hi : t1.insert data.name pos with
      | error e =>
        rw [hi] at h; simp only [Except.error.injEq] at h; subst h
        exact ⟨rfl, fun e hm =>
          (List.erase_sublist _ _).subset ((table_erase_inv he).2 ▸ hm)⟩
      | ok t2 => rw [hi] at h; cases h

theorem editAuthor_fail {s : BookFileSystem} {pos : Int} {data tmp : BookInfo}
    {x : Ended (Int × Bool) × BookFileSystem} (h : s.editAuthor pos data tmp = .error x) :
    x.2.siz = s.siz ∧ x.2.name_table = s.name_table := by
  unfold BookFileSystem.editAuthor at h
  by_cases hb : data.author = []
  · rw [if_neg (not_not.mpr hb)] at h; cases h
  · rw [if_pos hb] at h
    cases he : s.author_table.erase tmp.author pos with
    | error e =>
      rw [he] at h; simp only [Except.error.injEq] at h; subst h; exact ⟨rfl, rfl⟩
    | ok t1 =>
      rw [he] at h
      simp only at h
      cases hi : t1.insert data.author pos with
      | error e =>
        rw [hi] at h; simp only [Except.error.injEq] at h; subst h; exact ⟨rfl, rfl⟩
      | ok t2 => rw [hi] at h; cases h

theorem editKeys_fail {s : BookFileSystem} {pos : Int} {data tmp : BookInfo}
    {x : Ended (Int × Bool) × BookFileSystem} (h : s.editKeys pos data tmp = .error x) :
    x.2.siz = s.siz ∧ x.2.name_table = s.name_table := by
  unfold BookFileSystem.editKeys at h
  by_cases hb : data.keyword_cnt = 0
  · rw [if_neg (not_not.mpr hb)] at h; cases h
  · rw [if_pos hb] at h
    cases he : eraseKeys pos tmp.keys s.key_table with
    | mk o t1 =>
      rw [he] at h
      cases o with
      | some e => simp only [Except.error.injEq] at h; subst h; exact ⟨rfl, rfl⟩
      | none =>
        simp only at h
        cases hi : insertKeys pos data.keys t1 with
        | mk o2 t2 =>
          rw [hi] at h
          cases o2 with
          | some e => simp only [Except.error.injEq] at h; subst h; exact ⟨rfl, rfl⟩
          | none => cases h

/-- The counter and the name index after `edit`, however the call ends. -/
theorem editFrom_counter (s : BookFileSystem) (pos : Int) (data tmp : BookInfo)
    (hinv : ∀ e ∈ s.name_table.rows, e.value ≤ s.siz) :
    (s.editFrom pos data tmp).2.siz = s.siz ∧
      ∀ e ∈ (s.editFrom pos data tmp).2.name_table.rows, e.value ≤ s.siz := by
  unfold BookFileSystem.editFrom
  cases h1 : s.editIsbn pos data tmp with
  | error x =>
    obtain ⟨a, b⟩ := editIsbn_fail h1
    exact ⟨a, by rw [b]; exact hinv⟩
  | ok r1 =>
    obtain ⟨s1, tmp1⟩ := r1
    obtain ⟨_, ti, f1, _⟩ := editIsbn_ok h1
    subst f1
    simp only []
    cases h2 : BookFileSystem.editName { s with isbn_table := ti } pos data tmp1 with
    | error x =>
      obtain ⟨a, b⟩ := editName_fail h2
      exact ⟨a, fun e he => hinv e (b e he)⟩
    | ok r2 =>
      obtain ⟨s2, tmp2⟩ := r2
      obtain ⟨_, tn, f2, cn⟩ := editName_ok h2
      subst f2
      simp only []
      have hinv2 : ∀ e ∈ tn.rows, e.value ≤ s.siz := by
        rcases cn with ⟨_, rfl⟩ | ⟨_, t1, he, hi⟩
        · exact hinv
        · intro e hm
          obtain ⟨hmem, hrows⟩ := table_erase_inv he
          rcases List.mem_cons.mp ((table_insert_inv hi).2.mem_iff.mp hm) with a | a
          · rw [a]
            exact hinv ⟨tmp1.name, pos⟩ hmem
          · exact hinv e ((List.erase_sublist _ _).subset (hrows ▸ a))
      cases h3 : BookFileSystem.editAuthor
          ⟨s.file, ti, tn, s.author_table, s.key_table, s.siz⟩ pos data tmp2 with
      | error x =>
        obtain ⟨a, b⟩ := editAuthor_fail h3
        exact ⟨a, by rw [b]; exact hinv2⟩
      | ok r3 =>
        obtain ⟨s3, tmp3⟩ := r3
        obtain ⟨_, ta, f3, _⟩ := editAuthor_ok h3
        subst f3
        simp only []
        cases h4 : BookFileSystem.editKeys
            ⟨s.file, ti, tn, ta, s.key_table, s.siz⟩ pos data tmp3 with
        | error x =>
          obtain ⟨a, b⟩ := editKeys_fail h4
          exact ⟨a, by rw [b]; exact hinv2⟩
        | ok r4 =>
          obtain ⟨s4, tmp4⟩ := r4
          obtain ⟨_, tk, f4, _⟩ := editKeys_ok h4
          subst f4
          simp only [editWrite_eq]
          exact ⟨by trivial, hinv2⟩

theorem edit_counter (s : BookFileSystem) (pos : Int) (data : BookInfo)
    (hinv : ∀ e ∈ s.name_table.rows, e.value ≤ s.siz) :
    (s.edit pos data).2.siz = s.siz ∧
      ∀ e ∈ (s.edit pos data).2.name_table.rows, e.value ≤ s.siz := by
  rw [edit_steps]
  exact editFrom_counter { s with file := (s.file.find pos).2 } pos data (s.file.find pos).1 hinv

theorem import_counter (s : BookFileSystem) (pos q : Int) (cost : Rat) :
    (s.import_ pos q cost).2.siz = s.siz ∧
      (s.import_ pos q cost).2.name_table = s.name_table := by
  unfold BookFileSystem.import_
  by_cases h0 : pos = 0
  · rw [if_pos h0]
    exact ⟨rfl, rfl⟩
  · rw [if_neg h0]
    exact ⟨rfl, rfl⟩

theorem buy_counter (s : BookFileSystem) (isbn : IsbnStr) (q : Int) :
    (s.buy isbn q).2.siz = s.siz ∧ (s.buy isbn q).2.name_table = s.name_table := by
  unfold BookFileSystem.buy
  cases s.isbn_table.find isbn with
  | error e =>
    by_cases he : e = .ULL_NOT_FOUND
    · simp only [he, if_true, and_self]
    · simp only [he, if_false, and_self]
  | ok p =>
    by_cases hq : (s.file.find p).1.quantity < q
    · simp only [hq, if_true, and_self]
    · simp only [hq, if_false, and_self]

theorem inserted_insert (s : BookFileSystem) (isbn : IsbnStr) (data : BookInfo) (p : Int) :
    (Call.insert isbn data).inserted s = some p ↔ (s.insert isbn data).1 = .returned (p, true) := by
  change (match (s.insert isbn data).1 with
    | .returned (p, true) => some p
    | _ => none) = some p ↔ _
  generalize (s.insert isbn data).1 = r
  cases r with
  | returned x =>
    obtain ⟨q, ok⟩ := x
    cases ok <;> simp
  | threw e => simp
  | exited => simp

theorem erased_erase (s : BookFileSystem) (isbn : IsbnStr) (p : Int) :
    (Call.erase isbn).erased s = some p ↔ (s.erase isbn).1 = .returned (p, true) := by
  change (match (s.erase isbn).1 with
    | .returned (p, true) => some p
    | _ => none) = some p ↔ _
  generalize (s.erase isbn).1 = r
  cases r with
  | returned x =>
    obtain ⟨q, ok⟩ := x
    cases ok <;> simp
  | threw e => simp
  | exited => simp

/-- One call: the counter does not decrease, no entry of the name index points
past it afterwards, a successful `insert` returns the counter plus one and
leaves it there, a successful `erase` returns a slot not past the counter. -/
theorem call_counter (s : BookFileSystem) (c : Call)
    (hinv : ∀ e ∈ s.name_table.rows, e.value ≤ s.siz) :
    s.siz ≤ (c.next s).siz ∧
    (∀ e ∈ (c.next s).name_table.rows, e.value ≤ (c.next s).siz) ∧
    (∀ p, c.inserted s = some p → p = s.siz + 1 ∧ (c.next s).siz = s.siz + 1) ∧
    (∀ p, c.erased s = some p → p ≤ s.siz) := by
  cases c with
  | insert isbn data =>
    obtain ⟨⟨a, b⟩, d⟩ := insert_counter s isbn data hinv
    exact ⟨a, b, fun p hp => d p ((inserted_insert s isbn data p).mp hp),
      fun p hp => by simp [Call.erased] at hp⟩
  | erase isbn =>
    obtain ⟨⟨a, b⟩, d⟩ := erase_counter s isbn hinv
    refine ⟨by show s.siz ≤ (s.erase isbn).2.siz; omega,
      fun e he => by
        show e.value ≤ (s.erase isbn).2.siz
        rw [a]
        exact b e he,
      fun p hp => by simp [Call.inserted] at hp,
      fun p hp => d p ((erased_erase s isbn p).mp hp)⟩
  | edit pos data =>
    obtain ⟨a, b⟩ := edit_counter s pos data hinv
    refine ⟨by show s.siz ≤ (s.edit pos data).2.siz; omega,
      fun e he => by
        show e.value ≤ (s.edit pos data).2.siz
        rw [a]
        exact b e he,
      fun p hp => by simp [Call.inserted] at hp, fun p hp => by simp [Call.erased] at hp⟩
  | restock pos q cost =>
    obtain ⟨a, b⟩ := import_counter s pos q cost
    refine ⟨by show s.siz ≤ (s.import_ pos q cost).2.siz; omega,
      fun e he => by
        have he2 : e ∈ (s.import_ pos q cost).2.name_table.rows := he
        show e.value ≤ (s.import_ pos q cost).2.siz
        rw [a]
        rw [b] at he2
        exact hinv e he2,
      fun p hp => by simp [Call.inserted] at hp, fun p hp => by simp [Call.erased] at hp⟩
  | buy isbn q =>
    obtain ⟨a, b⟩ := buy_counter s isbn q
    refine ⟨by show s.siz ≤ (s.buy isbn q).2.siz; omega,
      fun e he => by
        have he2 : e ∈ (s.buy isbn q).2.name_table.rows := he
        show e.value ≤ (s.buy isbn q).2.siz
        rw [a]
        rw [b] at he2
        exact hinv e he2,
      fun p hp => by simp [Call.inserted] at hp, fun p hp => by simp [Call.erased] at hp⟩

theorem history_counter (calls : List Call) :
    ∀ s : BookFileSystem, (∀ e ∈ s.name_table.rows, e.value ≤ s.siz) →
      (∀ a ∈ history s calls, s.siz ≤ a.1.siz ∧
        (∀ e ∈ a.1.name_table.rows, e.value ≤ a.1.siz)) ∧
      (history s calls).Pairwise fun a b => a.1.siz ≤ b.1.siz ∧
        (∀ p q, a.2.inserted a.1 = some p → b.2.inserted b.1 = some q → p < q) ∧
        (∀ p q, a.2.erased a.1 = some p → b.2.inserted b.1 = some q → p < q) := by
  induction calls with
  | nil =>
    intro s _
    exact ⟨fun a ha => (by cases ha), List.Pairwise.nil⟩
  | cons c cs ih =>
    intro s hinv
    obtain ⟨c1, c2, c3, c4⟩ := call_counter s c hinv
    obtain ⟨i1, i2⟩ := ih (c.next s) c2
    constructor
    · intro a ha
      rcases List.mem_cons.mp ha with h | h
      · rw [h]
        exact ⟨le_refl _, hinv⟩
      · exact ⟨c1.trans (i1 a h).1, (i1 a h).2⟩
    · refine List.pairwise_cons.mpr ⟨fun b hb => ?_, i2⟩
      obtain ⟨b1, b2⟩ := i1 b hb
      obtain ⟨_, _, b3, _⟩ := call_counter b.1 b.2 b2
      refine ⟨c1.trans b1, fun p q hp hq => ?_, fun p q hp hq => ?_⟩
      · have := (c3 p hp)
        have := (b3 q hq).1
        show p < q
        omega
      · have := c4 p hp
        have := (b3 q hq).1
        show p < q
        omega

/-- C22: slot numbers are never reused. Start from a catalog in which no entry
of the name index points past the slot counter, as in the empty catalog, and
make any sequence of `insert`, `erase`, `edit`, `import` and `buy` calls. No
call decreases the counter `siz`; every `insert` that returns `(p, true)`
returns the counter's previous value plus one and leaves the counter there; the
counter a later call starts from is not below the one an earlier call started
from; of two successful inserts the later returns the greater slot; and a slot
returned by a successful `erase` is below every slot a later `insert`
returns. -/
theorem slots_never_reused (s : BookFileSystem) (calls : List Call)
    (hinv : ∀ e ∈ s.name_table.rows, e.value ≤ s.siz) :
    (∀ a ∈ history s calls, a.1.siz ≤ (a.2.next a.1).siz ∧
      ∀ p, a.2.inserted a.1 = some p →
        p = a.1.siz + 1 ∧ (a.2.next a.1).siz = a.1.siz + 1) ∧
    (history s calls).Pairwise fun a b => a.1.siz ≤ b.1.siz ∧
      (∀ p q, a.2.inserted a.1 = some p → b.2.inserted b.1 = some q → p < q) ∧
      (∀ p q, a.2.erased a.1 = some p → b.2.inserted b.1 = some q → p < q) := by
  obtain ⟨h1, h2⟩ := history_counter calls s hinv
  refine ⟨fun a ha => ?_, h2⟩
  obtain ⟨c1, _, c3, _⟩ := call_counter a.1 a.2 (h1 a ha).2
  exact ⟨c1, c3⟩

/-- C22 at a concrete input: the five calls of `demoHistory` on the empty
catalog. The inserts return the slots 1, 2 and 3; the slot 2 of the erased
record is not handed out again. -/
theorem slots_never_reused_witness :
    ((history BookFileSystem.empty demoHistory).map (fun a => a.2.inserted a.1) =
        [some 1, some 2, none, none, some 3] ∧
      (history BookFileSystem.empty demoHistory).map (fun a => a.2.erased a.1) =
        [none, none, some 2, none, none]) ∧
    (history BookFileSystem.empty demoHistory).Pairwise fun a b => a.1.siz ≤ b.1.siz ∧
      (∀ p q, a.2.inserted a.1 = some p → b.2.inserted b.1 = some q → p < q) ∧
      (∀ p q, a.2.erased a.1 = some p → b.2.inserted b.1 = some q → p < q) :=
  ⟨by decide, (slots_never_reused BookFileSystem.empty demoHistory (by decide)).2⟩

/-! ### `BookFileSystem::insert` on a record that repeats a keyword -/

/-- C32, evaluated. In the empty catalog the identifier "i" is absent, yet
`insert("i", twiceKeyword)` returns `(1, false)`: the second `key_table.insert`
of the keyword "x" throws the duplicate error, which the handler takes for a
present identifier. The counter is 1 by then and the identifier, name, author
and first keyword entries are stored, while slot 1 holds no record, so the
search by identifier yields the default record with `pos = 1`. `AddBook`
reports "Insert a book that already exists", and so does every later call for
"i". -/
theorem insert_repeated_keyword_false :
    BookFileSystem.empty.isbn_table.find [105] = .error .ULL_NOT_FOUND ∧
    twiceKeyword.keys = [[120], [120]] ∧
    (BookFileSystem.insert BookFileSystem.empty [105] twiceKeyword).1 = .returned (1, false) ∧
    catalogHalf.siz = 1 ∧ catalogHalf.isbn_table.rows = [⟨[105], 1⟩] ∧
    catalogHalf.name_table.rows = [⟨[110], 1⟩] ∧ catalogHalf.author_table.rows = [⟨[97], 1⟩] ∧
    catalogHalf.key_table.rows = [⟨[120], 1⟩] ∧ catalogHalf.file = ⟨[], false⟩ ∧
    (catalogHalf.file.find 1).1 = default ∧
    (catalogHalf.FileSearchByISBN [105]).1 = .returned { (default : BookInfo) with pos := 1 } ∧
    (BookSystem.AddBook ⟨BookFileSystem.empty, [0], [0]⟩ [105] twiceKeyword).1 =
      .invalid .alreadyExists ∧
    (BookSystem.AddBook ⟨catalogHalf, [0], [0]⟩ [105] demoBook).1 = .invalid .alreadyExists := by
  decide

end book

end bookstore
